import Mathlib

/-!
# dustdb: the sharded in-memory cache, its numeric operations and its line protocol

A shallow embedding of `cmd/main.go` (the sharded cache: `Cache.Set`, `Cache.Get`,
`Cache.Delete`, `Cache.GetAll`, `Cache.evictExpired`, and the protocol handler
`handleConnection`) and of `cmd/external.go` (`NumericOperations.INCR`, `DECR`, their wrappers
and `UpdateExpiration`), followed by the properties proved about them.

Modelling conventions.

* A Go `map[string]CacheEntry` is a list of key/entry pairs read with `List.lookup`; storing a
  key first removes every pair with that key, so a table behaves as a finite partial function.
* `int64` values are `Int`s, wrapped explicitly with `wrapInt64` where Go arithmetic can
  overflow; `uint64` counters are `Nat`s reduced modulo `2 ^ 64`.
* The clock is explicit: every operation that calls `time.Now()` takes the value `now` that
  `time.Now().UnixNano()` returns at that call.
* Each operation runs atomically (the shard lock is held around every table access), so an
  operation is a function from the state before to the state after. The two operations that
  release the lock and take it again, `Get` on an expired entry and `evictExpired` on every
  shard, are also given with their critical sections apart (`GetWith`, `evictExpiredWith`):
  a parameter `between` stands for what the other goroutines do in the window.
* Go strings are modelled by `String`: `getShard` hashes the UTF-8 bytes, and `strconv` and
  `time.ParseDuration` read the characters (only ASCII characters are signs, digits or the
  decimal point, so this agrees with Go's byte-wise reading).
* A connection is the list of lines that `reader.ReadString` returns before its first error,
  each with the clock reading at which it is handled; the replies are the list of the byte
  strings passed to `conn.Write`.
-/

namespace DustDB

/-! ## Machine integers -/

/-- The largest `int64`. -/
def maxInt64 : Int := 2 ^ 63 - 1

/-- The smallest `int64`. -/
def minInt64 : Int := -(2 ^ 63)

/-- Two's-complement reduction of a mathematical integer to the `int64` range. -/
def wrapInt64 (x : Int) : Int := (x + 2 ^ 63) % 2 ^ 64 - 2 ^ 63

/-- Reduction of a natural number to the `uint64` range. -/
def wrapUint64 (x : Nat) : Nat := x % 2 ^ 64

/-- The effect of `atomic.AddUint64(&ctr, delta)` on the counter. -/
def atomicAddUint64 (ctr delta : Nat) : Nat := wrapUint64 (ctr + delta)

/-! ## Data model (`cmd/main.go`) -/

/-- The constant `ShardCount`. -/
def ShardCount : Nat := 1024

/-- The struct `CacheEntry`: a value with its expiration time (Unix nanoseconds, `0` = none). -/
structure CacheEntry where
  Value : String
  ExpireAt : Int
deriving DecidableEq, Repr

/-- The struct `CacheShard`: the `data` map of one shard (the mutex is not state). -/
structure CacheShard where
  data : List (String × CacheEntry)
deriving DecidableEq, Repr

/-- The struct `CacheStats`. -/
structure CacheStats where
  Gets : Nat
  Sets : Nat
  Deletes : Nat
  Hits : Nat
  Misses : Nat
  Evictions : Nat
  ActiveConns : Int
deriving DecidableEq, Repr

/-- The struct `Cache` (the shutdown channel is not modelled). -/
structure Cache where
  shards : List CacheShard
  shardMask : Nat
  stats : CacheStats
deriving DecidableEq, Repr

namespace CacheShard

/-- The map read `entry, exists := shard.data[key]`. -/
def lookup (s : CacheShard) (key : String) : Option CacheEntry :=
  s.data.lookup key

/-- The builtin `delete(shard.data, key)`. -/
def delete (s : CacheShard) (key : String) : CacheShard :=
  ⟨s.data.filter (fun p => p.1 != key)⟩

/-- The map write `shard.data[key] = entry`. -/
def store (s : CacheShard) (key : String) (entry : CacheEntry) : CacheShard :=
  ⟨(key, entry) :: (s.delete key).data⟩

end CacheShard

/-- The function `NewCache` (the eviction worker it starts is a separate process). -/
def NewCache : Cache :=
  { shards := List.replicate ShardCount ⟨[]⟩
    shardMask := wrapUint64 (ShardCount - 1)
    stats := ⟨0, 0, 0, 0, 0, 0, 0⟩ }

/-- The bytes of a Go string. -/
def keyBytes (key : String) : List Nat :=
  key.toUTF8.toList.map UInt8.toNat

/-- The loop of `getShard`: `h ^= uint64(key[i]); h *= 0x100000001b3` from `h = 0`. -/
def hashKey (key : String) : Nat :=
  (keyBytes key).foldl (fun h b => wrapUint64 ((h ^^^ b) * 0x100000001b3)) 0

/-- The index `h & c.shardMask` that `getShard` selects. -/
def shardIndex (c : Cache) (key : String) : Nat :=
  hashKey key &&& c.shardMask

/-- The method `Cache.getShard`: the shard `c.shards[h & c.shardMask]`.
An index out of range panics in Go; it cannot occur in a well-formed cache (`WF`). -/
def getShard (c : Cache) (key : String) : CacheShard :=
  c.shards.getD (shardIndex c key) ⟨[]⟩

/-- A write through the pointer that `getShard` returns. -/
def putShard (c : Cache) (key : String) (s : CacheShard) : Cache :=
  { c with shards := c.shards.set (shardIndex c key) s }

/-- The method `Cache.Set`, executed when the clock reads `now`. -/
def Set (c : Cache) (key value : String) (ttl : Int) (now : Int) : Cache :=
  let shard := getShard c key
  let expireAt : Int := if ttl > 0 then wrapInt64 (now + ttl) else 0
  let c1 := putShard c key (shard.store key ⟨value, expireAt⟩)
  { c1 with stats := { c1.stats with Sets := atomicAddUint64 c1.stats.Sets 1 } }

/-- The method `Cache.Get`, executed when the clock reads `now`: the pair returned and the
cache afterwards. -/
def Get (c : Cache) (key : String) (now : Int) : (String × Bool) × Cache :=
  let shard := getShard c key
  match shard.lookup key with
  | none =>
    (("", false),
      { c with stats := { c.stats with
          Gets := atomicAddUint64 c.stats.Gets 1
          Misses := atomicAddUint64 c.stats.Misses 1 } })
  | some entry =>
    if entry.ExpireAt > 0 ∧ now > entry.ExpireAt then
      let c1 := putShard c key (shard.delete key)
      (("", false),
        { c1 with stats := { c1.stats with
            Gets := atomicAddUint64 c1.stats.Gets 1
            Misses := atomicAddUint64 c1.stats.Misses 1
            Evictions := atomicAddUint64 c1.stats.Evictions 1 } })
    else
      ((entry.Value, true),
        { c with stats := { c.stats with
            Gets := atomicAddUint64 c.stats.Gets 1
            Hits := atomicAddUint64 c.stats.Hits 1 } })

/-- The method `Cache.Delete`: the boolean returned and the cache afterwards. -/
def Delete (c : Cache) (key : String) : Bool × Cache :=
  let shard := getShard c key
  match shard.lookup key with
  | some _ =>
    let c1 := putShard c key (shard.delete key)
    (true, { c1 with stats := { c1.stats with Deletes := atomicAddUint64 c1.stats.Deletes 1 } })
  | none => (false, c)

/-! ## `strconv` (Go standard library), base 10 and 64 bits -/

/-- The two failures of `strconv.ParseInt` / `strconv.ParseUint`. -/
inductive NumError where
  | ErrSyntax
  | ErrRange
deriving DecidableEq, Repr

/-- The largest `uint64`, `maxVal` of `strconv.ParseUint` for 64 bits. -/
def maxUint64 : Nat := 2 ^ 64 - 1

/-- The `cutoff` of `strconv.ParseUint` for base 10: `maxUint64/10 + 1`. -/
def parseCutoff : Nat := maxUint64 / 10 + 1

/-- The digit loop of `strconv.ParseUint(s, 10, 64)` over the remaining characters, with the
accumulator `n`. A character other than `0`..`9` is a syntax error (a letter is a digit value
of at least 10, which base 10 rejects; every byte of a non-ASCII character is no digit). -/
def parseUintLoop : List Char → Nat → Except NumError Nat
  | [], n => .ok n
  | ch :: cs, n =>
    if '0' ≤ ch ∧ ch ≤ '9' then
      let d := ch.toNat - '0'.toNat
      if n ≥ parseCutoff then .error .ErrRange
      else
        let n10 := wrapUint64 (n * 10)
        let n1 := wrapUint64 (n10 + d)
        if n1 < n10 ∨ n1 > maxUint64 then .error .ErrRange
        else parseUintLoop cs n1
    else .error .ErrSyntax

/-- The function `strconv.ParseUint(s, 10, 64)` on the characters of `s`. -/
def ParseUint (s : List Char) : Except NumError Nat :=
  match s with
  | [] => .error .ErrSyntax
  | _ => parseUintLoop s 0

/-- The function `strconv.ParseInt(s, 10, 64)`: an optional sign, then `ParseUint`, then the
range check against `1 << 63`. -/
def ParseInt (s : String) : Except NumError Int :=
  match s.data with
  | [] => .error .ErrSyntax
  | ch :: cs =>
    let neg : Bool := ch == '-'
    let rest := if ch = '+' ∨ ch = '-' then cs else ch :: cs
    match ParseUint rest with
    | .error e => .error e
    | .ok un =>
      if !neg ∧ un ≥ 2 ^ 63 then .error .ErrRange
      else if neg ∧ un > 2 ^ 63 then .error .ErrRange
      else .ok (if neg then -(un : Int) else (un : Int))

/-- The function `strconv.FormatInt(i, 10)`: the decimal digits of `|i|`, after `-` when
`i < 0`. -/
def FormatInt (i : Int) : String :=
  if i < 0 then "-" ++ (Nat.toDigits 10 (-i).toNat).asString
  else (Nat.toDigits 10 i.toNat).asString

/-! ## Numeric operations (`cmd/external.go`) -/

/-- The error values declared in `cmd/external.go`. -/
inductive NumericError where
  | ErrNotNumeric
  | ErrOverflow
  | ErrUnderflow
  | ErrKeyNotFound
  | ErrInvalidAmount
deriving DecidableEq, Repr

/-- The method `NumericOperations.INCR`: the pair `(int64, error)` returned (`none` is a nil
error) and the cache afterwards. -/
def INCR (c : Cache) (key : String) (amount : Int) : (Int × Option NumericError) × Cache :=
  if amount = 0 then ((0, some .ErrInvalidAmount), c)
  else
    let shard := getShard c key
    let found := shard.lookup key
    -- `entry` is the zero `CacheEntry` when the key does not exist
    let entry : CacheEntry := found.getD ⟨"", 0⟩
    let parsed : Except NumError Int :=
      match found with
      | none => .ok 0
      | some e => ParseInt e.Value
    match parsed with
    | .error _ => ((0, some .ErrNotNumeric), c)
    | .ok currentValue =>
      if (amount > 0 ∧ currentValue > wrapInt64 (maxInt64 - amount)) ∨
         (amount < 0 ∧ currentValue < wrapInt64 (minInt64 + amount)) then
        ((0, some .ErrOverflow), c)
      else
        let newValue := wrapInt64 (currentValue + amount)
        ((newValue, none),
          putShard c key (shard.store key ⟨FormatInt newValue, entry.ExpireAt⟩))

/-- The method `NumericOperations.DECR`. -/
def DECR (c : Cache) (key : String) (amount : Int) : (Int × Option NumericError) × Cache :=
  if amount ≤ 0 then ((0, some .ErrInvalidAmount), c)
  else INCR c key (wrapInt64 (-amount))

/-- The method `NumericOperations.IncrBy`. -/
def IncrBy (c : Cache) (key : String) (amount : Int) : (Int × Option NumericError) × Cache :=
  INCR c key amount

/-- The method `NumericOperations.DecrBy`. -/
def DecrBy (c : Cache) (key : String) (amount : Int) : (Int × Option NumericError) × Cache :=
  DECR c key amount

/-- The method `NumericOperations.Incr`. -/
def Incr (c : Cache) (key : String) : (Int × Option NumericError) × Cache :=
  INCR c key 1

/-- The method `NumericOperations.Decr`. -/
def Decr (c : Cache) (key : String) : (Int × Option NumericError) × Cache :=
  DECR c key 1

/-! ## Well-formed caches -/

/-- The invariant `NewCache` establishes: `ShardCount` shards and `shardMask = ShardCount - 1`. -/
structure WF (c : Cache) : Prop where
  len : c.shards.length = ShardCount
  mask : c.shardMask = ShardCount - 1

/-! ## Derived notions used in the statements -/

/-- The entry the cache holds for `key`: the read `shard.data[key]` in the shard of `key`. -/
def Cache.entry (c : Cache) (key : String) : Option CacheEntry :=
  (getShard c key).lookup key

/-- The value of a digit string read in base 10 from the accumulator `n`, without bounds. -/
def decimalValue (n : Nat) (digits : List Char) : Nat :=
  digits.foldl (fun a ch => a * 10 + (ch.toNat - 48)) n

/-- The integer a decimal numeral denotes, following the words "base-10 text of an integer":
an optional sign `+` or `-`, then one or more digits `0`..`9`; `none` for any other string. -/
def decimalText? (s : String) : Option Int :=
  match s.data with
  | [] => none
  | ch :: cs =>
    let digits := if ch = '+' ∨ ch = '-' then cs else ch :: cs
    if digits ≠ [] ∧ digits.all Char.isDigit = true then
      some (if ch = '-' then -(decimalValue 0 digits : Int) else (decimalValue 0 digits : Int))
    else none

/-- The string `s` is the base-10 text of the signed 64-bit integer `n`. -/
def IsInt64Text (s : String) (n : Int) : Prop :=
  decimalText? s = some n ∧ minInt64 ≤ n ∧ n ≤ maxInt64

instance (s : String) (n : Int) : Decidable (IsInt64Text s n) := by
  unfold IsInt64Text; infer_instance

/-- The integer that `key` holds for the numeric operations: `0` when the key is absent,
otherwise the signed 64-bit integer whose base-10 text is the stored value. -/
def HoldsInt (c : Cache) (key : String) (n : Int) : Prop :=
  match c.entry key with
  | none => n = 0
  | some e => IsInt64Text e.Value n

instance (c : Cache) (key : String) (n : Int) : Decidable (HoldsInt c key n) := by
  unfold HoldsInt
  cases c.entry key <;> infer_instance

/-- Successive calls `Get(key)` at the instants `ts`: the results in call order and the cache
after the last call. -/
def getSeq (c : Cache) (key : String) : List Int → List (String × Bool) × Cache
  | [] => ([], c)
  | t :: ts =>
    let r := Get c key t
    let rs := getSeq r.2 key ts
    (r.1 :: rs.1, rs.2)

/-- The execution of `n` calls `Incr(key)` one after the other (each call holds the shard
write lock from its read to its write, so concurrent calls execute in some serial order, and
the calls being identical every order is this one): the results in execution order and the
cache after the last call. -/
def incrSeq (c : Cache) (key : String) : Nat → List (Int × Option NumericError) × Cache
  | 0 => ([], c)
  | n + 1 =>
    let r := Incr c key
    let rs := incrSeq r.2 key n
    (r.1 :: rs.1, rs.2)

/-! ## `UpdateExpiration` (`cmd/external.go`) -/

/-- The method `NumericOperations.UpdateExpiration`, executed when the clock reads `now`: the
boolean returned and the cache afterwards. -/
def UpdateExpiration (c : Cache) (key : String) (ttl : Int) (now : Int) : Bool × Cache :=
  let shard := getShard c key
  match shard.lookup key with
  | none => (false, c)
  | some entry =>
    let expireAt : Int := if ttl > 0 then wrapInt64 (now + ttl) else 0
    (true, putShard c key (shard.store key { entry with ExpireAt := expireAt }))

/-! ## `GetAll` (`cmd/main.go`) -/

/-- The map write `result[k] = v` on the `map[string]string` that `GetAll` builds. -/
def mapStore (m : List (String × String)) (k v : String) : List (String × String) :=
  (k, v) :: m.filter (fun p => p.1 != k)

/-- The inner loop of `GetAll` over one shard table: every entry with
`entry.ExpireAt == 0 || now < entry.ExpireAt` is written to `result`. -/
def collectLive (now : Int) (result : List (String × String))
    (data : List (String × CacheEntry)) : List (String × String) :=
  data.foldl (fun r p =>
    if p.2.ExpireAt = 0 ∨ now < p.2.ExpireAt then mapStore r p.1 p.2.Value else r) result

/-- The method `Cache.GetAll`, executed when the clock reads `now`: the result map, read with
`List.lookup`. The shards are visited in order; Go leaves the order within a table open,
which cannot matter for a table without repeated keys. -/
def GetAll (c : Cache) (now : Int) : List (String × String) :=
  c.shards.foldl (fun result shard => collectLive now result shard.data) []

/-- The tables of the cache are Go maps placed by `getShard`: no table has a key twice, and
every key is stored in the shard that `getShard` selects for it. -/
structure MapLike (c : Cache) : Prop where
  nodup : ∀ s ∈ c.shards, (s.data.map Prod.fst).Nodup
  home : ∀ (i : Nat) (h : i < c.shards.length), ∀ p ∈ (c.shards.get ⟨i, h⟩).data,
    shardIndex c p.1 = i

/-! ## `unicode`, `strings` and `time.ParseDuration` (Go standard library)

Two parts of the standard library are not arithmetic on integers and are taken as parameters
of the model, so that every statement holds for whatever they compute:

* `upperTable`, the upper-case mapping of `unicode.ToUpper` on the characters above ASCII
  (it maps some of them to ASCII letters, as U+017F to `S`);
* `fracNanos f unit scale`, the `float64` product `uint64(float64(f) * (float64(unit)/scale))`
  by which `time.ParseDuration` converts the digits after a decimal point. -/

/-- The function `unicode.IsSpace`: the ASCII and Latin-1 white space, then the table
`White_Space`. -/
def isSpace (ch : Char) : Bool :=
  let n := ch.toNat
  (decide (0x09 ≤ n) && decide (n ≤ 0x0D)) || n == 0x20 || n == 0x85 || n == 0xA0 ||
    n == 0x1680 || (decide (0x2000 ≤ n) && decide (n ≤ 0x200A)) || n == 0x2028 ||
    n == 0x2029 || n == 0x202F || n == 0x205F || n == 0x3000

/-- The function `strings.TrimSpace`. -/
def TrimSpace (s : String) : String :=
  String.mk (((s.data.dropWhile isSpace).reverse.dropWhile isSpace).reverse)

/-- The scan of `strings.Fields` over the remaining characters; `cur` is the field being read,
last character first. -/
def fieldsLoop : List Char → List Char → List String
  | [], cur => if cur.isEmpty then [] else [String.mk cur.reverse]
  | ch :: cs, cur =>
    if isSpace ch then
      if cur.isEmpty then fieldsLoop cs [] else String.mk cur.reverse :: fieldsLoop cs []
    else fieldsLoop cs (ch :: cur)

/-- The function `strings.Fields`: the maximal runs of characters that are not white space. -/
def Fields (s : String) : List String :=
  fieldsLoop s.data []

/-- The function `unicode.ToUpper`: `a`..`z` to `A`..`Z`, other ASCII characters unchanged,
the table above ASCII. -/
def unicodeToUpper (upperTable : Char → Char) (r : Char) : Char :=
  if r.toNat ≤ 0x7F then
    (if 'a' ≤ r ∧ r ≤ 'z' then Char.ofNat (r.toNat - ('a'.toNat - 'A'.toNat)) else r)
  else upperTable r

/-- The function `strings.ToUpper`: `unicode.ToUpper` on every character. -/
def ToUpper (upperTable : Char → Char) (s : String) : String :=
  String.mk (s.data.map (unicodeToUpper upperTable))

/-- The function `leadingInt` of package `time`: the value of the leading digits `[0-9]*` read
from the accumulator `x`, and the rest of the string; `none` is `errLeadingInt`. -/
def leadingInt : List Char → Nat → Option (Nat × List Char)
  | [], x => some (x, [])
  | ch :: cs, x =>
    if ch < '0' ∨ ch > '9' then some (x, ch :: cs)
    else if x > 2 ^ 63 / 10 then none
    else
      let x1 := wrapUint64 (x * 10 + ch.toNat - '0'.toNat)
      if x1 > 2 ^ 63 then none else leadingInt cs x1

/-- The function `leadingFraction` of package `time`: value, scale (a power of ten) and rest;
on overflow it stops accumulating. -/
def leadingFraction : List Char → Nat → Nat → Bool → Nat × Nat × List Char
  | [], x, scale, _ => (x, scale, [])
  | ch :: cs, x, scale, overflow =>
    if ch < '0' ∨ ch > '9' then (x, scale, ch :: cs)
    else if overflow then leadingFraction cs x scale true
    else if x > (2 ^ 63 - 1) / 10 then leadingFraction cs x scale true
    else
      let y := wrapUint64 (x * 10 + ch.toNat - '0'.toNat)
      if y > 2 ^ 63 then leadingFraction cs x scale true
      else leadingFraction cs y (scale * 10) false

/-- The table `unitMap` of package `time`, in nanoseconds. -/
def unitMap (u : String) : Option Nat :=
  if u = "ns" then some 1
  else if u = "us" then some 1000
  else if u = "\u00b5s" then some 1000
  else if u = "\u03bcs" then some 1000
  else if u = "ms" then some 1000000
  else if u = "s" then some 1000000000
  else if u = "m" then some 60000000000
  else if u = "h" then some 3600000000000
  else none

/-- A character that ends a unit in `time.ParseDuration`: `.` or a digit. -/
def endsUnit (ch : Char) : Bool :=
  ch == '.' || (decide ('0' ≤ ch) && decide (ch ≤ '9'))

/-- The loop `for s != ""` of `time.ParseDuration`: one number with its unit per round, added
to `d`; `none` is an error. Every round consumes at least one character, so the length of
the string is fuel enough. -/
def parseDurationLoop (fracNanos : Nat → Nat → Nat → Nat) :
    Nat → List Char → Nat → Option Nat
  | _, [], d => some d
  | 0, _ :: _, _ => none
  | fuel + 1, ch :: cs, d =>
    if !endsUnit ch then none
    else
      match leadingInt (ch :: cs) 0 with
      | none => none
      | some (v, s1) =>
        let pre : Bool := decide ((ch :: cs).length ≠ s1.length)
        let fr : (Nat × Nat × List Char) × Bool :=
          if s1.head? = some '.' then
            (leadingFraction s1.tail 0 1 false,
              decide (s1.tail.length ≠ (leadingFraction s1.tail 0 1 false).2.2.length))
          else ((0, 1, s1), false)
        let f := fr.1.1
        let scale := fr.1.2.1
        let s2 := fr.1.2.2
        let post := fr.2
        if !pre && !post then none
        else
          let u := s2.takeWhile (fun c => !endsUnit c)
          let s3 := s2.dropWhile (fun c => !endsUnit c)
          if u.isEmpty then none
          else
            match unitMap (String.mk u) with
            | none => none
            | some unit =>
              if v > 2 ^ 63 / unit then none
              else
                let v1 := wrapUint64 (v * unit)
                let v2 := if f > 0 then wrapUint64 (v1 + fracNanos f unit scale) else v1
                if f > 0 ∧ v2 > 2 ^ 63 then none
                else
                  let d1 := wrapUint64 (d + v2)
                  if d1 > 2 ^ 63 then none else parseDurationLoop fracNanos fuel s3 d1

/-- The function `time.ParseDuration`: the duration in nanoseconds, `none` for an error. -/
def ParseDuration (fracNanos : Nat → Nat → Nat → Nat) (s : String) : Option Int :=
  let signed : Bool := match s.data with
    | ch :: _ => ch == '-' || ch == '+'
    | [] => false
  let neg : Bool := match s.data with
    | ch :: _ => ch == '-'
    | [] => false
  let rest := if signed then s.data.tail else s.data
  if rest = ['0'] then some 0
  else if rest.isEmpty then none
  else
    match parseDurationLoop fracNanos rest.length rest 0 with
    | none => none
    | some d =>
      if neg then some (wrapInt64 (-(wrapInt64 (d : Int))))
      else if d > 2 ^ 63 - 1 then none
      else some (d : Int)

/-- The verb `%d` of `fmt` on a `uint64`. -/
def FormatUint (n : Nat) : String :=
  (Nat.toDigits 10 n).asString

/-! ## The protocol handler (`handleConnection`, `cmd/main.go`) -/

/-- What the handler does with one line: the byte strings passed to `conn.Write`, in order,
the cache afterwards, and whether the handler returns (`QUIT`) instead of reading on. -/
structure LineResult where
  writes : List String
  cache : Cache
  quit : Bool
deriving DecidableEq, Repr

/-- The body of the loop of `handleConnection` for one line that `reader.ReadString` has
returned without error, executed when the clock reads `now`. -/
def handleLine (upperTable : Char → Char) (fracNanos : Nat → Nat → Nat → Nat)
    (cache : Cache) (line : String) (now : Int) : LineResult :=
  let line := TrimSpace line
  let parts := Fields line
  if parts.length = 0 then ⟨[], cache, false⟩
  else
    let cmd := ToUpper upperTable (parts.getD 0 "")
    if cmd = "SET" then
      if parts.length < 3 then
        ⟨["-ERR wrong number of arguments for 'set' command\r\n"], cache, false⟩
      else
        let key := parts.getD 1 ""
        let value := parts.getD 2 ""
        let ttl : Int :=
          if parts.length > 3 ∧ parts.getD 3 "" = "EX" ∧ parts.length > 4 then
            match ParseDuration fracNanos (parts.getD 4 "" ++ "s") with
            | some seconds => seconds
            | none => 0
          else 0
        ⟨["+OK\r\n"], Set cache key value ttl now, false⟩
    else if cmd = "GET" then
      if parts.length ≠ 2 then
        ⟨["-ERR wrong number of arguments for 'get' command\r\n"], cache, false⟩
      else
        let key := parts.getD 1 ""
        let r := Get cache key now
        if r.1.2 then ⟨["+" ++ r.1.1 ++ "\r\n"], r.2, false⟩
        else ⟨["$-1\r\n"], r.2, false⟩
    else if cmd = "DEL" then
      if parts.length ≠ 2 then
        ⟨["-ERR wrong number of arguments for 'del' command\r\n"], cache, false⟩
      else
        let key := parts.getD 1 ""
        let r := Delete cache key
        if r.1 then ⟨[":1\r\n"], r.2, false⟩ else ⟨[":0\r\n"], r.2, false⟩
    else if cmd = "PING" then ⟨["+PONG\r\n"], cache, false⟩
    else if cmd = "QUIT" then ⟨["+OK\r\n"], cache, true⟩
    else if cmd = "INFO" then
      ⟨["+# Stats\r\n" ++
        "gets:" ++ FormatUint cache.stats.Gets ++ "\r\n" ++
        "sets:" ++ FormatUint cache.stats.Sets ++ "\r\n" ++
        "deletes:" ++ FormatUint cache.stats.Deletes ++ "\r\n" ++
        "hits:" ++ FormatUint cache.stats.Hits ++ "\r\n" ++
        "misses:" ++ FormatUint cache.stats.Misses ++ "\r\n" ++
        "evictions:" ++ FormatUint cache.stats.Evictions ++ "\r\n" ++
        "active_connections:" ++ FormatInt cache.stats.ActiveConns ++ "\r\n"], cache, false⟩
    else ⟨["-ERR unknown command '" ++ cmd ++ "'\r\n"], cache, false⟩

/-- A run of the loop of `handleConnection`: everything written to the connection, the cache
at the end, the number of lines handled, and whether the loop ended by `QUIT` (otherwise by
the read error that follows the last line). -/
structure ConnResult where
  writes : List String
  cache : Cache
  handled : Nat
  byQuit : Bool
deriving DecidableEq, Repr

/-- The function `handleConnection` on the lines that `reader.ReadString` returns before its
first error, each with the reading of the clock when it is handled. -/
def handleConnection (upperTable : Char → Char) (fracNanos : Nat → Nat → Nat → Nat)
    (cache : Cache) : List (String × Int) → ConnResult
  | [] => ⟨[], cache, 0, false⟩
  | (line, now) :: rest =>
    let r := handleLine upperTable fracNanos cache line now
    if r.quit then ⟨r.writes, r.cache, 1, true⟩
    else
      let rs := handleConnection upperTable fracNanos r.cache rest
      ⟨r.writes ++ rs.writes, rs.cache, rs.handled + 1, rs.byQuit⟩

/-! ## Lines and tokens, for the statements about the protocol -/

/-- A token: a non-empty string without white space. -/
def IsToken (s : String) : Prop :=
  s.data ≠ [] ∧ ∀ ch ∈ s.data, isSpace ch = false

instance (s : String) : Decidable (IsToken s) := by
  unfold IsToken; infer_instance

/-- A string of white space only, as the line terminators `"\n"` and `"\r\n"` are. -/
def IsBlank (s : String) : Prop :=
  ∀ ch ∈ s.data, isSpace ch = true

instance (s : String) : Decidable (IsBlank s) := by
  unfold IsBlank; infer_instance

/-- The characters of the tokens, one blank between neighbours. -/
def lineData : List String → List Char
  | [] => []
  | [t] => t.data
  | t :: t' :: ts => t.data ++ ' ' :: lineData (t' :: ts)

/-- The line made of the tokens `toks`, one blank between neighbours, and the terminator
`eol`: `lineOf ["GET", "foo"] "\r\n"` is `"GET foo\r\n"`. -/
def lineOf (toks : List String) (eol : String) : String :=
  String.mk (lineData toks ++ eol.data)

/-- The command word of a line: its first field in upper case, if it has a field. -/
def commandWord (upperTable : Char → Char) (line : String) : Option String :=
  (Fields line).head?.map (ToUpper upperTable)

/-- A decimal numeral: one or more digits `0`..`9`; its value is `decimalValue 0`. -/
def IsDecimal (n : String) : Prop :=
  n.data ≠ [] ∧ n.data.all Char.isDigit = true

instance (n : String) : Decidable (IsDecimal n) := by
  unfold IsDecimal; infer_instance

/-! ## `evictExpired` (`cmd/main.go`) -/

/-- The scan phase of `evictExpired` on one shard, under the read lock: the keys of the entries
with `entry.ExpireAt > 0 && now > entry.ExpireAt`, appended to `keysToDelete` in the order of
the iteration. -/
def scanExpired (now : Int) (shard : CacheShard) : List String :=
  shard.data.foldl (fun keysToDelete p =>
    if p.2.ExpireAt > 0 ∧ now > p.2.ExpireAt then keysToDelete ++ [p.1] else keysToDelete) []

/-- The delete phase of `evictExpired` on one shard, under the write lock: every key of
`keysToDelete` that still has an entry, and whose entry is still expired, is deleted and
counted in `evictionCount` (a `uint64`). -/
def deleteExpired (now : Int) : List String → CacheShard → Nat → CacheShard × Nat
  | [], shard, evictionCount => (shard, evictionCount)
  | k :: ks, shard, evictionCount =>
    match shard.lookup k with
    | some entry =>
      if entry.ExpireAt > 0 ∧ now > entry.ExpireAt then
        deleteExpired now ks (shard.delete k) (wrapUint64 (evictionCount + 1))
      else deleteExpired now ks shard evictionCount
    | none => deleteExpired now ks shard evictionCount

/-- The loop of `evictExpired` over the shards from index `i` on, with `evictionCount` so far.
The sweep releases the read lock after its scan of a shard and takes the write lock for the
delete phase; `between i` is what the other goroutines do to the table of shard `i` in this
window (the identity when nothing intervenes). The delete phase is entered only when the scan
found a key. -/
def sweepShards (now : Int) (between : Nat → CacheShard → CacheShard) :
    Nat → List CacheShard → Nat → List CacheShard × Nat
  | _, [], evictionCount => ([], evictionCount)
  | i, shard :: rest, evictionCount =>
    let keysToDelete := scanExpired now shard
    let shard1 := between i shard
    let r := if keysToDelete.length > 0 then deleteExpired now keysToDelete shard1 evictionCount
      else (shard1, evictionCount)
    let rs := sweepShards now between (i + 1) rest r.2
    (r.1 :: rs.1, rs.2)

/-- The method `Cache.evictExpired`, executed when the clock reads `now`, interleaved with the
changes `between` that other goroutines make to each shard between its scan and its delete
phase: the cache afterwards. -/
def evictExpiredWith (between : Nat → CacheShard → CacheShard) (c : Cache) (now : Int) : Cache :=
  let r := sweepShards now between 0 c.shards 0
  let c1 := { c with shards := r.1 }
  if r.2 > 0 then
    { c1 with stats := { c1.stats with Evictions := atomicAddUint64 c1.stats.Evictions r.2 } }
  else c1

/-- The method `Cache.evictExpired`, executed when the clock reads `now` with no other
goroutine at work. -/
def evictExpired (c : Cache) (now : Int) : Cache :=
  evictExpiredWith (fun _ shard => shard) c now

/-- The test `entry.ExpireAt > 0 && now > entry.ExpireAt` of `Get` and `evictExpired`, on the
entry that a table holds for a key; a key without entry is not expired. -/
def expiredAt (now : Int) : Option CacheEntry → Bool
  | some entry => decide (entry.ExpireAt > 0 ∧ now > entry.ExpireAt)
  | none => false

/-- The table that the delete phase is to leave: the table `cur` it finds, minus the keys that
the scan of `scanned` collected and whose entry in `cur` is expired. -/
def sweptShard (now : Int) (scanned cur : CacheShard) : CacheShard :=
  ⟨cur.data.filter (fun p =>
    !(decide (p.1 ∈ scanExpired now scanned) && expiredAt now (cur.lookup p.1)))⟩

/-- The number of entries that the delete phase is to remove from the table `cur`. -/
def removedCount (now : Int) (scanned cur : CacheShard) : Nat :=
  cur.data.length - (sweptShard now scanned cur).data.length

/-! ## Sequences of calls -/

/-- The loop of `getShard` on the bytes of a key, for any sequence of bytes (a Go string need
not be valid UTF-8). -/
def hashBytes (bytes : List Nat) : Nat :=
  bytes.foldl (fun h b => wrapUint64 ((h ^^^ b) * 0x100000001b3)) 0

/-- A call of an operation of the cache or of the numeric operations, with its arguments and,
where the operation reads the clock, the reading it gets. -/
inductive Call where
  | set (key value : String) (ttl now : Int)
  | get (key : String) (now : Int)
  | delete (key : String)
  | getAll (now : Int)
  | evictExpired (now : Int)
  | incr (key : String) (amount : Int)
  | decr (key : String) (amount : Int)
  | updateExpiration (key : String) (ttl now : Int)
deriving DecidableEq, Repr

/-- The cache after a call (`GetAll` only reads). -/
def Call.run : Call → Cache → Cache
  | .set key value ttl now, c => Set c key value ttl now
  | .get key now, c => (Get c key now).2
  | .delete key, c => (Delete c key).2
  | .getAll _, c => c
  | .evictExpired now, c => DustDB.evictExpired c now
  | .incr key amount, c => (INCR c key amount).2
  | .decr key amount, c => (DECR c key amount).2
  | .updateExpiration key ttl now, c => (UpdateExpiration c key ttl now).2

/-- The cache after a sequence of calls, one after the other. -/
def runCalls (calls : List Call) (c : Cache) : Cache :=
  calls.foldl (fun c call => call.run c) c

/-! ## `Cache.Get` step by step (`cmd/main.go`) -/

/-- The first critical section of `Cache.Get`, under the read lock of the shard, executed when
the clock reads `now`: the read `shard.data[key]` and the expiry test. When `Get` returns right
after it (a miss on an absent key, or a hit) the result is `some` pair and the counters are
updated; when the entry is expired the result is `none` and `Get` goes on, the read lock
released, to its second critical section. -/
def GetRead (c : Cache) (key : String) (now : Int) : Option (String × Bool) × Cache :=
  let shard := getShard c key
  match shard.lookup key with
  | none =>
    (some ("", false),
      { c with stats := { c.stats with
          Gets := atomicAddUint64 c.stats.Gets 1
          Misses := atomicAddUint64 c.stats.Misses 1 } })
  | some entry =>
    if entry.ExpireAt > 0 ∧ now > entry.ExpireAt then (none, c)
    else
      (some (entry.Value, true),
        { c with stats := { c.stats with
            Gets := atomicAddUint64 c.stats.Gets 1
            Hits := atomicAddUint64 c.stats.Hits 1 } })

/-- The second critical section of `Cache.Get`, under the write lock of the shard:
`delete(shard.data, key)`, with no second look at the entry, then the counters and the
result `("", false)`. -/
def GetDelete (c : Cache) (key : String) : (String × Bool) × Cache :=
  let shard := getShard c key
  let c1 := putShard c key (shard.delete key)
  (("", false),
    { c1 with stats := { c1.stats with
        Gets := atomicAddUint64 c1.stats.Gets 1
        Misses := atomicAddUint64 c1.stats.Misses 1
        Evictions := atomicAddUint64 c1.stats.Evictions 1 } })

/-- The method `Cache.Get` interleaved with other goroutines: `between` is what they do to the
cache after `Get` has released the read lock and before it takes the write lock. -/
def GetWith (between : Cache → Cache) (c : Cache) (key : String) (now : Int) :
    (String × Bool) × Cache :=
  match GetRead c key now with
  | (some result, c1) => (result, c1)
  | (none, c1) => GetDelete (between c1) key

/-! ## Tables, shards and well-formedness -/

theorem wrapInt64_of_range {x : Int} (h1 : minInt64 ≤ x) (h2 : x ≤ maxInt64) :
    wrapInt64 x = x := by
  unfold wrapInt64 minInt64 maxInt64 at *
  omega

theorem CacheShard.lookup_delete (s : CacheShard) (k k' : String) :
    (s.delete k).lookup k' = if k' = k then none else s.lookup k' := by
  obtain ⟨l⟩ := s
  simp only [CacheShard.delete, CacheShard.lookup]
  induction l with
  | nil => simp
  | cons p l ih =>
    obtain ⟨a, e⟩ := p
    by_cases hak : a = k
    · have h1 : (a != k) = false := by simpa using hak
      rw [List.filter_cons_of_neg (by simpa using hak), ih]
      by_cases hk : k' = k
      · simp [hk]
      · have : (k' == a) = false := by simpa [hak] using hk
        simp [hk, List.lookup, this]
    · rw [List.filter_cons_of_pos (by simpa using hak)]
      by_cases hka : k' = a
      · have hk : ¬ k' = k := by rw [hka]; exact hak
        simp [List.lookup, hka, hak]
      · have : (k' == a) = false := by simpa using hka
        simp only [List.lookup, this, ih]

theorem CacheShard.lookup_store (s : CacheShard) (k k' : String) (e : CacheEntry) :
    (s.store k e).lookup k' = if k' = k then some e else s.lookup k' := by
  have h := CacheShard.lookup_delete s k k'
  simp only [CacheShard.lookup] at h
  by_cases hk : k' = k
  · subst hk
    simp [CacheShard.store, CacheShard.lookup, List.lookup]
  · have : (k' == k) = false := by simpa using hk
    simp [CacheShard.store, CacheShard.lookup, List.lookup, this, hk, h]

theorem shardIndex_lt {c : Cache} (h : WF c) (key : String) :
    shardIndex c key < c.shards.length := by
  rw [h.len]
  unfold shardIndex
  rw [h.mask]
  have : hashKey key &&& (ShardCount - 1) ≤ ShardCount - 1 := Nat.and_le_right
  simp only [ShardCount] at *
  omega

theorem getShard_putShard_same {c : Cache} (h : WF c) (key : String) (s : CacheShard) :
    getShard (putShard c key s) key = s := by
  have hlt := shardIndex_lt h key
  simp [getShard, putShard, shardIndex, List.getD_eq_getElem?_getD] at *
  simp [hlt]

theorem entry_putShard_other (c : Cache) (k k' : String) (s : CacheShard)
    (hs : s.lookup k' = (getShard c k).lookup k') :
    (putShard c k s).entry k' = c.entry k' := by
  unfold Cache.entry
  by_cases hi : shardIndex c k = shardIndex c k'
  · by_cases hlt : shardIndex c k < c.shards.length
    · have : getShard (putShard c k s) k' = s := by
        simp [getShard, putShard, shardIndex, List.getD_eq_getElem?_getD] at *
        simp [← hi, hlt]
      rw [this, hs]
      simp [getShard, hi]
    · simp [getShard, putShard, shardIndex, List.getD_eq_getElem?_getD] at *
      rw [List.set_eq_of_length_le hlt]
  · simp [getShard, putShard, shardIndex, List.getD_eq_getElem?_getD] at *
    rw [List.getElem?_set_ne hi]

theorem WF_NewCache : WF NewCache :=
  ⟨by simp [NewCache], by decide⟩

theorem WF_putShard {c : Cache} (h : WF c) (key : String) (s : CacheShard) :
    WF (putShard c key s) :=
  ⟨by simpa [putShard] using h.len, by simpa [putShard] using h.mask⟩

/-! ## `ParseInt` and `FormatInt` -/

theorem isDigit_iff (ch : Char) : ('0' ≤ ch ∧ ch ≤ '9') ↔ ch.isDigit = true := by
  simp [Char.isDigit, Char.le_def, UInt32.le_def]

theorem decimalValue_ge (ds : List Char) (n : Nat) : n ≤ decimalValue n ds := by
  induction ds generalizing n with
  | nil => simp [decimalValue]
  | cons ch cs ih =>
    have := ih (n * 10 + (ch.toNat - 48))
    simp only [decimalValue, List.foldl_cons] at this ⊢
    omega

theorem parseUintLoop_ok_iff (ds : List Char) (n m : Nat) :
    parseUintLoop ds n = .ok m ↔
      ds.all Char.isDigit = true ∧ decimalValue n ds = m ∧ (ds ≠ [] → m ≤ maxUint64) := by
  induction ds generalizing n with
  | nil => simp [parseUintLoop, decimalValue]
  | cons ch cs ih =>
    have hge := decimalValue_ge cs (n * 10 + (ch.toNat - 48))
    simp only [decimalValue, List.foldl_cons] at hge
    by_cases hd : '0' ≤ ch ∧ ch ≤ '9'
    · have hd' := (isDigit_iff ch).1 hd
      have h9 : ch.toNat - 48 ≤ 9 := by
        have := hd.2
        simp only [Char.le_def, UInt32.le_def] at this
        have h57 : ch.toNat ≤ 57 := this
        omega
      have hcut : parseCutoff = 1844674407370955162 := by decide
      have hmax : maxUint64 = 18446744073709551615 := by decide
      have hzero : '0'.toNat = 48 := by decide
      rw [parseUintLoop, if_pos hd]
      simp only [hzero, List.all_cons, hd', Bool.true_and, decimalValue, List.foldl_cons, ne_eq,
        reduceCtorEq, not_false_eq_true, true_implies]
      by_cases hn : n ≥ parseCutoff
      · rw [if_pos hn]
        simp only [reduceCtorEq, false_iff, not_and]
        intro _ hm
        omega
      · rw [if_neg hn]
        have h10 : wrapUint64 (n * 10) = n * 10 := by
          unfold wrapUint64; omega
        simp only [h10]
        by_cases hw : n * 10 + (ch.toNat - 48) ≤ maxUint64
        · have h1 : wrapUint64 (n * 10 + (ch.toNat - 48)) = n * 10 + (ch.toNat - 48) := by
            unfold wrapUint64; omega
          rw [h1, if_neg (by omega), ih]
          simp only [decimalValue]
          constructor
          · rintro ⟨ha, hv, hm⟩
            refine ⟨ha, hv, ?_⟩
            by_cases hcs : cs = []
            · subst hcs
              simp only [List.foldl_nil] at hv
              omega
            · exact hm hcs
          · rintro ⟨ha, hv, hm⟩
            exact ⟨ha, hv, fun _ => hm⟩
        · have h1 : wrapUint64 (n * 10 + (ch.toNat - 48)) < n * 10 := by
            unfold wrapUint64; omega
          rw [if_pos (Or.inl h1)]
          simp only [reduceCtorEq, false_iff, not_and]
          intro _ hm
          omega
    · have hd' : ¬ ch.isDigit = true := fun h => hd ((isDigit_iff ch).2 h)
      simp [parseUintLoop, hd, hd']

theorem ParseUint_ok_iff (ds : List Char) (m : Nat) :
    ParseUint ds = .ok m ↔
      ds ≠ [] ∧ ds.all Char.isDigit = true ∧ decimalValue 0 ds = m ∧ m ≤ maxUint64 := by
  cases ds with
  | nil => simp [ParseUint]
  | cons ch cs =>
    simp only [ParseUint, parseUintLoop_ok_iff, ne_eq, reduceCtorEq, not_false_eq_true,
      true_implies, true_and]

theorem ParseInt_ok_iff (s : String) (c : Int) :
    ParseInt s = .ok c ↔ IsInt64Text s c := by
  unfold ParseInt IsInt64Text decimalText?
  cases hs : s.data with
  | nil => simp
  | cons ch cs =>
    simp only
    generalize hrest : (if ch = '+' ∨ ch = '-' then cs else ch :: cs) = rest
    have hmax : maxUint64 = 18446744073709551615 := by decide
    cases hp : ParseUint rest with
    | error e =>
      simp only [reduceCtorEq, false_iff, not_and]
      intro hdec hlo hhi
      by_cases hok : rest ≠ [] ∧ rest.all Char.isDigit = true
      · rw [if_pos hok] at hdec
        have hc := Option.some.inj hdec
        have hm : decimalValue 0 rest ≤ maxUint64 := by
          unfold minInt64 at hlo
          unfold maxInt64 at hhi
          by_cases hneg : ch = '-'
          · rw [if_pos hneg] at hc; omega
          · rw [if_neg hneg] at hc; omega
        have := (ParseUint_ok_iff rest (decimalValue 0 rest)).2 ⟨hok.1, hok.2, rfl, hm⟩
        rw [hp] at this
        exact absurd this (by simp)
      · rw [if_neg hok] at hdec
        exact absurd hdec (by simp)
    | ok un =>
      obtain ⟨h1, h2, h3, h4⟩ := (ParseUint_ok_iff rest un).1 hp
      simp only [h1, h2, ne_eq, not_false_eq_true, and_self, if_true, h3]
      unfold minInt64 maxInt64
      by_cases hneg : ch = '-'
      · simp only [hneg, beq_self_eq_true, Bool.not_true, Bool.false_eq_true, false_and,
          if_false, true_and, if_true]
        by_cases hr : un > 2 ^ 63
        · rw [if_pos hr]
          simp only [reduceCtorEq, Option.some.injEq, false_iff, not_and]
          intro hc; omega
        · rw [if_neg hr]
          simp only [Except.ok.injEq, Option.some.injEq]
          constructor
          · intro hc; subst hc; omega
          · intro hc; exact hc.1
      · have hb : (ch == '-') = false := by simpa using hneg
        simp only [hb, Bool.not_false, true_and, Bool.false_eq_true, false_and, if_false, hneg]
        by_cases hr : un ≥ 2 ^ 63
        · rw [if_pos hr]
          simp only [reduceCtorEq, Option.some.injEq, false_iff, not_and]
          intro hc; omega
        · rw [if_neg hr]
          simp only [Except.ok.injEq, Option.some.injEq]
          constructor
          · intro hc; subst hc; omega
          · intro hc; exact hc.1

theorem digitChar_spec :
    ∀ d, d < 10 → (Nat.digitChar d).isDigit = true ∧ (Nat.digitChar d).toNat - 48 = d := by
  decide

theorem decimalValue_append (n : Nat) (xs ys : List Char) :
    decimalValue n (xs ++ ys) = decimalValue (decimalValue n xs) ys := by
  simp [decimalValue, List.foldl_append]

theorem toDigitsCore_spec (fuel : Nat) :
    ∀ n acc, n < fuel → ∃ pre, Nat.toDigitsCore 10 fuel n acc = pre ++ acc ∧ pre ≠ [] ∧
      pre.all Char.isDigit = true ∧ decimalValue 0 pre = n := by
  induction fuel with
  | zero => intro n acc h; omega
  | succ fuel ih =>
    intro n acc h
    obtain ⟨hd1, hd2⟩ := digitChar_spec (n % 10) (Nat.mod_lt _ (by decide))
    rw [Nat.toDigitsCore]
    by_cases h0 : n / 10 = 0
    · simp only [h0, if_true]
      refine ⟨[Nat.digitChar (n % 10)], rfl, by simp, by simp [hd1], ?_⟩
      simp only [decimalValue, List.foldl_cons, List.foldl_nil, hd2]
      omega
    · simp only [h0, if_false]
      obtain ⟨pre, h1, h2, h3, h4⟩ := ih (n / 10) (Nat.digitChar (n % 10) :: acc) (by omega)
      refine ⟨pre ++ [Nat.digitChar (n % 10)], by simp [h1], by simp, by simp [h3, hd1], ?_⟩
      rw [decimalValue_append, h4]
      simp only [decimalValue, List.foldl_cons, List.foldl_nil, hd2]
      omega

theorem toDigits_spec (n : Nat) :
    Nat.toDigits 10 n ≠ [] ∧ (Nat.toDigits 10 n).all Char.isDigit = true ∧
      decimalValue 0 (Nat.toDigits 10 n) = n := by
  obtain ⟨pre, h1, h2, h3, h4⟩ := toDigitsCore_spec (n + 1) n [] (by omega)
  rw [List.append_nil] at h1
  rw [Nat.toDigits, h1]
  exact ⟨h2, h3, h4⟩

theorem decimalText_FormatInt (i : Int) : decimalText? (FormatInt i) = some i := by
  obtain ⟨h1, h2, h3⟩ := toDigits_spec i.toNat
  obtain ⟨g1, g2, g3⟩ := toDigits_spec (-i).toNat
  unfold FormatInt decimalText?
  by_cases hi : i < 0
  · rw [if_pos hi]
    have hdata : ("-" ++ (Nat.toDigits 10 (-i).toNat).asString).data
        = '-' :: Nat.toDigits 10 (-i).toNat := by
      simp [String.data_append, List.asString]
    rw [hdata]
    simp only [or_true, if_true, g1, g2, ne_eq, not_false_eq_true, and_self, g3]
    congr 1
    omega
  · rw [if_neg hi]
    simp only [List.asString]
    cases hds : Nat.toDigits 10 i.toNat with
    | nil => exact absurd hds h1
    | cons ch cs =>
      rw [hds] at h2 h3
      have hch : ch.isDigit = true := by
        simp only [List.all_cons, Bool.and_eq_true] at h2
        exact h2.1
      have hp : ch ≠ '+' := by rintro rfl; exact absurd hch (by decide)
      have hm : ch ≠ '-' := by rintro rfl; exact absurd hch (by decide)
      simp only [hp, hm, or_self, if_false, ne_eq, reduceCtorEq, not_false_eq_true, h2, and_self,
        if_true, h3]
      congr 1
      omega

theorem IsInt64Text_FormatInt {i : Int} (h1 : minInt64 ≤ i) (h2 : i ≤ maxInt64) :
    IsInt64Text (FormatInt i) i :=
  ⟨decimalText_FormatInt i, h1, h2⟩

theorem ParseInt_FormatInt {i : Int} (h1 : minInt64 ≤ i) (h2 : i ≤ maxInt64) :
    ParseInt (FormatInt i) = .ok i :=
  (ParseInt_ok_iff _ _).2 (IsInt64Text_FormatInt h1 h2)

/-! ## The cache operations on one key -/

theorem entry_putShard_same {c : Cache} (h : WF c) (key : String) (s : CacheShard) :
    (putShard c key s).entry key = s.lookup key := by
  unfold Cache.entry
  rw [getShard_putShard_same h]

theorem WF_Set {c : Cache} (h : WF c) (key value : String) (ttl now : Int) :
    WF (Set c key value ttl now) := by
  have h1 := WF_putShard h key ((getShard c key).store key
    ⟨value, if ttl > 0 then wrapInt64 (now + ttl) else 0⟩)
  exact ⟨h1.len, h1.mask⟩

theorem entry_Set_same {c : Cache} (h : WF c) (key value : String) (ttl now : Int) :
    (Set c key value ttl now).entry key
      = some ⟨value, if ttl > 0 then wrapInt64 (now + ttl) else 0⟩ := by
  have := entry_putShard_same h key
    ((getShard c key).store key ⟨value, if ttl > 0 then wrapInt64 (now + ttl) else 0⟩)
  rw [CacheShard.lookup_store, if_pos rfl] at this
  exact this

/-- The three branches of `Get`, selected by the entry of the key. -/
theorem Get_miss {c : Cache} {key : String} (h : c.entry key = none) (now : Int) :
    Get c key now = (("", false),
      { c with stats := { c.stats with
          Gets := atomicAddUint64 c.stats.Gets 1
          Misses := atomicAddUint64 c.stats.Misses 1 } }) := by
  unfold Cache.entry at h
  simp only [Get, h]

theorem Get_expired {c : Cache} {key : String} {e : CacheEntry} (h : c.entry key = some e)
    {now : Int} (hx : e.ExpireAt > 0 ∧ now > e.ExpireAt) :
    Get c key now = (("", false),
      { putShard c key ((getShard c key).delete key) with stats := { c.stats with
          Gets := atomicAddUint64 c.stats.Gets 1
          Misses := atomicAddUint64 c.stats.Misses 1
          Evictions := atomicAddUint64 c.stats.Evictions 1 } }) := by
  unfold Cache.entry at h
  simp only [Get, h, if_pos hx]
  rfl

theorem Get_hit {c : Cache} {key : String} {e : CacheEntry} (h : c.entry key = some e)
    {now : Int} (hx : ¬ (e.ExpireAt > 0 ∧ now > e.ExpireAt)) :
    Get c key now = ((e.Value, true),
      { c with stats := { c.stats with
          Gets := atomicAddUint64 c.stats.Gets 1
          Hits := atomicAddUint64 c.stats.Hits 1 } }) := by
  unfold Cache.entry at h
  simp only [Get, h, if_neg hx]

theorem Get_result (c : Cache) (key : String) (now : Int) :
    (Get c key now).1 =
      match c.entry key with
      | none => ("", false)
      | some e => if e.ExpireAt > 0 ∧ now > e.ExpireAt then ("", false) else (e.Value, true) := by
  cases h : c.entry key with
  | none => rw [Get_miss h]
  | some e =>
    by_cases hx : e.ExpireAt > 0 ∧ now > e.ExpireAt
    · rw [Get_expired h hx]; simp only [if_pos hx]
    · rw [Get_hit h hx]; simp only [if_neg hx]

theorem WF_Get {c : Cache} (h : WF c) (key : String) (now : Int) :
    WF (Get c key now).2 := by
  cases he : c.entry key with
  | none => rw [Get_miss he]; exact ⟨h.len, h.mask⟩
  | some e =>
    by_cases hx : e.ExpireAt > 0 ∧ now > e.ExpireAt
    · rw [Get_expired he hx]
      have h1 := WF_putShard h key ((getShard c key).delete key)
      exact ⟨h1.len, h1.mask⟩
    · rw [Get_hit he hx]; exact ⟨h.len, h.mask⟩

/-- C1. `Set(k, v, 0)` followed by `Get(k)` returns `(v, true)` at every instant, whatever the
cache held for `k` before, and so does `Get(k)` on any later cache in which the entry of `k`
is still the one this `Set` wrote (no other operation on `k` in between); in particular after
`Set(k, v1, ttl1)` then `Set(k, v2, 0)` the entry of `k` is exactly `(v2, no expiry)` and
`Get(k)` returns `(v2, true)` at every instant: the last write wins. -/
theorem C1_set_then_get (c : Cache) (hc : WF c) (k v : String) (t t' : Int) :
    (Get (Set c k v 0 t) k t').1 = (v, true) ∧
    (∀ c' : Cache, c'.entry k = (Set c k v 0 t).entry k → (Get c' k t').1 = (v, true)) ∧
    ∀ (v1 : String) (ttl1 t1 : Int),
      (Set (Set c k v1 ttl1 t1) k v 0 t).entry k = some ⟨v, 0⟩ ∧
      (Get (Set (Set c k v1 ttl1 t1) k v 0 t) k t').1 = (v, true) := by
  have key : ∀ c0 : Cache, WF c0 →
      (Set c0 k v 0 t).entry k = some ⟨v, 0⟩ ∧ (Get (Set c0 k v 0 t) k t').1 = (v, true) := by
    intro c0 h0
    have he := entry_Set_same h0 k v 0 t
    simp only [gt_iff_lt, lt_self_iff_false, if_false] at he
    refine ⟨he, ?_⟩
    rw [Get_result, he]
    simp
  refine ⟨(key c hc).2, ?_, fun v1 ttl1 t1 => key _ (WF_Set hc k v1 ttl1 t1)⟩
  intro c' hc'
  rw [Get_result, hc', (key c hc).1]
  simp

/-- C1 at a concrete input: a fresh cache, key `"k"`, a first write with a TTL. -/
theorem C1_set_then_get_witness :
    WF NewCache ∧ (Get (Set NewCache "k" "v" 0 5) "k" 9).1 = ("v", true) :=
  ⟨WF_NewCache, (C1_set_then_get NewCache WF_NewCache "k" "v" 5 9).1⟩

theorem entry_NewCache (key : String) : NewCache.entry key = none := by
  have h : getShard NewCache key = ⟨[]⟩ := by
    simp only [getShard, NewCache, List.getD_eq_getElem?_getD, List.getElem?_replicate]
    split <;> rfl
  rw [Cache.entry, h]
  rfl

theorem entry_Delete_same {c : Cache} (h : WF c) (key : String) :
    (Delete c key).2.entry key = none := by
  unfold Delete
  cases he : (getShard c key).lookup key with
  | none => simp only [he]; exact he
  | some e =>
    simp only [he]
    exact (entry_putShard_same h key _).trans (by rw [CacheShard.lookup_delete, if_pos rfl])

theorem entry_stats (c : Cache) (st : CacheStats) (key : String) :
    Cache.entry { c with stats := st } key = c.entry key := rfl

theorem entry_after_expired {c : Cache} (h : WF c) (key : String) (st : CacheStats) :
    Cache.entry { putShard c key ((getShard c key).delete key) with stats := st } key = none := by
  rw [entry_stats, entry_putShard_same h, CacheShard.lookup_delete, if_pos rfl]

/-- Calls of `Get` on a key that has no entry all miss and leave the table and the evictions
counter as they are. -/
theorem getSeq_absent (key : String) (ts : List Int) :
    ∀ c : Cache, c.entry key = none →
      (∀ x ∈ (getSeq c key ts).1, x = ("", false)) ∧
      (getSeq c key ts).2.stats.Evictions = c.stats.Evictions ∧
      (getSeq c key ts).2.entry key = none := by
  induction ts with
  | nil => intro c h; simp [getSeq, h]
  | cons t ts ih =>
    intro c h
    have hg := Get_miss h t
    obtain ⟨h1, h2, h3⟩ := ih (Get c key t).2 (by rw [hg]; exact h)
    simp only [getSeq, List.mem_cons, forall_eq_or_imp]
    refine ⟨⟨by rw [hg], h1⟩, ?_, h3⟩
    rw [h2, hg]

/-- Calls of `Get` on a live entry, none of them after its expiry, all hit and leave the table
and the evictions counter as they are. -/
theorem getSeq_live (key : String) (e : CacheEntry) (ts : List Int)
    (hts : ∀ x ∈ ts, ¬ (e.ExpireAt > 0 ∧ x > e.ExpireAt)) :
    ∀ c : Cache, WF c → c.entry key = some e →
      (∀ x ∈ (getSeq c key ts).1, x = (e.Value, true)) ∧
      (getSeq c key ts).2.stats.Evictions = c.stats.Evictions ∧
      (getSeq c key ts).2.entry key = some e ∧ WF (getSeq c key ts).2 := by
  induction ts with
  | nil => intro c hc h; simp [getSeq, h, hc]
  | cons t ts ih =>
    intro c hc h
    have hg := Get_hit h (hts t (List.mem_cons_self _ _))
    have hwf := WF_Get hc key t
    obtain ⟨h1, h2, h3, h4⟩ := ih (fun x hx => hts x (List.mem_cons_of_mem _ hx))
      (Get c key t).2 hwf (by rw [hg]; exact h)
    simp only [getSeq, List.mem_cons, forall_eq_or_imp]
    refine ⟨⟨by rw [hg], h1⟩, ?_, h3, h4⟩
    rw [h2, hg]

/-- C2 (amended). `Get(k)` at `now` returns `(v, true)` exactly when the table of `k`'s shard
holds an entry `(v, e)` for `k` with `e ≤ 0` or `now ≤ e`; in every other case (no entry for
`k`, as in a fresh cache or after `Delete(k)`, or `0 < e < now`) it returns `("", false)`. -/
theorem C2_get_characterisation (c : Cache) (hc : WF c) (k : String) (now : Int) :
    (∀ v : String, (Get c k now).1 = (v, true) ↔
      ∃ e : Int, c.entry k = some ⟨v, e⟩ ∧ (e ≤ 0 ∨ now ≤ e)) ∧
    (Get c k now).1 =
      (match c.entry k with
       | none => ("", false)
       | some ⟨v, e⟩ => if e ≤ 0 ∨ now ≤ e then (v, true) else ("", false)) ∧
    (Get NewCache k now).1 = ("", false) ∧
    (Get (Delete c k).2 k now).1 = ("", false) := by
  refine ⟨?_, ?_, by rw [Get_result, entry_NewCache],
    by rw [Get_result, entry_Delete_same hc]⟩ <;> rw [Get_result]
  all_goals cases h : c.entry k with
  | none => simp
  | some en =>
    obtain ⟨v0, e0⟩ := en
    by_cases hx : e0 > 0 ∧ now > e0
    · have hn : ¬ (e0 ≤ 0 ∨ now ≤ e0) := by omega
      simp only [if_pos hx, if_neg hn, Prod.mk.injEq, Bool.false_eq_true, and_false,
        Option.some.injEq, CacheEntry.mk.injEq, false_iff, not_exists, not_and]
      try (rintro v e ⟨-, rfl⟩; exact hn)
    · have hn : e0 ≤ 0 ∨ now ≤ e0 := by omega
      simp only [if_neg hx, if_pos hn, Prod.mk.injEq, and_true, Option.some.injEq,
        CacheEntry.mk.injEq]
      try (intro v; exact ⟨fun hv => ⟨e0, ⟨hv, rfl⟩, hn⟩, fun ⟨e, ⟨hv, _⟩, _⟩ => hv⟩)

/-- C2 (amended) at a concrete input: a live entry, read before its expiry. -/
theorem C2_get_characterisation_witness :
    WF (Set NewCache "k" "v" 5 100) ∧
    ((Get (Set NewCache "k" "v" 5 100) "k" 103).1 = ("v", true) ↔
      ∃ e : Int, (Set NewCache "k" "v" 5 100).entry "k" = some ⟨"v", e⟩ ∧ (e ≤ 0 ∨ 103 ≤ e)) :=
  ⟨WF_Set WF_NewCache .., (C2_get_characterisation (Set NewCache "k" "v" 5 100)
    (WF_Set WF_NewCache ..) "k" 103).1 "v"⟩

/-- C2 as stated fails: `Set("k", "v", ttl)` with a TTL of `9 * 10^9` seconds, executed at
the clock reading `1.7 * 10^18` (November 2023), stores `now + ttl` wrapped to `int64`, the
negative number `-7746744073709551616`; one second later this `e` has neither `e = 0` nor
`now ≤ e`, yet `Get("k")` returns `("v", true)`. -/
theorem C2_counterexample :
    (Set NewCache "k" "v" 9000000000000000000 1700000000000000000).entry "k"
        = some ⟨"v", -7746744073709551616⟩ ∧
      ¬ ((-7746744073709551616 : Int) = 0 ∨
          (1700000001000000000 : Int) ≤ -7746744073709551616) ∧
      (Get (Set NewCache "k" "v" 9000000000000000000 1700000000000000000) "k"
        1700000001000000000).1 = ("v", true) := by
  have he : (Set NewCache "k" "v" 9000000000000000000 1700000000000000000).entry "k"
      = some ⟨"v", -7746744073709551616⟩ := by
    rw [entry_Set_same WF_NewCache]
    decide
  refine ⟨he, by decide, ?_⟩
  rw [Get_result, he]
  decide

/-- C3. For `ttl > 0` and a clock reading `t` (`time.Now().UnixNano()`, a number of
nanoseconds since the Unix epoch, so `0 ≤ t`): after `Set(k, v, ttl)` at `t` and any calls
`Get(k)` made up to `t + ttl`, the first `Get(k)` at a clock reading `t'` later than `t + ttl`
returns `("", false)`, removes the entry from its shard and adds exactly 1 (as a `uint64`) to
the evictions counter, which nothing before had changed; every further `Get(k)` returns
`("", false)` and leaves the evictions counter unchanged, so the key is counted as evicted
exactly once however many times it is queried. -/
theorem C3_expiry_counted_once (c : Cache) (hc : WF c) (k v : String) (ttl t t' : Int)
    (early later : List Int) (httl : ttl > 0) (ht : 0 ≤ t)
    (hearly : ∀ x ∈ early, x ≤ t + ttl) (hlate : t + ttl < t') (hint : t' ≤ maxInt64) :
    (Get (getSeq (Set c k v ttl t) k early).2 k t').1 = ("", false) ∧
    (Get (getSeq (Set c k v ttl t) k early).2 k t').2.entry k = none ∧
    (Get (getSeq (Set c k v ttl t) k early).2 k t').2.stats.Evictions
      = (c.stats.Evictions + 1) % 2 ^ 64 ∧
    (∀ x ∈ (getSeq (Get (getSeq (Set c k v ttl t) k early).2 k t').2 k later).1,
      x = ("", false)) ∧
    (getSeq (Get (getSeq (Set c k v ttl t) k early).2 k t').2 k later).2.stats.Evictions
      = (c.stats.Evictions + 1) % 2 ^ 64 := by
  have hpos : 0 < t + ttl := by omega
  have hw : wrapInt64 (t + ttl) = t + ttl :=
    wrapInt64_of_range (by unfold minInt64; omega) (by omega)
  have he : (Set c k v ttl t).entry k = some ⟨v, t + ttl⟩ := by
    rw [entry_Set_same hc, if_pos httl, hw]
  obtain ⟨-, h2, h3, h4⟩ := getSeq_live k ⟨v, t + ttl⟩ early
    (fun x hx => by have := hearly x hx; simp only; omega) (Set c k v ttl t) (WF_Set hc ..) he
  have hx : (⟨v, t + ttl⟩ : CacheEntry).ExpireAt > 0 ∧ t' > (⟨v, t + ttl⟩ : CacheEntry).ExpireAt :=
    ⟨hpos, hlate⟩
  have hg := Get_expired h3 hx
  have hev : (Get (getSeq (Set c k v ttl t) k early).2 k t').2.stats.Evictions
      = (c.stats.Evictions + 1) % 2 ^ 64 := by
    rw [hg]
    simp only [h2]
    rfl
  have hnone : (Get (getSeq (Set c k v ttl t) k early).2 k t').2.entry k = none := by
    rw [hg]
    exact entry_after_expired h4 k _
  obtain ⟨g1, g2, -⟩ := getSeq_absent k later _ hnone
  refine ⟨by rw [hg], hnone, hev, g1, ?_⟩
  rw [g2, hev]

/-- C3 at a concrete input: TTL 5 set at reading 100, two hits before the expiry, the first
miss at 106 and two further misses. -/
theorem C3_expiry_counted_once_witness :
    (Get (getSeq (Set NewCache "k" "v" 5 100) "k" [101, 105]).2 "k" 106).1 = ("", false) ∧
    (getSeq (Get (getSeq (Set NewCache "k" "v" 5 100) "k" [101, 105]).2 "k" 106).2 "k"
      [107, 200]).2.stats.Evictions = (NewCache.stats.Evictions + 1) % 2 ^ 64 :=
  have h := C3_expiry_counted_once NewCache WF_NewCache "k" "v" 5 100 106 [101, 105] [107, 200]
    (by decide) (by decide) (by decide) (by decide) (by decide)
  ⟨h.1, h.2.2.2.2⟩

/-! ## The numeric operations on one key -/

theorem HoldsInt_range {c : Cache} {key : String} {cur : Int} (h : HoldsInt c key cur) :
    minInt64 ≤ cur ∧ cur ≤ maxInt64 := by
  unfold HoldsInt at h
  cases he : c.entry key with
  | none => rw [he] at h; subst h; exact ⟨by decide, by decide⟩
  | some e => rw [he] at h; exact h.2

/-- The arithmetic part of `INCR`, once the amount is non-zero and the current value is read. -/
theorem INCR_of_HoldsInt {c : Cache} {key : String} {amount cur : Int} (ha : amount ≠ 0)
    (hcur : HoldsInt c key cur) :
    INCR c key amount =
      if (amount > 0 ∧ cur > wrapInt64 (maxInt64 - amount)) ∨
         (amount < 0 ∧ cur < wrapInt64 (minInt64 + amount)) then
        ((0, some .ErrOverflow), c)
      else
        ((wrapInt64 (cur + amount), none),
          putShard c key ((getShard c key).store key
            ⟨FormatInt (wrapInt64 (cur + amount)), ((c.entry key).getD ⟨"", 0⟩).ExpireAt⟩)) := by
  unfold HoldsInt at hcur
  unfold INCR
  rw [if_neg ha]
  unfold Cache.entry at hcur ⊢
  cases he : (getShard c key).lookup key with
  | none =>
    rw [he] at hcur
    subst hcur
    simp only [he]
  | some e =>
    rw [he] at hcur
    have hp := (ParseInt_ok_iff e.Value cur).2 hcur
    simp only [he, hp]

theorem INCR_not_numeric {c : Cache} {key : String} {amount : Int} {e : CacheEntry}
    (ha : amount ≠ 0) (he : c.entry key = some e) (hp : ∀ n, ¬ IsInt64Text e.Value n) :
    INCR c key amount = ((0, some .ErrNotNumeric), c) := by
  unfold INCR
  rw [if_neg ha]
  unfold Cache.entry at he
  cases hq : ParseInt e.Value with
  | error x => simp only [he, hq]
  | ok n => exact absurd ((ParseInt_ok_iff _ _).1 hq) (hp n)

/-- Every call of `INCR` either returns `0` with one of three errors and the cache it was
given, or returns a number with a nil error and writes the shard of the key. -/
theorem INCR_cases (c : Cache) (key : String) (amount : Int) :
    (∃ err, (err = .ErrInvalidAmount ∨ err = .ErrNotNumeric ∨ err = .ErrOverflow) ∧
      INCR c key amount = ((0, some err), c)) ∨
    (∃ v s, INCR c key amount = ((v, none), putShard c key s)) := by
  unfold INCR
  by_cases ha : amount = 0
  · exact Or.inl ⟨_, Or.inl rfl, by rw [if_pos ha]⟩
  · rw [if_neg ha]
    simp only
    split
    · exact Or.inl ⟨_, Or.inr (Or.inl rfl), rfl⟩
    · split
      · exact Or.inl ⟨_, Or.inr (Or.inr rfl), rfl⟩
      · exact Or.inr ⟨_, _, rfl⟩

/-- The same for `DECR`. -/
theorem DECR_cases (c : Cache) (key : String) (amount : Int) :
    (∃ err, (err = .ErrInvalidAmount ∨ err = .ErrNotNumeric ∨ err = .ErrOverflow) ∧
      DECR c key amount = ((0, some err), c)) ∨
    (∃ v s, DECR c key amount = ((v, none), putShard c key s)) := by
  unfold DECR
  by_cases ha : amount ≤ 0
  · exact Or.inl ⟨_, Or.inl rfl, by rw [if_pos ha]⟩
  · rw [if_neg ha]
    exact INCR_cases c key _

/-- A call of `INCR` that returns an error returns the number `0` and the cache it was given. -/
theorem INCR_error (c : Cache) (key : String) (amount : Int) (err : NumericError)
    (h : (INCR c key amount).1.2 = some err) :
    (INCR c key amount).1.1 = 0 ∧ (INCR c key amount).2 = c := by
  rcases INCR_cases c key amount with ⟨e, -, he⟩ | ⟨v, s, hv⟩
  · rw [he]; exact ⟨rfl, rfl⟩
  · rw [hv] at h; exact absurd h (by simp)

theorem DECR_error (c : Cache) (key : String) (amount : Int) (err : NumericError)
    (h : (DECR c key amount).1.2 = some err) :
    (DECR c key amount).1.1 = 0 ∧ (DECR c key amount).2 = c := by
  rcases DECR_cases c key amount with ⟨e, -, he⟩ | ⟨v, s, hv⟩
  · rw [he]; exact ⟨rfl, rfl⟩
  · rw [hv] at h; exact absurd h (by simp)

theorem WF_INCR {c : Cache} (h : WF c) (key : String) (amount : Int) :
    WF (INCR c key amount).2 := by
  rcases INCR_cases c key amount with ⟨e, -, he⟩ | ⟨v, s, hv⟩
  · rw [he]; exact h
  · rw [hv]; exact WF_putShard h key s

/-- A successful increment: positive amount, no overflow. -/
theorem INCR_pos_ok {c : Cache} (hc : WF c) {key : String} {amount cur : Int}
    (ha : 0 < amount) (hamax : amount ≤ maxInt64) (hcur : HoldsInt c key cur)
    (hsum : cur + amount ≤ maxInt64) :
    (INCR c key amount).1 = (cur + amount, none) ∧
    (INCR c key amount).2.entry key
      = some ⟨FormatInt (cur + amount), ((c.entry key).getD ⟨"", 0⟩).ExpireAt⟩ := by
  obtain ⟨hlo, hhi⟩ := HoldsInt_range hcur
  have hw1 : wrapInt64 (maxInt64 - amount) = maxInt64 - amount :=
    wrapInt64_of_range (by unfold minInt64 maxInt64 at *; omega) (by omega)
  have hw2 : wrapInt64 (cur + amount) = cur + amount :=
    wrapInt64_of_range (by omega) hsum
  rw [INCR_of_HoldsInt (by omega) hcur, hw1, hw2, if_neg (by omega)]
  refine ⟨rfl, ?_⟩
  rw [entry_putShard_same hc, CacheShard.lookup_store, if_pos rfl]

/-- An increment that would pass `2^63 - 1` is refused. -/
theorem INCR_pos_overflow {c : Cache} {key : String} {amount cur : Int}
    (ha : 0 < amount) (hamax : amount ≤ maxInt64) (hcur : HoldsInt c key cur)
    (hsum : cur + amount > maxInt64) :
    INCR c key amount = ((0, some .ErrOverflow), c) := by
  have hw1 : wrapInt64 (maxInt64 - amount) = maxInt64 - amount :=
    wrapInt64_of_range (by unfold minInt64 maxInt64 at *; omega) (by omega)
  rw [INCR_of_HoldsInt (by omega) hcur, hw1, if_pos (Or.inl ⟨ha, by omega⟩)]

/-- What `DECR` does with a valid amount: the threshold `(-1<<63) + amount` of `INCR`, taken
at the negated amount, wraps to `2^63 - amount`, so the call is refused with `ErrOverflow`
whenever `cur + amount ≤ 2^63 - 1`. -/
theorem DECR_refused {c : Cache} {key : String} {amount cur : Int}
    (ha : 0 < amount) (hamax : amount ≤ maxInt64) (hcur : HoldsInt c key cur)
    (hsum : cur + amount ≤ maxInt64) :
    DECR c key amount = ((0, some .ErrOverflow), c) := by
  have hw0 : wrapInt64 (-amount) = -amount :=
    wrapInt64_of_range (by unfold minInt64 maxInt64 at *; omega)
      (by unfold maxInt64 at *; omega)
  have hw1 : wrapInt64 (minInt64 + -amount) = 2 ^ 63 - amount := by
    unfold wrapInt64 minInt64 maxInt64 at *
    omega
  unfold DECR
  rw [if_neg (by omega), hw0, INCR_of_HoldsInt (by omega) hcur, hw1,
    if_pos (Or.inr ⟨by omega, by unfold maxInt64 at hsum; omega⟩)]

theorem HoldsInt_NewCache (key : String) : HoldsInt NewCache key 0 := by
  unfold HoldsInt
  rw [entry_NewCache]

theorem HoldsInt_Set {c : Cache} (hc : WF c) (key value : String) (ttl now n : Int)
    (h : IsInt64Text value n) : HoldsInt (Set c key value ttl now) key n := by
  unfold HoldsInt
  rw [entry_Set_same hc]
  exact h

theorem not_IsInt64Text_abc (n : Int) : ¬ IsInt64Text "abc" n := by
  intro h
  have h1 : decimalText? "abc" = none := by decide
  have h2 := h.1
  rw [h1] at h2
  exact absurd h2 (by simp)

/-- C4 fails on the code. `Decr` on a key holding `"10"` returns `(0, ErrOverflow)` and leaves
`"10"` stored, where the claim has `9`; `Decr` on an absent key returns `(0, ErrOverflow)` and
creates nothing, where the claim has `-1`; and so does every `DECR(k, a)` with `a > 0` on a
key holding `cur` with `cur + a ≤ 2^63 - 1`, whether or not `cur - a ≥ -2^63`. -/
theorem C4_decr_refused :
    Decr (Set NewCache "k" "10" 0 0) "k"
      = ((0, some .ErrOverflow), Set NewCache "k" "10" 0 0) ∧
    Decr NewCache "k" = ((0, some .ErrOverflow), NewCache) ∧
    ∀ (c : Cache) (k : String) (a cur : Int), 0 < a → a ≤ maxInt64 → HoldsInt c k cur →
      cur + a ≤ maxInt64 → DECR c k a = ((0, some .ErrOverflow), c) :=
  ⟨@DECR_refused _ _ _ 10 (by decide) (by decide)
      (HoldsInt_Set WF_NewCache "k" "10" 0 0 10 (by decide)) (by decide),
   @DECR_refused _ _ _ 0 (by decide) (by decide) (HoldsInt_NewCache "k") (by decide),
   fun _ _ _ _ ha hamax hcur hsum => DECR_refused ha hamax hcur hsum⟩

/-- C5. For an amount `a > 0` (an `int64`) and `cur` the integer that `k` holds (`0` when `k`
is absent): if `cur + a ≤ 2^63 - 1` then `INCR(k, a)` returns `(cur + a, nil)` and afterwards
`k` stores exactly `FormatInt(cur + a)`, the base-10 text of `cur + a`; `IncrBy` is the same
call and `Incr` is the call with `a = 1`. -/
theorem C5_incr_adds (c : Cache) (hc : WF c) (k : String) (a cur : Int)
    (ha : 0 < a) (hamax : a ≤ maxInt64) (hcur : HoldsInt c k cur)
    (hsum : cur + a ≤ maxInt64) :
    (INCR c k a).1 = (cur + a, none) ∧
    ((INCR c k a).2.entry k).map CacheEntry.Value = some (FormatInt (cur + a)) ∧
    HoldsInt (INCR c k a).2 k (cur + a) ∧
    IncrBy c k a = INCR c k a ∧
    (a = 1 → (Incr c k).1 = (cur + 1, none) ∧
      ((Incr c k).2.entry k).map CacheEntry.Value = some (FormatInt (cur + 1))) := by
  obtain ⟨h1, h2⟩ := INCR_pos_ok hc ha hamax hcur hsum
  have hlo := (HoldsInt_range hcur).1
  refine ⟨h1, by rw [h2]; rfl, ?_, rfl, ?_⟩
  · unfold HoldsInt
    rw [h2]
    exact IsInt64Text_FormatInt (by omega) hsum
  · intro h1a
    subst h1a
    exact ⟨h1, by unfold Incr; rw [h2]; rfl⟩

/-- C5 at a concrete input: `Incr` on a key holding `"41"`. -/
theorem C5_incr_adds_witness :
    (INCR (Set NewCache "k" "41" 0 0) "k" 1).1 = (41 + 1, none) ∧
    ((INCR (Set NewCache "k" "41" 0 0) "k" 1).2.entry "k").map CacheEntry.Value
      = some (FormatInt (41 + 1)) :=
  have h := C5_incr_adds (Set NewCache "k" "41" 0 0) (WF_Set WF_NewCache ..) "k" 1 41
    (by decide) (by decide) (HoldsInt_Set WF_NewCache "k" "41" 0 0 41 (by decide)) (by decide)
  ⟨h.1, h.2.1⟩

/-- C6. For an amount `a > 0` (an `int64`) and a key holding the integer `cur` with
`cur + a > 2^63 - 1`, `INCR(k, a)` returns `(0, ErrOverflow)` and the cache is unchanged; in
particular `Incr` after `Set(k, "9223372036854775807")` fails so. And whenever `INCR(k, a)`
with `a > 0` succeeds, the number returned is the true sum `cur + a`, it is at most
`2^63 - 1`, and its base-10 text is what `k` stores. -/
theorem C6_incr_overflow (c : Cache) (hc : WF c) (k : String) (a : Int)
    (ha : 0 < a) (hamax : a ≤ maxInt64) :
    (∀ cur, HoldsInt c k cur → cur + a > maxInt64 →
      INCR c k a = ((0, some .ErrOverflow), c)) ∧
    (∀ ttl now, Incr (Set c k "9223372036854775807" ttl now) k
      = ((0, some .ErrOverflow), Set c k "9223372036854775807" ttl now)) ∧
    (∀ r, (INCR c k a).1 = (r, none) →
      ∃ cur, HoldsInt c k cur ∧ r = cur + a ∧ cur < r ∧ r ≤ maxInt64 ∧
        ((INCR c k a).2.entry k).map CacheEntry.Value = some (FormatInt r)) := by
  refine ⟨fun cur hcur hsum => INCR_pos_overflow ha hamax hcur hsum, fun ttl now => ?_, ?_⟩
  · exact @INCR_pos_overflow _ _ _ 9223372036854775807 (by decide) (by decide)
      (HoldsInt_Set hc k _ ttl now _ (by decide)) (by decide)
  · intro r hr
    cases he : c.entry k with
    | none =>
      have hcur : HoldsInt c k 0 := by unfold HoldsInt; rw [he]
      obtain ⟨h1, h2⟩ := INCR_pos_ok hc ha hamax hcur (by omega)
      rw [h1] at hr
      have hr' : 0 + a = r := (Prod.mk.inj hr).1
      exact ⟨0, hcur, hr'.symm, by omega, by omega, by rw [h2, hr']; rfl⟩
    | some e =>
      by_cases hp : ∃ n, IsInt64Text e.Value n
      · obtain ⟨n, hn⟩ := hp
        have hcur : HoldsInt c k n := by unfold HoldsInt; rw [he]; exact hn
        by_cases hsum : n + a ≤ maxInt64
        · obtain ⟨h1, h2⟩ := INCR_pos_ok hc ha hamax hcur hsum
          rw [h1] at hr
          have hr' : n + a = r := (Prod.mk.inj hr).1
          exact ⟨n, hcur, hr'.symm, by omega, by omega, by rw [h2, hr']; rfl⟩
        · rw [INCR_pos_overflow ha hamax hcur (by omega)] at hr
          exact absurd (Prod.mk.inj hr).2 (by simp)
      · rw [INCR_not_numeric (by omega) he (fun n hn => hp ⟨n, hn⟩)] at hr
        exact absurd (Prod.mk.inj hr).2 (by simp)

/-- C6 at a concrete input: `INCR` by 5 on a key holding `2^63 - 3`. -/
theorem C6_incr_overflow_witness :
    INCR (Set NewCache "k" "9223372036854775805" 0 0) "k" 5
      = ((0, some .ErrOverflow), Set NewCache "k" "9223372036854775805" 0 0) :=
  (C6_incr_overflow (Set NewCache "k" "9223372036854775805" 0 0) (WF_Set WF_NewCache ..) "k" 5
    (by decide) (by decide)).1 9223372036854775805
    (HoldsInt_Set WF_NewCache "k" _ 0 0 _ (by decide)) (by decide)

/-- C7 fails on the code. `DECR` by 1 on a key holding `-2^63` returns `ErrOverflow`, not
`ErrUnderflow`; so does every `DECR(k, a)` with `a > 0` on a key holding `cur` with
`cur - a < -2^63`, the cache being unchanged as claimed; and no call of `INCR` or `DECR`
ever returns `ErrUnderflow`. -/
theorem C7_underflow_reported_as_overflow :
    DECR (Set NewCache "k" "-9223372036854775808" 0 0) "k" 1
      = ((0, some .ErrOverflow), Set NewCache "k" "-9223372036854775808" 0 0) ∧
    (∀ (c : Cache) (k : String) (a cur : Int), 0 < a → a ≤ maxInt64 → HoldsInt c k cur →
      cur - a < minInt64 → DECR c k a = ((0, some .ErrOverflow), c)) ∧
    ∀ (c : Cache) (k : String) (a : Int),
      (INCR c k a).1.2 ≠ some .ErrUnderflow ∧ (DECR c k a).1.2 ≠ some .ErrUnderflow := by
  refine ⟨@DECR_refused _ _ _ (-9223372036854775808) (by decide) (by decide)
      (HoldsInt_Set WF_NewCache "k" _ 0 0 _ (by decide)) (by decide),
    fun c k a cur ha hamax hcur hlow =>
      DECR_refused ha hamax hcur (by unfold minInt64 at hlow; unfold maxInt64 at *; omega),
    fun c k a => ⟨?_, ?_⟩⟩
  · rcases INCR_cases c k a with ⟨e, he, h⟩ | ⟨v, s, h⟩
    · rw [h]; rcases he with rfl | rfl | rfl <;> simp
    · rw [h]; simp
  · rcases DECR_cases c k a with ⟨e, he, h⟩ | ⟨v, s, h⟩
    · rw [h]; rcases he with rfl | rfl | rfl <;> simp
    · rw [h]; simp

/-- C8. Whenever `INCR`, `DECR`, `IncrBy`, `DecrBy`, `Incr` or `Decr` returns an error, the
number returned with it is `0` and the cache after the call (every shard table and every
counter) is the cache before the call. -/
theorem C8_error_leaves_state (c : Cache) (k : String) (a : Int) (err : NumericError) :
    ((INCR c k a).1.2 = some err → (INCR c k a).1.1 = 0 ∧ (INCR c k a).2 = c) ∧
    ((DECR c k a).1.2 = some err → (DECR c k a).1.1 = 0 ∧ (DECR c k a).2 = c) ∧
    ((IncrBy c k a).1.2 = some err → (IncrBy c k a).1.1 = 0 ∧ (IncrBy c k a).2 = c) ∧
    ((DecrBy c k a).1.2 = some err → (DecrBy c k a).1.1 = 0 ∧ (DecrBy c k a).2 = c) ∧
    ((Incr c k).1.2 = some err → (Incr c k).1.1 = 0 ∧ (Incr c k).2 = c) ∧
    ((Decr c k).1.2 = some err → (Decr c k).1.1 = 0 ∧ (Decr c k).2 = c) :=
  ⟨INCR_error c k a err, DECR_error c k a err, INCR_error c k a err, DECR_error c k a err,
    INCR_error c k 1 err, DECR_error c k 1 err⟩

/-- C8 at a concrete input: `INCR` on a key holding `"abc"`. -/
theorem C8_error_leaves_state_witness :
    (INCR (Set NewCache "k" "abc" 0 0) "k" 7).1.2 = some .ErrNotNumeric ∧
    (INCR (Set NewCache "k" "abc" 0 0) "k" 7).1.1 = 0 ∧
    (INCR (Set NewCache "k" "abc" 0 0) "k" 7).2 = Set NewCache "k" "abc" 0 0 :=
  have h : (INCR (Set NewCache "k" "abc" 0 0) "k" 7).1.2 = some .ErrNotNumeric := by
    rw [@INCR_not_numeric _ _ _ ⟨"abc", 0⟩ (by decide) (entry_Set_same WF_NewCache ..)
      not_IsInt64Text_abc]
  ⟨h, (C8_error_leaves_state (Set NewCache "k" "abc" 0 0) "k" 7 .ErrNotNumeric).1 h⟩

/-- Successive increments from a key that holds `cur`, as long as the counter stays within
`int64`: the calls return `cur + 1, cur + 2, ...` and the key ends up holding `cur + n`. -/
theorem incrSeq_spec (key : String) (n : Nat) :
    ∀ (c : Cache) (cur : Int), WF c → HoldsInt c key cur → cur + n ≤ maxInt64 →
      (incrSeq c key n).1 = (List.range n).map (fun (i : Nat) => (cur + (i : Int) + 1, none)) ∧
      HoldsInt (incrSeq c key n).2 key (cur + n) ∧
      WF (incrSeq c key n).2 ∧
      (0 < n → ((incrSeq c key n).2.entry key).map CacheEntry.Value
        = some (FormatInt (cur + n))) := by
  induction n with
  | zero =>
    intro c cur hc hcur _
    simp only [incrSeq, List.range_zero, List.map_nil, Nat.cast_zero, add_zero, lt_self_iff_false,
      false_implies, and_true, true_and]
    exact ⟨hcur, hc⟩
  | succ n ih =>
    intro c cur hc hcur hsum
    have hsum' : cur + 1 ≤ maxInt64 := by push_cast at hsum; omega
    obtain ⟨h1, h2⟩ := @INCR_pos_ok _ hc _ 1 _ (by decide) (by decide) hcur hsum'
    have hlo := (HoldsInt_range hcur).1
    have hcur' : HoldsInt (INCR c key 1).2 key (cur + 1) := by
      unfold HoldsInt
      rw [h2]
      exact IsInt64Text_FormatInt (by omega) hsum'
    obtain ⟨g1, g2, g3, g4⟩ := ih (INCR c key 1).2 (cur + 1) (WF_INCR hc key 1) hcur'
      (by push_cast at hsum; omega)
    have hcast : cur + 1 + (n : Int) = cur + ((n + 1 : Nat) : Int) := by push_cast; omega
    simp only [incrSeq, Incr]
    refine ⟨?_, ?_, g3, fun _ => ?_⟩
    · rw [g1, h1, List.range_succ_eq_map, List.map_cons, List.map_map]
      simp only [Nat.cast_zero, add_zero, List.cons.injEq, true_and]
      apply List.map_congr_left
      intro i _
      simp only [Function.comp_apply, Nat.succ_eq_add_one, Nat.cast_add, Nat.cast_one,
        Prod.mk.injEq, and_true]
      omega
    · rw [← hcast]; exact g2
    · rw [← hcast]
      by_cases hn : 0 < n
      · exact g4 hn
      · have hn0 : n = 0 := by omega
        subst hn0
        simp only [incrSeq, Nat.cast_zero, add_zero]
        rw [h2]
        rfl

theorem incrSeq_succ_last (key : String) (n : Nat) :
    ∀ c : Cache, incrSeq c key (n + 1)
      = ((incrSeq c key n).1 ++ [(Incr (incrSeq c key n).2 key).1],
          (Incr (incrSeq c key n).2 key).2) := by
  induction n with
  | zero => intro c; rfl
  | succ n ih =>
    intro c
    have h := ih (Incr c key).2
    rw [incrSeq, h]
    rfl

/-- The call that would take the counter past `2^63 - 1` is refused: after `n` increments that
bring an absent key to `2^63 - 1`, one more returns `(0, ErrOverflow)` and the key keeps the
text of `2^63 - 1`. -/
theorem incrSeq_saturates (key : String) (n : Nat) (c : Cache) (hc : WF c)
    (habs : c.entry key = none) (hn : (n : Int) = maxInt64) :
    (incrSeq c key (n + 1)).1.getLast? = some (0, some .ErrOverflow) ∧
    ((incrSeq c key (n + 1)).2.entry key).map CacheEntry.Value = some (FormatInt maxInt64) := by
  have hcur : HoldsInt c key 0 := by unfold HoldsInt; rw [habs]
  have hpos : 0 < n := by unfold maxInt64 at hn; omega
  obtain ⟨-, g2, -, g4⟩ := incrSeq_spec key n c 0 hc hcur (by omega)
  have hov := @INCR_pos_overflow _ _ 1 _ (by decide) (by decide) g2 (by omega)
  rw [incrSeq_succ_last]
  simp only [Incr, hov, List.getLast?_append, List.getLast?_singleton]
  refine ⟨rfl, ?_⟩
  rw [g4 hpos, zero_add, hn]

/-- C9 (amended). For every `N` with `0 ≤ N ≤ 2^63 - 1`: `N` calls `Incr(k)`, executed one
after the other on a cache where `k` is absent, return `1, 2, ..., N` in execution order, and
afterwards `k` holds `N`: its stored value is exactly the base-10 text of `N` when `N > 0`,
and `k` is still absent (read as `0`) when `N = 0`. -/
theorem C9_no_lost_update (c : Cache) (hc : WF c) (k : String) (habs : c.entry k = none)
    (N : Nat) (hN : (N : Int) ≤ maxInt64) :
    (incrSeq c k N).1 = (List.range N).map (fun (i : Nat) => ((i : Int) + 1, none)) ∧
    HoldsInt (incrSeq c k N).2 k N ∧
    (0 < N → ((incrSeq c k N).2.entry k).map CacheEntry.Value = some (FormatInt N)) ∧
    (N = 0 → (incrSeq c k N).2.entry k = none) := by
  have hcur : HoldsInt c k 0 := by unfold HoldsInt; rw [habs]
  obtain ⟨g1, g2, -, g4⟩ := incrSeq_spec k N c 0 hc hcur (by omega)
  simp only [zero_add] at g1 g2 g4
  refine ⟨g1, g2, g4, ?_⟩
  intro h0
  subst h0
  exact habs

/-- C9 at a concrete input: three increments on a fresh cache. -/
theorem C9_no_lost_update_witness :
    (incrSeq NewCache "k" 3).1 = [(1, none), (2, none), (3, none)] ∧
    ((incrSeq NewCache "k" 3).2.entry "k").map CacheEntry.Value = some "3" :=
  have h := C9_no_lost_update NewCache WF_NewCache "k" (entry_NewCache "k") 3 (by decide)
  ⟨h.1, h.2.2.1 (by decide)⟩

/-- C9 as stated fails at `N = 2^63`: of `2^63` increments from an absent key the last one
returns `(0, ErrOverflow)` instead of `2^63`, and the stored value is the text of `2^63 - 1`,
not the text of `N`. -/
theorem C9_counterexample :
    (incrSeq NewCache "k" (9223372036854775807 + 1)).1.getLast? = some (0, some .ErrOverflow) ∧
    ((incrSeq NewCache "k" (9223372036854775807 + 1)).2.entry "k").map CacheEntry.Value
      = some "9223372036854775807" ∧
    "9223372036854775807" ≠ FormatInt ((9223372036854775807 + 1 : Nat) : Int) := by
  have h := incrSeq_saturates "k" 9223372036854775807 NewCache WF_NewCache (entry_NewCache "k")
    (by decide)
  have hf : FormatInt maxInt64 = "9223372036854775807" := by decide
  rw [hf] at h
  exact ⟨h.1, h.2, by decide⟩

/-- C10. For a key whose stored value is not the base-10 text of a signed 64-bit integer (as
`"abc"`, the empty string and the numeral `2^63` are not) and an amount `a ≠ 0`, `INCR(k, a)`
returns `(0, ErrNotNumeric)` and the cache is unchanged; in particular `INCR(k, a)` and
`Incr(k)` after `Set(k, "abc")` fail so. -/
theorem C10_not_numeric (c : Cache) (k : String) (a : Int) (ha : a ≠ 0) :
    (∀ e : CacheEntry, c.entry k = some e → (∀ n, ¬ IsInt64Text e.Value n) →
      INCR c k a = ((0, some .ErrNotNumeric), c)) ∧
    ((∀ n, ¬ IsInt64Text "abc" n) ∧ (∀ n, ¬ IsInt64Text "" n) ∧
      (∀ n, ¬ IsInt64Text "9223372036854775808" n)) ∧
    (WF c → ∀ ttl now,
      INCR (Set c k "abc" ttl now) k a = ((0, some .ErrNotNumeric), Set c k "abc" ttl now) ∧
      Incr (Set c k "abc" ttl now) k = ((0, some .ErrNotNumeric), Set c k "abc" ttl now)) := by
  refine ⟨fun e he hp => INCR_not_numeric ha he hp, ⟨not_IsInt64Text_abc, ?_, ?_⟩,
    fun hc ttl now => ⟨?_, ?_⟩⟩
  · intro n hn
    have h1 : decimalText? "" = none := by decide
    have h2 := hn.1
    rw [h1] at h2
    exact absurd h2 (by simp)
  · intro n hn
    have h1 : decimalText? "9223372036854775808" = some 9223372036854775808 := by decide
    have h2 := hn.1
    rw [h1] at h2
    have h3 := hn.2.2
    rw [← Option.some.inj h2] at h3
    exact absurd h3 (by decide)
  · exact INCR_not_numeric ha (entry_Set_same hc k "abc" ttl now) not_IsInt64Text_abc
  · exact INCR_not_numeric (by decide) (entry_Set_same hc k "abc" ttl now) not_IsInt64Text_abc

/-- C10 at a concrete input: `INCR` by `-3` on a key holding the numeral `2^63`, one past the
`int64` range. -/
theorem C10_not_numeric_witness :
    (-3 : Int) ≠ 0 ∧
    INCR (Set NewCache "k" "9223372036854775808" 0 0) "k" (-3)
      = ((0, some .ErrNotNumeric), Set NewCache "k" "9223372036854775808" 0 0) :=
  have h := C10_not_numeric (Set NewCache "k" "9223372036854775808" 0 0) "k" (-3) (by decide)
  ⟨by decide, h.1 ⟨"9223372036854775808", 0⟩ (entry_Set_same WF_NewCache ..) h.2.1.2.2⟩

/-! ## Frame and error properties of the numeric operations, `Delete`, `UpdateExpiration` -/

/-- A successful `INCR` writes the text of the number it returns and keeps the expiry the key
had (`0` for a key without entry). -/
theorem INCR_success {c : Cache} {key : String} {amount v : Int}
    (h : (INCR c key amount).1 = (v, none)) :
    (INCR c key amount).2 = putShard c key ((getShard c key).store key
      ⟨FormatInt v, ((c.entry key).getD ⟨"", 0⟩).ExpireAt⟩) := by
  unfold INCR at h ⊢
  unfold Cache.entry
  by_cases ha : amount = 0
  · rw [if_pos ha] at h; exact absurd (Prod.mk.inj h).2 (by simp)
  · rw [if_neg ha] at h ⊢
    simp only at h ⊢
    split at h
    · exact absurd (Prod.mk.inj h).2 (by simp)
    · split at h
      · exact absurd (Prod.mk.inj h).2 (by simp)
      · rename_i hno
        rw [if_neg hno]
        have hv := (Prod.mk.inj h).1
        simp only [hv]

theorem DECR_success {c : Cache} {key : String} {amount v : Int}
    (h : (DECR c key amount).1 = (v, none)) :
    (DECR c key amount).2 = putShard c key ((getShard c key).store key
      ⟨FormatInt v, ((c.entry key).getD ⟨"", 0⟩).ExpireAt⟩) := by
  unfold DECR at h ⊢
  by_cases ha : amount ≤ 0
  · rw [if_pos ha] at h; exact absurd (Prod.mk.inj h).2 (by simp)
  · rw [if_neg ha] at h ⊢
    exact INCR_success h

/-- C11. Every successful `INCR`, `DECR`, `IncrBy`, `DecrBy`, `Incr` or `Decr` on a key that
has an entry `(v, e)` leaves an entry with the same `expireAt = e`; when the key had no entry,
the entry created has `expireAt = 0` (it never expires). -/
theorem C11_ttl_preserved (c : Cache) (hc : WF c) (k : String) (a : Int)
    (r : (Int × Option NumericError) × Cache)
    (hr : r ∈ [INCR c k a, DECR c k a, IncrBy c k a, DecrBy c k a, Incr c k, Decr c k])
    (hok : r.1.2 = none) :
    (∀ v e, c.entry k = some ⟨v, e⟩ → (r.2.entry k).map CacheEntry.ExpireAt = some e) ∧
    (c.entry k = none → (r.2.entry k).map CacheEntry.ExpireAt = some 0) := by
  have key : r.2.entry k = some ⟨FormatInt r.1.1, ((c.entry k).getD ⟨"", 0⟩).ExpireAt⟩ := by
    have hpair : r.1 = (r.1.1, none) := by rw [← hok]
    simp only [List.mem_cons, List.mem_singleton, List.not_mem_nil, or_false] at hr
    have hstate : r.2 = putShard c k ((getShard c k).store k
        ⟨FormatInt r.1.1, ((c.entry k).getD ⟨"", 0⟩).ExpireAt⟩) := by
      rcases hr with h | h | h | h | h | h <;> subst h
      · exact INCR_success hpair
      · exact DECR_success hpair
      · exact INCR_success hpair
      · exact DECR_success hpair
      · exact INCR_success hpair
      · exact DECR_success hpair
    rw [hstate, entry_putShard_same hc, CacheShard.lookup_store, if_pos rfl]
  constructor
  · intro v e he
    rw [key, he]; rfl
  · intro he
    rw [key, he]; rfl

/-- C11 at a concrete input: `INCR` by 1 on a key set to `"41"` with a TTL of 5 at clock
reading 100 keeps the expiry 105. -/
theorem C11_ttl_preserved_witness :
    (INCR (Set NewCache "k" "41" 5 100) "k" 1).1.2 = none ∧
    ((INCR (Set NewCache "k" "41" 5 100) "k" 1).2.entry "k").map CacheEntry.ExpireAt
      = some 105 :=
  have hh : HoldsInt (Set NewCache "k" "41" 5 100) "k" 41 :=
    HoldsInt_Set WF_NewCache "k" "41" 5 100 41 (by decide)
  have h1 := (@INCR_pos_ok _ (WF_Set WF_NewCache "k" "41" 5 100) _ 1 41 (by decide) (by decide)
    hh (by decide)).1
  have hok : (INCR (Set NewCache "k" "41" 5 100) "k" 1).1.2 = none := by rw [h1]
  ⟨hok, (C11_ttl_preserved (Set NewCache "k" "41" 5 100) (WF_Set WF_NewCache ..) "k" 1 _
    (List.mem_cons_self _ _) hok).1 "41" 105
    ((entry_Set_same WF_NewCache "k" "41" 5 100).trans (by decide))⟩

/-- C12. `INCR(k, 0)` and `IncrBy(k, 0)` return `(0, ErrInvalidAmount)` for every key in every
cache state, and `DECR(k, a)` and `DecrBy(k, a)` do so for every `a ≤ 0`; the cache is not
read or changed, so the amount check comes before every other error. -/
theorem C12_invalid_amount (c : Cache) (k : String) (a : Int) (ha : a ≤ 0) :
    INCR c k 0 = ((0, some .ErrInvalidAmount), c) ∧
    IncrBy c k 0 = ((0, some .ErrInvalidAmount), c) ∧
    DECR c k a = ((0, some .ErrInvalidAmount), c) ∧
    DecrBy c k a = ((0, some .ErrInvalidAmount), c) ∧
    DECR c k (-(2 ^ 63)) = ((0, some .ErrInvalidAmount), c) := by
  refine ⟨rfl, rfl, ?_, ?_, rfl⟩
  · unfold DECR; rw [if_pos ha]
  · unfold DecrBy DECR; rw [if_pos ha]

/-- C12 at a concrete input: the key holds the non-numeric value `"abc"`, and still the error
of `DECR` by `-7` is `ErrInvalidAmount`, not `ErrNotNumeric`. -/
theorem C12_invalid_amount_witness :
    (-7 : Int) ≤ 0 ∧
    DECR (Set NewCache "k" "abc" 0 0) "k" (-7)
      = ((0, some .ErrInvalidAmount), Set NewCache "k" "abc" 0 0) ∧
    INCR (Set NewCache "k" "abc" 0 0) "k" 0
      = ((0, some .ErrInvalidAmount), Set NewCache "k" "abc" 0 0) :=
  have h := C12_invalid_amount (Set NewCache "k" "abc" 0 0) "k" (-7) (by decide)
  ⟨by decide, h.2.2.1, h.1⟩

/-- The two branches of `Delete`, selected by the entry of the key. -/
theorem Delete_absent {c : Cache} {key : String} (h : c.entry key = none) :
    Delete c key = (false, c) := by
  unfold Cache.entry at h
  simp only [Delete, h]

theorem Delete_present {c : Cache} {key : String} {e : CacheEntry} (h : c.entry key = some e) :
    Delete c key = (true,
      { putShard c key ((getShard c key).delete key) with
        stats := { c.stats with Deletes := atomicAddUint64 c.stats.Deletes 1 } }) := by
  unfold Cache.entry at h
  simp only [Delete, h]
  rfl

/-- C14. `Delete(k)` returns `true` exactly when the table of `k`'s shard holds an entry for
`k` (the expiry of the entry plays no part); after the call the table holds no entry for `k`,
and an immediately repeated `Delete(k)` returns `false`. -/
theorem C14_delete (c : Cache) (hc : WF c) (k : String) :
    ((Delete c k).1 = true ↔ ∃ e, c.entry k = some e) ∧
    (Delete c k).2.entry k = none ∧
    (Delete (Delete c k).2 k).1 = false := by
  have hnone := entry_Delete_same hc k
  refine ⟨?_, hnone, by rw [Delete_absent hnone]⟩
  cases he : c.entry k with
  | none => rw [Delete_absent he]; simp
  | some e => rw [Delete_present he]; simp

/-- C14 at a concrete input: an entry whose expiry 105 has long passed is still deleted
with `true`, and the second `Delete` returns `false`. -/
theorem C14_delete_witness :
    (Delete (Set NewCache "k" "v" 5 100) "k").1 = true ∧
    (Delete (Delete (Set NewCache "k" "v" 5 100) "k").2 "k").1 = false :=
  have h := C14_delete (Set NewCache "k" "v" 5 100) (WF_Set WF_NewCache ..) "k"
  ⟨h.1.2 ⟨_, entry_Set_same WF_NewCache "k" "v" 5 100⟩, h.2.2⟩

/-- C15 (amended). `Delete(k)` adds exactly 1 (modulo `2^64`) to the deletes counter when `k`
has an entry and leaves it unchanged when `k` has none; in both cases the gets, sets, hits,
misses, evictions and active-connections counters are unchanged. -/
theorem C15_delete_counter (c : Cache) (k : String) :
    (Delete c k).2.stats.Deletes
      = (if (c.entry k).isSome then (c.stats.Deletes + 1) % 2 ^ 64 else c.stats.Deletes) ∧
    (Delete c k).2.stats.Gets = c.stats.Gets ∧
    (Delete c k).2.stats.Sets = c.stats.Sets ∧
    (Delete c k).2.stats.Hits = c.stats.Hits ∧
    (Delete c k).2.stats.Misses = c.stats.Misses ∧
    (Delete c k).2.stats.Evictions = c.stats.Evictions ∧
    (Delete c k).2.stats.ActiveConns = c.stats.ActiveConns := by
  cases he : c.entry k with
  | none => rw [Delete_absent he]; simp
  | some e => rw [Delete_present he]; exact ⟨rfl, rfl, rfl, rfl, rfl, rfl, rfl⟩

/-- C15 as stated fails: `Delete("k")` on a fresh cache, where `"k"` is absent, returns
`false` and leaves the deletes counter at `0`. -/
theorem C15_counterexample :
    (Delete NewCache "k").1 = false ∧
    (Delete NewCache "k").2.stats.Deletes = NewCache.stats.Deletes ∧
    NewCache.stats.Deletes ≠ NewCache.stats.Deletes + 1 := by
  rw [Delete_absent (entry_NewCache "k")]
  exact ⟨rfl, rfl, by decide⟩

/-- The two branches of `UpdateExpiration`, selected by the entry of the key. -/
theorem UpdateExpiration_absent {c : Cache} {key : String} (h : c.entry key = none)
    (ttl now : Int) : UpdateExpiration c key ttl now = (false, c) := by
  unfold Cache.entry at h
  simp only [UpdateExpiration, h]

theorem UpdateExpiration_present {c : Cache} {key : String} {e : CacheEntry}
    (h : c.entry key = some e) (ttl now : Int) :
    UpdateExpiration c key ttl now = (true, putShard c key ((getShard c key).store key
      ⟨e.Value, if ttl > 0 then wrapInt64 (now + ttl) else 0⟩)) := by
  unfold Cache.entry at h
  simp only [UpdateExpiration, h]

theorem entry_UpdateExpiration_same {c : Cache} (hc : WF c) {key : String} {e : CacheEntry}
    (h : c.entry key = some e) (ttl now : Int) :
    (UpdateExpiration c key ttl now).2.entry key
      = some ⟨e.Value, if ttl > 0 then wrapInt64 (now + ttl) else 0⟩ := by
  rw [UpdateExpiration_present h, entry_putShard_same hc, CacheShard.lookup_store, if_pos rfl]

/-- C16 (amended). If `k` has no entry, `UpdateExpiration(k, ttl)` returns `false` and the
cache is unchanged. Otherwise it returns `true`, the stored value of `k` is unchanged, and
`k`'s `expireAt` becomes `now + ttl` reduced to `int64` when `ttl > 0`, which is `now + ttl`
itself whenever `now + ttl ≤ 2^63 - 1`, and `0` when `ttl ≤ 0`. In both cases no other key's
entry and no counter changes. -/
theorem C16_update_expiration (c : Cache) (hc : WF c) (k : String) (ttl now : Int) :
    (c.entry k = none → UpdateExpiration c k ttl now = (false, c)) ∧
    (∀ v e, c.entry k = some ⟨v, e⟩ →
      (UpdateExpiration c k ttl now).1 = true ∧
      (UpdateExpiration c k ttl now).2.entry k
        = some ⟨v, if ttl > 0 then wrapInt64 (now + ttl) else 0⟩ ∧
      (0 < ttl → minInt64 ≤ now → now + ttl ≤ maxInt64 →
        (UpdateExpiration c k ttl now).2.entry k = some ⟨v, now + ttl⟩) ∧
      (ttl ≤ 0 → (UpdateExpiration c k ttl now).2.entry k = some ⟨v, 0⟩)) ∧
    (∀ k', k' ≠ k → (UpdateExpiration c k ttl now).2.entry k' = c.entry k') ∧
    (UpdateExpiration c k ttl now).2.stats = c.stats := by
  refine ⟨fun h => UpdateExpiration_absent h ttl now, ?_, ?_, ?_⟩
  · intro v e he
    have hup := UpdateExpiration_present he ttl now
    have hent : (UpdateExpiration c k ttl now).2.entry k
        = some ⟨v, if ttl > 0 then wrapInt64 (now + ttl) else 0⟩ :=
      entry_UpdateExpiration_same hc he ttl now
    refine ⟨by rw [hup], hent, ?_, ?_⟩
    · intro h1 h2 h3
      rw [hent, if_pos h1, wrapInt64_of_range (by omega) h3]
    · intro h1
      rw [hent, if_neg (by omega)]
  · intro k' hk
    cases he : c.entry k with
    | none => rw [UpdateExpiration_absent he]
    | some e =>
      rw [UpdateExpiration_present he]
      exact entry_putShard_other c k k' _ (by rw [CacheShard.lookup_store, if_neg hk])
  · cases he : c.entry k with
    | none => rw [UpdateExpiration_absent he]
    | some e => rw [UpdateExpiration_present he]; rfl

/-- C16 (amended) at a concrete input: a TTL of 7 given at clock reading 200 to a key that was
set without expiry. -/
theorem C16_update_expiration_witness :
    (UpdateExpiration (Set NewCache "k" "v" 0 100) "k" 7 200).1 = true ∧
    (UpdateExpiration (Set NewCache "k" "v" 0 100) "k" 7 200).2.entry "k"
      = some ⟨"v", 200 + 7⟩ :=
  have h := (C16_update_expiration (Set NewCache "k" "v" 0 100) (WF_Set WF_NewCache ..) "k" 7
    200).2.1 "v" 0 ((entry_Set_same WF_NewCache "k" "v" 0 100).trans (by decide))
  ⟨h.1, h.2.2.1 (by decide) (by decide) (by decide)⟩

/-- C16 as stated fails when `now + ttl` exceeds `2^63 - 1`: a TTL of `9 * 10^18` ns given at
the clock reading `1.7 * 10^18` leaves the expiry `-7746744073709551616`, which is not
`now + ttl`. -/
theorem C16_counterexample :
    (UpdateExpiration (Set NewCache "k" "v" 0 100) "k" 9000000000000000000
        1700000000000000000).2.entry "k" = some ⟨"v", -7746744073709551616⟩ ∧
    (-7746744073709551616 : Int) ≠ 1700000000000000000 + 9000000000000000000 := by
  have he : (Set NewCache "k" "v" 0 100).entry "k" = some ⟨"v", 0⟩ :=
    (entry_Set_same WF_NewCache "k" "v" 0 100).trans (by decide)
  refine ⟨?_, by decide⟩
  rw [entry_UpdateExpiration_same (WF_Set WF_NewCache ..) he]
  decide

/-! ## `GetAll` -/

theorem lookup_filter_ne {β : Type} (l : List (String × β)) (k k' : String) :
    (l.filter (fun p => p.1 != k)).lookup k' = if k' = k then none else l.lookup k' := by
  induction l with
  | nil => simp
  | cons p l ih =>
    obtain ⟨a, e⟩ := p
    by_cases hak : a = k
    · rw [List.filter_cons_of_neg (by simpa using hak), ih]
      by_cases hk : k' = k
      · simp [hk]
      · have : (k' == a) = false := by simpa [hak] using hk
        simp [hk, List.lookup, this]
    · rw [List.filter_cons_of_pos (by simpa using hak)]
      by_cases hka : k' = a
      · simp [List.lookup, hka, hak]
      · have : (k' == a) = false := by simpa using hka
        simp only [List.lookup, this, ih]

theorem lookup_mapStore (m : List (String × String)) (k v k' : String) :
    (mapStore m k v).lookup k' = if k' = k then some v else m.lookup k' := by
  have h := lookup_filter_ne m k k'
  by_cases hk : k' = k
  · subst hk
    simp [mapStore, List.lookup]
  · have : (k' == k) = false := by simpa using hk
    simp [mapStore, List.lookup, this, hk, h]

theorem lookup_eq_none_of_not_mem {β : Type} (l : List (String × β)) (k : String)
    (h : k ∉ l.map Prod.fst) : l.lookup k = none := by
  induction l with
  | nil => rfl
  | cons p l ih =>
    obtain ⟨a, e⟩ := p
    simp only [List.map_cons, List.mem_cons, not_or] at h
    have : (k == a) = false := by simpa using h.1
    simp only [List.lookup, this]
    exact ih h.2

theorem mem_keys_of_lookup {β : Type} (l : List (String × β)) (k : String) (e : β)
    (h : l.lookup k = some e) : k ∈ l.map Prod.fst := by
  by_contra hn
  rw [lookup_eq_none_of_not_mem l k hn] at h
  exact absurd h (by simp)

/-- A table that does not contain `k` leaves `result[k]` as it is. -/
theorem collectLive_lookup_absent (now : Int) (k : String) (data : List (String × CacheEntry)) :
    ∀ r, k ∉ data.map Prod.fst → (collectLive now r data).lookup k = r.lookup k := by
  induction data with
  | nil => intro r _; rfl
  | cons p tl ih =>
    intro r h
    simp only [List.map_cons, List.mem_cons, not_or] at h
    simp only [collectLive, List.foldl_cons]
    have := ih (if p.2.ExpireAt = 0 ∨ now < p.2.ExpireAt then mapStore r p.1 p.2.Value else r) h.2
    simp only [collectLive] at this
    rw [this]
    split
    · rw [lookup_mapStore, if_neg h.1]
    · rfl

/-- A table without repeated keys that holds `e` for `k` writes `result[k]` exactly when `e`
passes the test of `GetAll`. -/
theorem collectLive_lookup_present (now : Int) (k : String) (e : CacheEntry)
    (data : List (String × CacheEntry)) :
    ∀ r, (data.map Prod.fst).Nodup → data.lookup k = some e →
      (collectLive now r data).lookup k
        = if e.ExpireAt = 0 ∨ now < e.ExpireAt then some e.Value else r.lookup k := by
  induction data with
  | nil => intro r _ h; exact absurd h (by simp)
  | cons p tl ih =>
    intro r hnd hl
    obtain ⟨a, e0⟩ := p
    simp only [List.map_cons, List.nodup_cons] at hnd
    simp only [collectLive, List.foldl_cons]
    by_cases hka : k = a
    · subst hka
      have he : e0 = e := by simpa [List.lookup] using hl
      subst he
      have := collectLive_lookup_absent now k tl
        (if e0.ExpireAt = 0 ∨ now < e0.ExpireAt then mapStore r k e0.Value else r) hnd.1
      simp only [collectLive] at this
      rw [this]
      split
      · rw [lookup_mapStore, if_pos rfl]
      · rfl
    · have hb : (k == a) = false := by simpa using hka
      have hl' : tl.lookup k = some e := by simpa [List.lookup, hb] using hl
      have := ih (if e0.ExpireAt = 0 ∨ now < e0.ExpireAt then mapStore r a e0.Value else r)
        hnd.2 hl'
      simp only [collectLive] at this
      rw [this]
      by_cases hlive : e0.ExpireAt = 0 ∨ now < e0.ExpireAt
      · simp only [if_pos hlive, lookup_mapStore, if_neg hka]
      · simp only [if_neg hlive]

theorem lookup_ne_none_of_mem {β : Type} (l : List (String × β)) (k : String)
    (h : k ∈ l.map Prod.fst) : l.lookup k ≠ none := by
  induction l with
  | nil => simp at h
  | cons p l ih =>
    obtain ⟨a, e⟩ := p
    by_cases hka : k = a
    · simp [List.lookup, hka]
    · have hb : (k == a) = false := by simpa using hka
      simp only [List.map_cons, List.mem_cons, hka, false_or] at h
      simp only [List.lookup, hb]
      exact ih h

theorem getShard_eq_get {c : Cache} (key : String) (h : shardIndex c key < c.shards.length) :
    getShard c key = c.shards.get ⟨shardIndex c key, h⟩ := by
  simp [getShard, List.getD_eq_getElem?_getD, h]

theorem getShard_mem {c : Cache} (hc : WF c) (key : String) : getShard c key ∈ c.shards := by
  rw [getShard_eq_get key (shardIndex_lt hc key)]
  exact List.get_mem _ _ _

/-- In a cache whose tables are placed by `getShard`, a shard that contains `k` is the shard
of `k`. -/
theorem MapLike.shard_of_mem {c : Cache} (hm : MapLike c) {s : CacheShard} (hs : s ∈ c.shards)
    {k : String} (hk : k ∈ s.data.map Prod.fst) : s = getShard c k := by
  obtain ⟨⟨i, hi⟩, rfl⟩ := List.mem_iff_get.1 hs
  obtain ⟨p, hp, rfl⟩ := List.mem_map.1 hk
  have hidx := hm.home i hi p hp
  rw [getShard_eq_get p.1 (by rw [hidx]; exact hi)]
  congr 1
  exact Fin.ext hidx.symm

theorem foldl_collectLive_absent (now : Int) (k : String) (l : List CacheShard) :
    ∀ r, (∀ s ∈ l, k ∉ s.data.map Prod.fst) →
      (l.foldl (fun result shard => collectLive now result shard.data) r).lookup k
        = r.lookup k := by
  induction l with
  | nil => intro r _; rfl
  | cons s tl ih =>
    intro r h
    rw [List.foldl_cons, ih _ (fun s' hs' => h s' (List.mem_cons_of_mem _ hs')),
      collectLive_lookup_absent now k s.data r (h s (List.mem_cons_self _ _))]

theorem foldl_collectLive_present (now : Int) (k : String) (e : CacheEntry) (S : CacheShard)
    (hS : S.data.lookup k = some e) (l : List CacheShard) :
    ∀ r, (∀ s ∈ l, (s.data.map Prod.fst).Nodup) →
      (∀ s ∈ l, k ∈ s.data.map Prod.fst → s = S) →
      (l.foldl (fun result shard => collectLive now result shard.data) r).lookup k
        = if e.ExpireAt = 0 ∨ now < e.ExpireAt then
            (if S ∈ l then some e.Value else r.lookup k)
          else r.lookup k := by
  induction l with
  | nil => intro r _ _; simp
  | cons s tl ih =>
    intro r hnd hhome
    rw [List.foldl_cons, ih _ (fun s' hs' => hnd s' (List.mem_cons_of_mem _ hs'))
      (fun s' hs' => hhome s' (List.mem_cons_of_mem _ hs'))]
    by_cases hk : k ∈ s.data.map Prod.fst
    · have hsS := hhome s (List.mem_cons_self _ _) hk
      subst hsS
      rw [collectLive_lookup_present now k e s.data r (hnd s (List.mem_cons_self _ _)) hS]
      by_cases hlive : e.ExpireAt = 0 ∨ now < e.ExpireAt
      · simp [hlive]
      · simp [hlive]
    · rw [collectLive_lookup_absent now k s.data r hk]
      have hne : S ≠ s := by
        rintro rfl
        exact hk (mem_keys_of_lookup _ _ _ hS)
      by_cases hlive : e.ExpireAt = 0 ∨ now < e.ExpireAt
      · simp [hlive, hne]
      · simp [hlive]

/-- What `GetAll` holds for a key: the value of the key's entry when that entry passes the
test `ExpireAt == 0 || now < ExpireAt`, and nothing otherwise. -/
theorem GetAll_lookup {c : Cache} (hc : WF c) (hm : MapLike c) (now : Int) (k : String) :
    (GetAll c now).lookup k =
      match c.entry k with
      | none => none
      | some e => if e.ExpireAt = 0 ∨ now < e.ExpireAt then some e.Value else none := by
  unfold GetAll
  cases he : c.entry k with
  | none =>
    simp only
    rw [foldl_collectLive_absent now k c.shards []]
    · rfl
    · intro s hs hk
      have := hm.shard_of_mem hs hk
      subst this
      unfold Cache.entry CacheShard.lookup at he
      exact lookup_ne_none_of_mem _ _ hk he
  | some e =>
    simp only
    unfold Cache.entry CacheShard.lookup at he
    rw [foldl_collectLive_present now k e (getShard c k) he c.shards []
      (fun s hs => hm.nodup s hs) (fun s hs hk => hm.shard_of_mem hs hk)]
    simp [getShard_mem hc k]

theorem MapLike_NewCache : MapLike NewCache := by
  constructor
  · intro s hs
    have : s = ⟨[]⟩ := List.eq_of_mem_replicate hs
    subst this
    exact List.nodup_nil
  · intro i h p hp
    have hs : NewCache.shards.get ⟨i, h⟩ = ⟨[]⟩ :=
      List.eq_of_mem_replicate (List.get_mem _ _ _)
    rw [hs] at hp
    exact absurd hp (List.not_mem_nil _)

/-- Writing to the shard of `key` a table without repeated keys, all of them keys of that
shard, keeps the tables placed by `getShard`. -/
theorem MapLike_putShard {c : Cache} (hm : MapLike c) (key : String) (s : CacheShard)
    (hnd : (s.data.map Prod.fst).Nodup)
    (hhome : ∀ p ∈ s.data, shardIndex c p.1 = shardIndex c key) :
    MapLike (putShard c key s) := by
  constructor
  · intro s' hs'
    rcases List.mem_or_eq_of_mem_set hs' with h | h
    · exact hm.nodup s' h
    · rw [h]; exact hnd
  · intro i h p hp
    have hlen : i < c.shards.length := by simpa [putShard] using h
    change shardIndex c p.1 = i
    by_cases hi : shardIndex c key = i
    · have hget : (putShard c key s).shards.get ⟨i, h⟩ = s := by
        simp [putShard, hi]
      rw [hget] at hp
      rw [hhome p hp, hi]
    · have hget : (putShard c key s).shards.get ⟨i, h⟩ = c.shards.get ⟨i, hlen⟩ := by
        simp [putShard, List.getElem_set_ne hi]
      rw [hget] at hp
      exact hm.home i hlen p hp

theorem keys_filter_nodup (l : List (String × CacheEntry)) (key : String)
    (h : (l.map Prod.fst).Nodup) :
    ((l.filter (fun p => p.1 != key)).map Prod.fst).Nodup :=
  h.sublist ((List.filter_sublist l).map Prod.fst)

theorem MapLike_store {c : Cache} (hc : WF c) (hm : MapLike c) (key : String) (e : CacheEntry) :
    MapLike (putShard c key ((getShard c key).store key e)) := by
  have hlt := shardIndex_lt hc key
  have hS := getShard_eq_get key hlt
  apply MapLike_putShard hm
  · simp only [CacheShard.store, CacheShard.delete, List.map_cons, List.nodup_cons]
    refine ⟨?_, keys_filter_nodup _ key (hm.nodup _ (getShard_mem hc key))⟩
    intro hmem
    obtain ⟨p, hp, hpk⟩ := List.mem_map.1 hmem
    have := (List.mem_filter.1 hp).2
    simp [hpk] at this
  · intro p hp
    simp only [CacheShard.store, CacheShard.delete, List.mem_cons] at hp
    rcases hp with rfl | hp
    · rfl
    · have hp' := (List.mem_filter.1 hp).1
      rw [hS] at hp'
      exact hm.home _ hlt p hp'

theorem MapLike_delete {c : Cache} (hc : WF c) (hm : MapLike c) (key : String) :
    MapLike (putShard c key ((getShard c key).delete key)) := by
  have hlt := shardIndex_lt hc key
  have hS := getShard_eq_get key hlt
  apply MapLike_putShard hm
  · exact keys_filter_nodup _ key (hm.nodup _ (getShard_mem hc key))
  · intro p hp
    have hp' := (List.mem_filter.1 hp).1
    rw [hS] at hp'
    exact hm.home _ hlt p hp'

theorem MapLike_Set {c : Cache} (hc : WF c) (hm : MapLike c) (key value : String)
    (ttl now : Int) : MapLike (Set c key value ttl now) := by
  have h := MapLike_store hc hm key ⟨value, if ttl > 0 then wrapInt64 (now + ttl) else 0⟩
  exact ⟨h.nodup, h.home⟩

/-- C13 fails on the code. At the instant `now = expireAt` the two tests part: for a key set
with a TTL of 5 at clock reading 100, at reading 105 `Get` returns `("v", true)` while
`GetAll` has no entry for the key. A negative `expireAt` parts them as well: for a key set
with a TTL of `9 * 10^18` ns at reading `1.7 * 10^18` (the expiry wraps to a negative number),
one second later `Get` returns `("v", true)` and `GetAll` has no entry. In general, in every cache state `GetAll` holds `k ↦ v`
exactly when the entry `(v, e)` of `k` has `e = 0` or `now < e`, so whatever `GetAll` holds
`Get` returns, but not conversely. -/
theorem C13_getall_differs_from_get :
    ((Get (Set NewCache "k" "v" 5 100) "k" 105).1 = ("v", true) ∧
      (GetAll (Set NewCache "k" "v" 5 100) 105).lookup "k" = none) ∧
    ((Get (Set NewCache "k" "v" 9000000000000000000 1700000000000000000) "k"
        1700000001000000000).1 = ("v", true) ∧
      (GetAll (Set NewCache "k" "v" 9000000000000000000 1700000000000000000)
        1700000001000000000).lookup "k" = none) ∧
    (∀ (c : Cache) (now : Int) (k v : String), WF c → MapLike c →
      ((GetAll c now).lookup k = some v ↔
        ∃ e : Int, c.entry k = some ⟨v, e⟩ ∧ (e = 0 ∨ now < e))) ∧
    (∀ (c : Cache) (now : Int) (k v : String), WF c → MapLike c →
      (GetAll c now).lookup k = some v → (Get c k now).1 = (v, true)) := by
  have hiff : ∀ (c : Cache) (now : Int) (k v : String), WF c → MapLike c →
      ((GetAll c now).lookup k = some v ↔
        ∃ e : Int, c.entry k = some ⟨v, e⟩ ∧ (e = 0 ∨ now < e)) := by
    intro c now k v hc hm
    rw [GetAll_lookup hc hm]
    cases he : c.entry k with
    | none => simp
    | some en =>
      obtain ⟨v0, e0⟩ := en
      by_cases hlive : e0 = 0 ∨ now < e0
      · simp only [if_pos hlive, Option.some.injEq, CacheEntry.mk.injEq]
        exact ⟨fun h => ⟨e0, ⟨h, rfl⟩, hlive⟩, fun ⟨e, ⟨h, _⟩, _⟩ => h⟩
      · simp only [if_neg hlive, reduceCtorEq, Option.some.injEq, CacheEntry.mk.injEq,
          false_iff, not_exists, not_and]
        rintro e ⟨-, rfl⟩
        exact hlive
  have he : (Set NewCache "k" "v" 5 100).entry "k" = some ⟨"v", 105⟩ :=
    (entry_Set_same WF_NewCache "k" "v" 5 100).trans (by decide)
  have he2 : (Set NewCache "k" "v" 9000000000000000000 1700000000000000000).entry "k"
      = some ⟨"v", -7746744073709551616⟩ :=
    (entry_Set_same WF_NewCache "k" "v" _ _).trans (by decide)
  refine ⟨⟨?_, ?_⟩, ⟨?_, ?_⟩, hiff, ?_⟩
  · rw [Get_result, he]; decide
  · rw [GetAll_lookup (WF_Set WF_NewCache ..) (MapLike_Set WF_NewCache MapLike_NewCache ..), he]
    decide
  · rw [Get_result, he2]; decide
  · rw [GetAll_lookup (WF_Set WF_NewCache ..) (MapLike_Set WF_NewCache MapLike_NewCache ..), he2]
    decide
  · intro c now k v hc hm h
    obtain ⟨e, he, hlive⟩ := (hiff c now k v hc hm).1 h
    rw [Get_result, he]
    have : ¬ (e > 0 ∧ now > e) := by omega
    simp only [if_neg this]

/-! ## `strings.Fields` and `strings.TrimSpace` -/

theorem fieldsLoop_dropWhile (l : List Char) :
    fieldsLoop (l.dropWhile isSpace) [] = fieldsLoop l [] := by
  induction l with
  | nil => rfl
  | cons ch cs ih =>
    by_cases h : isSpace ch = true
    · rw [List.dropWhile_cons_of_pos h, ih]
      simp [fieldsLoop, h]
    · rw [List.dropWhile_cons_of_neg h]

/-- White space at the end of the input adds no field. -/
theorem fieldsLoop_append_blank (ws : List Char) (hws : ∀ ch ∈ ws, isSpace ch = true) :
    ∀ (l cur : List Char), fieldsLoop (l ++ ws) cur = fieldsLoop l cur := by
  have base : ∀ cur : List Char, fieldsLoop ws cur = fieldsLoop [] cur := by
    induction ws with
    | nil => intro cur; rfl
    | cons sp ws ih =>
      intro cur
      have hsp := hws sp (List.mem_cons_self _ _)
      have ih' := ih (fun ch h => hws ch (List.mem_cons_of_mem _ h))
      by_cases hc : cur.isEmpty = true
      · simp only [fieldsLoop, hsp, hc, if_true]
        rw [ih' []]
        rfl
      · simp only [fieldsLoop, hsp, hc, if_true, Bool.false_eq_true, if_false]
        rw [ih' []]
        rfl
  intro l
  induction l with
  | nil => intro cur; simpa using base cur
  | cons ch cs ih =>
    intro cur
    simp only [List.cons_append, fieldsLoop, List.append_eq, ih]

theorem fieldsLoop_rdropWhile (l cur : List Char) :
    fieldsLoop (l.rdropWhile isSpace) cur = fieldsLoop l cur := by
  induction l using List.reverseRecOn with
  | nil => rfl
  | append_singleton l x ih =>
    by_cases h : isSpace x = true
    · rw [List.rdropWhile_concat_pos _ _ _ h, ih,
        fieldsLoop_append_blank [x] (by simpa using h)]
    · rw [List.rdropWhile_concat_neg _ _ _ h]

/-- The call of `strings.TrimSpace` before `strings.Fields` changes nothing. -/
theorem Fields_TrimSpace (s : String) : Fields (TrimSpace s) = Fields s := by
  unfold Fields TrimSpace
  show fieldsLoop ((s.data.dropWhile isSpace).rdropWhile isSpace) [] = fieldsLoop s.data []
  rw [fieldsLoop_rdropWhile, fieldsLoop_dropWhile]

/-- The scan reads through a run of characters that are not white space. -/
theorem fieldsLoop_token (tok : List Char) (htok : ∀ ch ∈ tok, isSpace ch = false) :
    ∀ (rest cur : List Char), fieldsLoop (tok ++ rest) cur = fieldsLoop rest (tok.reverse ++ cur) := by
  induction tok with
  | nil => intro rest cur; rfl
  | cons ch cs ih =>
    intro rest cur
    have hch := htok ch (List.mem_cons_self _ _)
    simp only [List.cons_append, fieldsLoop, hch, Bool.false_eq_true, if_false, List.append_eq]
    rw [ih (fun c h => htok c (List.mem_cons_of_mem _ h))]
    simp

/-- The fields of a line of tokens are the tokens. -/
theorem Fields_lineOf (toks : List String) (eol : String) (htoks : ∀ t ∈ toks, IsToken t)
    (heol : IsBlank eol) : Fields (lineOf toks eol) = toks := by
  unfold Fields lineOf
  simp only
  rw [fieldsLoop_append_blank eol.data heol]
  induction toks with
  | nil => rfl
  | cons t ts ih =>
    obtain ⟨hne, hns⟩ := htoks t (List.mem_cons_self _ _)
    have hrev : (t.data.reverse ++ []).isEmpty = false := by
      cases h : t.data with
      | nil => exact absurd h hne
      | cons a as => simp
    cases ts with
    | nil =>
      have := fieldsLoop_token t.data hns [] []
      simp only [List.append_nil] at this hrev
      simp only [lineData, this, fieldsLoop, hrev, Bool.false_eq_true, if_false,
        List.reverse_reverse]
    | cons t' ts' =>
      have ih' := ih (fun x hx => htoks x (List.mem_cons_of_mem _ hx))
      have hsp : isSpace ' ' = true := by decide
      simp only [List.append_nil] at hrev
      simp only [lineData, fieldsLoop_token t.data hns, fieldsLoop, hsp, if_true,
        List.append_nil, hrev, Bool.false_eq_true, if_false, List.reverse_reverse, ih']

/-! ## One line of the protocol -/

theorem ToUpper_SET (ut : Char → Char) : ToUpper ut "SET" = "SET" := by
  simp [ToUpper, unicodeToUpper]

theorem ToUpper_GET (ut : Char → Char) : ToUpper ut "GET" = "GET" := by
  simp [ToUpper, unicodeToUpper]

theorem ToUpper_DEL (ut : Char → Char) : ToUpper ut "DEL" = "DEL" := by
  simp [ToUpper, unicodeToUpper]

/-- A line without fields is skipped. -/
theorem handleLine_empty (ut : Char → Char) (fr : Nat → Nat → Nat → Nat) (c : Cache)
    {line : String} (now : Int) (h : Fields line = []) :
    handleLine ut fr c line now = ⟨[], c, false⟩ := by
  simp [handleLine, Fields_TrimSpace, h]

/-- A line with the command word `SET` and fewer than three fields. -/
theorem handleLine_set_arity (ut : Char → Char) (fr : Nat → Nat → Nat → Nat) (c : Cache)
    {line : String} (now : Int) {p0 : String} {rest : List String}
    (h : Fields line = p0 :: rest) (hcmd : ToUpper ut p0 = "SET") (hlen : rest.length < 2) :
    handleLine ut fr c line now
      = ⟨["-ERR wrong number of arguments for 'set' command\r\n"], c, false⟩ := by
  have h3 : rest.length + 1 < 3 := by omega
  simp [handleLine, Fields_TrimSpace, h, hcmd, h3]

/-- A line with the command word `GET` and a number of fields other than two. -/
theorem handleLine_get_arity (ut : Char → Char) (fr : Nat → Nat → Nat → Nat) (c : Cache)
    {line : String} (now : Int) {p0 : String} {rest : List String}
    (h : Fields line = p0 :: rest) (hcmd : ToUpper ut p0 = "GET") (hlen : rest.length ≠ 1) :
    handleLine ut fr c line now
      = ⟨["-ERR wrong number of arguments for 'get' command\r\n"], c, false⟩ := by
  simp [handleLine, Fields_TrimSpace, h, hcmd, hlen]

/-- A line with the command word `DEL` and a number of fields other than two. -/
theorem handleLine_del_arity (ut : Char → Char) (fr : Nat → Nat → Nat → Nat) (c : Cache)
    {line : String} (now : Int) {p0 : String} {rest : List String}
    (h : Fields line = p0 :: rest) (hcmd : ToUpper ut p0 = "DEL") (hlen : rest.length ≠ 1) :
    handleLine ut fr c line now
      = ⟨["-ERR wrong number of arguments for 'del' command\r\n"], c, false⟩ := by
  simp [handleLine, Fields_TrimSpace, h, hcmd, hlen]

/-- A line `SET key value` of exactly three fields. -/
theorem handleLine_set3 (ut : Char → Char) (fr : Nat → Nat → Nat → Nat) (c : Cache)
    {line : String} (now : Int) {p0 key value : String}
    (h : Fields line = [p0, key, value]) (hcmd : ToUpper ut p0 = "SET") :
    handleLine ut fr c line now = ⟨["+OK\r\n"], Set c key value 0 now, false⟩ := by
  simp [handleLine, Fields_TrimSpace, h, hcmd]

/-- A line `SET key value EX seconds` of exactly five fields. -/
theorem handleLine_set_ex (ut : Char → Char) (fr : Nat → Nat → Nat → Nat) (c : Cache)
    {line : String} (now : Int) {p0 key value secs : String}
    (h : Fields line = [p0, key, value, "EX", secs]) (hcmd : ToUpper ut p0 = "SET") :
    handleLine ut fr c line now
      = ⟨["+OK\r\n"], Set c key value ((ParseDuration fr (secs ++ "s")).getD 0) now, false⟩ := by
  cases hp : ParseDuration fr (secs ++ "s") <;>
    simp [handleLine, Fields_TrimSpace, h, hcmd, hp]

/-- A line `GET key` of exactly two fields. -/
theorem handleLine_get (ut : Char → Char) (fr : Nat → Nat → Nat → Nat) (c : Cache)
    {line : String} (now : Int) {p0 key : String}
    (h : Fields line = [p0, key]) (hcmd : ToUpper ut p0 = "GET") :
    handleLine ut fr c line now =
      ⟨[if (Get c key now).1.2 then "+" ++ (Get c key now).1.1 ++ "\r\n" else "$-1\r\n"],
        (Get c key now).2, false⟩ := by
  cases hg : (Get c key now).1.2 <;>
    simp [handleLine, Fields_TrimSpace, h, hcmd, hg]

/-- A line `DEL key` of exactly two fields. -/
theorem handleLine_del (ut : Char → Char) (fr : Nat → Nat → Nat → Nat) (c : Cache)
    {line : String} (now : Int) {p0 key : String}
    (h : Fields line = [p0, key]) (hcmd : ToUpper ut p0 = "DEL") :
    handleLine ut fr c line now =
      ⟨[if (Delete c key).1 then ":1\r\n" else ":0\r\n"], (Delete c key).2, false⟩ := by
  cases hd : (Delete c key).1 <;>
    simp [handleLine, Fields_TrimSpace, h, hcmd, hd]

/-- The handler returns after a line exactly when the command word of the line is `QUIT`. -/
theorem handleLine_quit_iff (ut : Char → Char) (fr : Nat → Nat → Nat → Nat) (c : Cache)
    (line : String) (now : Int) :
    (handleLine ut fr c line now).quit = true ↔ commandWord ut line = some "QUIT" := by
  simp only [commandWord, handleLine, Fields_TrimSpace]
  cases h : Fields line with
  | nil => simp
  | cons p0 rest =>
    simp only [List.length_cons, Nat.add_one_ne_zero, if_false, List.getD_cons_zero,
      List.head?_cons, Option.map_some', Option.some.injEq]
    split_ifs <;> simp_all

/-! ## The handler loop -/

theorem handleConnection_continue (ut : Char → Char) (fr : Nat → Nat → Nat → Nat) (c : Cache)
    (line : String) (now : Int) (rest : List (String × Int))
    (h : (handleLine ut fr c line now).quit = false) :
    handleConnection ut fr c ((line, now) :: rest) =
      ⟨(handleLine ut fr c line now).writes
          ++ (handleConnection ut fr (handleLine ut fr c line now).cache rest).writes,
        (handleConnection ut fr (handleLine ut fr c line now).cache rest).cache,
        (handleConnection ut fr (handleLine ut fr c line now).cache rest).handled + 1,
        (handleConnection ut fr (handleLine ut fr c line now).cache rest).byQuit⟩ := by
  simp only [handleConnection, h, Bool.false_eq_true, if_false]

theorem handleConnection_quit (ut : Char → Char) (fr : Nat → Nat → Nat → Nat) (c : Cache)
    (line : String) (now : Int) (rest : List (String × Int))
    (h : (handleLine ut fr c line now).quit = true) :
    handleConnection ut fr c ((line, now) :: rest) =
      ⟨(handleLine ut fr c line now).writes, (handleLine ut fr c line now).cache, 1, true⟩ := by
  simp only [handleConnection, h, if_true]

theorem WF_Delete {c : Cache} (h : WF c) (key : String) : WF (Delete c key).2 := by
  cases he : c.entry key with
  | none => rw [Delete_absent he]; exact h
  | some e =>
    rw [Delete_present he]
    have h1 := WF_putShard h key ((getShard c key).delete key)
    exact ⟨h1.len, h1.mask⟩

theorem isToken_SET : IsToken "SET" := by decide

theorem isToken_GET : IsToken "GET" := by decide

theorem isToken_DEL : IsToken "DEL" := by decide

theorem isToken_EX : IsToken "EX" := by decide

/-- The reply to `GET key` is decided by the entry of the key as `Get` is. -/
theorem handleLine_get_hit (ut : Char → Char) (fr : Nat → Nat → Nat → Nat) {c : Cache}
    {key : String} {e : CacheEntry} (eol : String) (now : Int) (hkey : IsToken key)
    (heol : IsBlank eol) (he : c.entry key = some e)
    (hx : ¬ (e.ExpireAt > 0 ∧ now > e.ExpireAt)) :
    handleLine ut fr c (lineOf ["GET", key] eol) now =
      ⟨["+" ++ e.Value ++ "\r\n"], (Get c key now).2, false⟩ := by
  have hf : Fields (lineOf ["GET", key] eol) = ["GET", key] :=
    Fields_lineOf _ _ (by simp [isToken_GET, hkey]) heol
  rw [handleLine_get ut fr c now hf (ToUpper_GET ut), Get_hit he hx]
  simp

theorem handleLine_get_miss (ut : Char → Char) (fr : Nat → Nat → Nat → Nat) {c : Cache}
    {key : String} (eol : String) (now : Int) (hkey : IsToken key) (heol : IsBlank eol)
    (hg : (Get c key now).1 = ("", false)) :
    handleLine ut fr c (lineOf ["GET", key] eol) now =
      ⟨["$-1\r\n"], (Get c key now).2, false⟩ := by
  have hf : Fields (lineOf ["GET", key] eol) = ["GET", key] :=
    Fields_lineOf _ _ (by simp [isToken_GET, hkey]) heol
  rw [handleLine_get ut fr c now hf (ToUpper_GET ut), hg]
  simp

/-- A line with the command word `PING`. -/
theorem handleLine_ping (ut : Char → Char) (fr : Nat → Nat → Nat → Nat) (c : Cache)
    {line : String} (now : Int) {p0 : String} {rest : List String}
    (h : Fields line = p0 :: rest) (hcmd : ToUpper ut p0 = "PING") :
    handleLine ut fr c line now = ⟨["+PONG\r\n"], c, false⟩ := by
  simp [handleLine, Fields_TrimSpace, h, hcmd]

/-- A line with the command word `QUIT`. -/
theorem handleLine_quit (ut : Char → Char) (fr : Nat → Nat → Nat → Nat) (c : Cache)
    {line : String} (now : Int) {p0 : String} {rest : List String}
    (h : Fields line = p0 :: rest) (hcmd : ToUpper ut p0 = "QUIT") :
    handleLine ut fr c line now = ⟨["+OK\r\n"], c, true⟩ := by
  simp [handleLine, Fields_TrimSpace, h, hcmd]

/-- C17. For tokens `k` and `v` and any line terminator of white space, the lines `SET k v`,
`GET k`, `DEL k`, `DEL k`, `GET k`, handled in this order on any cache at any instants, are
answered `+OK`, `+v`, `:1`, `:0`, `$-1` (each followed by `\r\n`); and `DEL k` on a cache
with no entry for `k` is answered `:0`. -/
theorem C17_set_get_del (ut : Char → Char) (fr : Nat → Nat → Nat → Nat) (c : Cache) (hc : WF c)
    (k v eol : String) (hk : IsToken k) (hv : IsToken v) (heol : IsBlank eol)
    (t1 t2 t3 t4 t5 : Int) :
    (handleConnection ut fr c
      [(lineOf ["SET", k, v] eol, t1), (lineOf ["GET", k] eol, t2), (lineOf ["DEL", k] eol, t3),
        (lineOf ["DEL", k] eol, t4), (lineOf ["GET", k] eol, t5)]).writes
      = ["+OK\r\n", "+" ++ v ++ "\r\n", ":1\r\n", ":0\r\n", "$-1\r\n"] ∧
    (∀ c' : Cache, c'.entry k = none →
      (handleLine ut fr c' (lineOf ["DEL", k] eol) t1).writes = [":0\r\n"]) := by
  have hfs : Fields (lineOf ["SET", k, v] eol) = ["SET", k, v] :=
    Fields_lineOf _ _ (by simp [isToken_SET, hk, hv]) heol
  have hfd : Fields (lineOf ["DEL", k] eol) = ["DEL", k] :=
    Fields_lineOf _ _ (by simp [isToken_DEL, hk]) heol
  -- the five states
  have h1 := handleLine_set3 ut fr c t1 hfs (ToUpper_SET ut)
  have hc1 : WF (Set c k v 0 t1) := WF_Set hc ..
  have he1 : (Set c k v 0 t1).entry k = some ⟨v, 0⟩ := by
    rw [entry_Set_same hc]; simp
  have hx : ¬ ((⟨v, 0⟩ : CacheEntry).ExpireAt > 0 ∧ t2 > (⟨v, 0⟩ : CacheEntry).ExpireAt) := by
    simp
  have h2 := handleLine_get_hit ut fr eol t2 hk heol he1 hx
  have hc2 : WF (Get (Set c k v 0 t1) k t2).2 := WF_Get hc1 k t2
  have he2 : (Get (Set c k v 0 t1) k t2).2.entry k = some ⟨v, 0⟩ := by
    rw [Get_hit he1 hx]; exact he1
  have h3 := handleLine_del ut fr (Get (Set c k v 0 t1) k t2).2 t3 hfd (ToUpper_DEL ut)
  have hd3 : (Delete (Get (Set c k v 0 t1) k t2).2 k).1 = true := by
    rw [Delete_present he2]
  have hc3 : WF (Delete (Get (Set c k v 0 t1) k t2).2 k).2 := WF_Delete hc2 k
  have he3 : (Delete (Get (Set c k v 0 t1) k t2).2 k).2.entry k = none :=
    entry_Delete_same hc2 k
  have h4 := handleLine_del ut fr (Delete (Get (Set c k v 0 t1) k t2).2 k).2 t4 hfd
    (ToUpper_DEL ut)
  have hd4 : Delete (Delete (Get (Set c k v 0 t1) k t2).2 k).2 k
      = (false, (Delete (Get (Set c k v 0 t1) k t2).2 k).2) := Delete_absent he3
  have h5 := handleLine_get_miss ut fr (c := (Delete (Get (Set c k v 0 t1) k t2).2 k).2)
    eol t5 hk heol (by rw [Get_miss he3])
  constructor
  · rw [handleConnection_continue _ _ _ _ _ _ (by rw [h1]), h1]
    simp only
    rw [handleConnection_continue _ _ _ _ _ _ (by rw [h2]), h2]
    simp only
    rw [handleConnection_continue _ _ _ _ _ _ (by rw [h3]), h3]
    simp only [hd3, if_true]
    rw [handleConnection_continue _ _ _ _ _ _ (by rw [h4]), h4]
    simp only [hd4, Bool.false_eq_true, if_false]
    rw [handleConnection_continue _ _ _ _ _ _ (by rw [h5]), h5]
    simp [handleConnection]
  · intro c' hnone
    rw [handleLine_del ut fr c' t1 hfd (ToUpper_DEL ut), Delete_absent hnone]
    simp

/-- C17 at a concrete input: the session `SET foo bar`, `GET foo`, `DEL foo`, `DEL foo`,
`GET foo` with `\r\n` terminators on a fresh cache. -/
theorem C17_set_get_del_witness :
    (lineOf ["SET", "foo", "bar"] "\r\n" = "SET foo bar\r\n" ∧
      lineOf ["GET", "foo"] "\r\n" = "GET foo\r\n" ∧
      lineOf ["DEL", "foo"] "\r\n" = "DEL foo\r\n") ∧
    (handleConnection id (fun _ _ _ => 0) NewCache
      [(lineOf ["SET", "foo", "bar"] "\r\n", 1), (lineOf ["GET", "foo"] "\r\n", 2),
        (lineOf ["DEL", "foo"] "\r\n", 3), (lineOf ["DEL", "foo"] "\r\n", 4),
        (lineOf ["GET", "foo"] "\r\n", 5)]).writes
      = ["+OK\r\n", "+" ++ "bar" ++ "\r\n", ":1\r\n", ":0\r\n", "$-1\r\n"] :=
  ⟨by decide, (C17_set_get_del id (fun _ _ _ => 0) NewCache WF_NewCache "foo" "bar" "\r\n"
    (by decide) (by decide) (by decide) 1 2 3 4 5).1⟩

/-- C19. A line whose command word is `SET` with fewer than 3 fields, or `GET` or `DEL` with
a number of fields other than 2, gets exactly one reply,
`-ERR wrong number of arguments for '<cmd>' command\r\n` with `<cmd>` = `set`, `get`, `del`;
the cache (every table and every counter) is unchanged, and the loop goes on with the next
line. -/
theorem C19_wrong_arity (ut : Char → Char) (fr : Nat → Nat → Nat → Nat) (c : Cache)
    (line : String) (now : Int) (p0 : String) (rest : List String) (name : String)
    (hf : Fields line = p0 :: rest)
    (hbad : (ToUpper ut p0 = "SET" ∧ (p0 :: rest).length < 3 ∧ name = "set") ∨
      (ToUpper ut p0 = "GET" ∧ (p0 :: rest).length ≠ 2 ∧ name = "get") ∨
      (ToUpper ut p0 = "DEL" ∧ (p0 :: rest).length ≠ 2 ∧ name = "del")) :
    handleLine ut fr c line now
      = ⟨["-ERR wrong number of arguments for '" ++ name ++ "' command\r\n"], c, false⟩ ∧
    ∀ more : List (String × Int),
      handleConnection ut fr c ((line, now) :: more) =
        ⟨("-ERR wrong number of arguments for '" ++ name ++ "' command\r\n")
            :: (handleConnection ut fr c more).writes,
          (handleConnection ut fr c more).cache,
          (handleConnection ut fr c more).handled + 1,
          (handleConnection ut fr c more).byQuit⟩ := by
  have key : handleLine ut fr c line now
      = ⟨["-ERR wrong number of arguments for '" ++ name ++ "' command\r\n"], c, false⟩ := by
    rcases hbad with ⟨h1, h2, rfl⟩ | ⟨h1, h2, rfl⟩ | ⟨h1, h2, rfl⟩
    · rw [handleLine_set_arity ut fr c now hf h1 (by simp at h2; omega)]; rfl
    · rw [handleLine_get_arity ut fr c now hf h1 (by simpa using h2)]; rfl
    · rw [handleLine_del_arity ut fr c now hf h1 (by simpa using h2)]; rfl
  refine ⟨key, fun more => ?_⟩
  rw [handleConnection_continue _ _ _ _ _ _ (by rw [key]), key]
  rfl

/-- C19 at a concrete input: the line `get\r\n` (lower case, one field) followed by `PING`. -/
theorem C19_wrong_arity_witness :
    Fields "get\r\n" = ["get"] ∧
    (handleConnection id (fun _ _ _ => 0) NewCache [("get\r\n", 7), ("PING\r\n", 8)]).writes
      = ["-ERR wrong number of arguments for '" ++ "get" ++ "' command\r\n", "+PONG\r\n"] ∧
    (handleConnection id (fun _ _ _ => 0) NewCache [("get\r\n", 7), ("PING\r\n", 8)]).cache
      = NewCache := by
  have h := (C19_wrong_arity id (fun _ _ _ => 0) NewCache "get\r\n" 7 "get" [] "get" (by decide)
    (Or.inr (Or.inl ⟨by decide, by decide, rfl⟩))).2 [("PING\r\n", 8)]
  have hp : handleLine id (fun _ _ _ => 0) NewCache "PING\r\n" 8
      = ⟨["+PONG\r\n"], NewCache, false⟩ :=
    handleLine_ping id (fun _ _ _ => 0) NewCache 8 (by decide : Fields "PING\r\n" = ["PING"])
      (by decide)
  have hrest : handleConnection id (fun _ _ _ => 0) NewCache [("PING\r\n", 8)]
      = ⟨["+PONG\r\n"], NewCache, 1, false⟩ := by
    rw [handleConnection_continue _ _ _ _ _ _ (by rw [hp]), hp]
    rfl
  rw [h, hrest]
  exact ⟨by decide, rfl, rfl⟩

theorem Fields_blank {line : String} (h : IsBlank line) : Fields line = [] := by
  have := fieldsLoop_append_blank line.data h [] []
  simpa [Fields, fieldsLoop] using this

theorem commandWord_quit {ut : Char → Char} {line : String}
    (h : commandWord ut line = some "QUIT") :
    ∃ p0 rest, Fields line = p0 :: rest ∧ ToUpper ut p0 = "QUIT" := by
  unfold commandWord at h
  cases hf : Fields line with
  | nil => rw [hf] at h; exact absurd h (by simp)
  | cons p0 rest =>
    rw [hf] at h
    exact ⟨p0, rest, rfl, by simpa using h⟩

/-- Lines without the command word `QUIT` are all handled. -/
theorem handleConnection_no_quit (ut : Char → Char) (fr : Nat → Nat → Nat → Nat)
    (lines : List (String × Int)) :
    ∀ c : Cache, (∀ l ∈ lines, commandWord ut l.1 ≠ some "QUIT") →
      (handleConnection ut fr c lines).handled = lines.length ∧
      (handleConnection ut fr c lines).byQuit = false := by
  induction lines with
  | nil => intro c _; exact ⟨rfl, rfl⟩
  | cons l ls ih =>
    intro c h
    obtain ⟨line, now⟩ := l
    have hq : (handleLine ut fr c line now).quit = false := by
      have hw : commandWord ut line ≠ some "QUIT" := h (line, now) (List.mem_cons_self _ _)
      cases hb : (handleLine ut fr c line now).quit with
      | false => rfl
      | true => exact absurd ((handleLine_quit_iff ut fr c line now).1 hb) hw
    rw [handleConnection_continue _ _ _ _ _ _ hq]
    obtain ⟨h1, h2⟩ := ih (handleLine ut fr c line now).cache
      (fun l hl => h l (List.mem_cons_of_mem _ hl))
    exact ⟨by simp [h1], h2⟩

/-- The loop ends at the first line with the command word `QUIT`: the lines before it are
handled as if they were the whole input, `+OK` is written, and nothing after is read. -/
theorem handleConnection_first_quit (ut : Char → Char) (fr : Nat → Nat → Nat → Nat)
    (pre : List (String × Int)) (q : String × Int) (post : List (String × Int))
    (hq : commandWord ut q.1 = some "QUIT") :
    ∀ c : Cache, (∀ l ∈ pre, commandWord ut l.1 ≠ some "QUIT") →
      handleConnection ut fr c (pre ++ q :: post) =
        ⟨(handleConnection ut fr c pre).writes ++ ["+OK\r\n"],
          (handleConnection ut fr c pre).cache, pre.length + 1, true⟩ := by
  induction pre with
  | nil =>
    intro c _
    obtain ⟨line, now⟩ := q
    obtain ⟨p0, rest, hf, hcmd⟩ := commandWord_quit hq
    have hl := handleLine_quit ut fr c now hf hcmd
    rw [List.nil_append, handleConnection_quit _ _ _ _ _ _ (by rw [hl]), hl]
    rfl
  | cons l ls ih =>
    intro c h
    obtain ⟨line, now⟩ := l
    have hnq : (handleLine ut fr c line now).quit = false := by
      have hw : commandWord ut line ≠ some "QUIT" := h (line, now) (List.mem_cons_self _ _)
      cases hb : (handleLine ut fr c line now).quit with
      | false => rfl
      | true => exact absurd ((handleLine_quit_iff ut fr c line now).1 hb) hw
    rw [List.cons_append, handleConnection_continue _ _ _ _ _ _ hnq,
      handleConnection_continue _ _ _ _ _ _ hnq,
      ih (handleLine ut fr c line now).cache (fun l hl => h l (List.mem_cons_of_mem _ hl))]
    simp

/-- C20. The handler returns after a line exactly when the first field of the line in upper
case is `QUIT`, having written `+OK\r\n` and changed nothing; a line of white space only
gets no reply and changes nothing. So a run over lines none of which has the command word
`QUIT` handles them all, and a run over lines with a first `QUIT` line handles the lines up
to it and none after it. -/
theorem C20_quit_ends_loop (ut : Char → Char) (fr : Nat → Nat → Nat → Nat) :
    (∀ (c : Cache) (line : String) (now : Int),
      ((handleLine ut fr c line now).quit = true ↔ commandWord ut line = some "QUIT") ∧
      (commandWord ut line = some "QUIT" →
        handleLine ut fr c line now = ⟨["+OK\r\n"], c, true⟩) ∧
      (IsBlank line → handleLine ut fr c line now = ⟨[], c, false⟩)) ∧
    (∀ (c : Cache) (lines : List (String × Int)),
      (∀ l ∈ lines, commandWord ut l.1 ≠ some "QUIT") →
      (handleConnection ut fr c lines).handled = lines.length ∧
      (handleConnection ut fr c lines).byQuit = false) ∧
    (∀ (c : Cache) (pre : List (String × Int)) (q : String × Int) (post : List (String × Int)),
      (∀ l ∈ pre, commandWord ut l.1 ≠ some "QUIT") → commandWord ut q.1 = some "QUIT" →
      handleConnection ut fr c (pre ++ q :: post) =
        ⟨(handleConnection ut fr c pre).writes ++ ["+OK\r\n"],
          (handleConnection ut fr c pre).cache, pre.length + 1, true⟩) := by
  refine ⟨fun c line now => ⟨handleLine_quit_iff ut fr c line now, ?_, ?_⟩,
    fun c lines h => handleConnection_no_quit ut fr lines c h,
    fun c pre q post hpre hq => handleConnection_first_quit ut fr pre q post hq c hpre⟩
  · intro hq
    obtain ⟨p0, rest, hf, hcmd⟩ := commandWord_quit hq
    exact handleLine_quit ut fr c now hf hcmd
  · intro hb
    exact handleLine_empty ut fr c now (Fields_blank hb)

/-- C20 at a concrete input: after `PING`, an empty line and `quit now`, the loop has handled
three lines, written two replies, and the `PING` that follows is not read. -/
theorem C20_quit_ends_loop_witness :
    handleConnection id (fun _ _ _ => 0) NewCache
      ([("PING\r\n", 1), ("\r\n", 2)] ++ ("quit now\r\n", 3) :: [("PING\r\n", 4)])
      = ⟨["+PONG\r\n", "+OK\r\n"], NewCache, 3, true⟩ := by
  have hpre : ∀ l ∈ [("PING\r\n", (1 : Int)), ("\r\n", 2)], commandWord id l.1 ≠ some "QUIT" := by
    decide
  have h := (C20_quit_ends_loop id (fun _ _ _ => 0)).2.2 NewCache [("PING\r\n", 1), ("\r\n", 2)]
    ("quit now\r\n", 3) [("PING\r\n", 4)] hpre (by decide)
  have h1 : handleLine id (fun _ _ _ => 0) NewCache "PING\r\n" 1
      = ⟨["+PONG\r\n"], NewCache, false⟩ :=
    handleLine_ping id (fun _ _ _ => 0) NewCache 1 (by decide : Fields "PING\r\n" = ["PING"])
      (by decide)
  have h2 : handleLine id (fun _ _ _ => 0) NewCache "\r\n" 2 = ⟨[], NewCache, false⟩ :=
    handleLine_empty id (fun _ _ _ => 0) NewCache 2 (by decide)
  have hrun : handleConnection id (fun _ _ _ => 0) NewCache [("PING\r\n", 1), ("\r\n", 2)]
      = ⟨["+PONG\r\n"], NewCache, 2, false⟩ := by
    rw [handleConnection_continue _ _ _ _ _ _ (by rw [h1]), h1]
    simp only
    rw [handleConnection_continue _ _ _ _ _ _ (by rw [h2]), h2]
    rfl
  rw [h, hrun]
  rfl

/-! ## `time.ParseDuration` on a number of seconds -/

theorem not_digit_iff (ch : Char) : (ch < '0' ∨ ch > '9') ↔ ¬ ch.isDigit = true := by
  rw [← isDigit_iff]
  have h1 : ch < '0' ↔ ¬ '0' ≤ ch := not_le.symm
  have h2 : ch > '9' ↔ ¬ ch ≤ '9' := not_le.symm
  rw [h1, h2]
  tauto

/-- The function `leadingInt` on digits followed by a character that is no digit. -/
theorem leadingInt_digits (ds : List Char) (hds : ds.all Char.isDigit = true) (stop : Char)
    (hstop : ¬ stop.isDigit = true) (rest : List Char) :
    ∀ x : Nat, x ≤ 2 ^ 63 →
      leadingInt (ds ++ stop :: rest) x =
        if decimalValue x ds ≤ 2 ^ 63 then some (decimalValue x ds, stop :: rest) else none := by
  induction ds with
  | nil =>
    intro x hx
    simp only [List.nil_append, leadingInt, (not_digit_iff stop).2 hstop, if_true, decimalValue,
      List.foldl_nil, hx]
  | cons ch cs ih =>
    intro x hx
    simp only [List.all_cons, Bool.and_eq_true] at hds
    have hd : ¬ (ch < '0' ∨ ch > '9') := fun h => (not_digit_iff ch).1 h hds.1
    have hrange := (isDigit_iff ch).2 hds.1
    have h48 : 48 ≤ ch.toNat := hrange.1
    have h57 : ch.toNat ≤ 57 := hrange.2
    have hzero : '0'.toNat = 48 := by decide
    have hge := decimalValue_ge cs (x * 10 + (ch.toNat - 48))
    simp only [List.cons_append, leadingInt, if_neg hd, hzero, decimalValue, List.foldl_cons,
      List.append_eq]
    simp only [decimalValue] at hge
    by_cases hx10 : x > 2 ^ 63 / 10
    · rw [if_pos hx10, if_neg (by omega)]
    · rw [if_neg hx10]
      have hw : wrapUint64 (x * 10 + ch.toNat - 48) = x * 10 + (ch.toNat - 48) := by
        unfold wrapUint64; omega
      simp only [hw]
      by_cases hx1 : x * 10 + (ch.toNat - 48) > 2 ^ 63
      · rw [if_pos hx1, if_neg (by omega)]
      · rw [if_neg hx1, ih hds.2 _ (by omega)]
        rfl
/-- One round of the loop of `time.ParseDuration` on digits followed by the unit `s`. -/
theorem parseDurationLoop_seconds (fr : Nat → Nat → Nat → Nat) (ch : Char) (cs : List Char)
    (hds : (ch :: cs).all Char.isDigit = true) (fuel : Nat) :
    parseDurationLoop fr (fuel + 1) (ch :: cs ++ ['s']) 0 =
      if decimalValue 0 (ch :: cs) ≤ 9223372036 then
        some (decimalValue 0 (ch :: cs) * 1000000000)
      else none := by
  have hch : ch.isDigit = true := by
    simp only [List.all_cons, Bool.and_eq_true] at hds
    exact hds.1
  have hends : endsUnit ch = true := by
    have := (isDigit_iff ch).2 hch
    simp [endsUnit, this.1, this.2]
  have hli := leadingInt_digits (ch :: cs) hds 's' (by decide) [] 0 (by decide)
  have hs : endsUnit 's' = false := by decide
  have hunit : unitMap (String.mk ['s']) = some 1000000000 := by decide
  rw [List.cons_append] at hli ⊢
  rw [parseDurationLoop]
  simp only [hends, Bool.not_true, Bool.false_eq_true, if_false]
  rw [hli]
  by_cases hV : decimalValue 0 (ch :: cs) ≤ 2 ^ 63
  · rw [if_pos hV]
    have hdot : ¬ (['s'].head? = some '.') := by decide
    simp only [if_neg hdot, List.length_append, List.length_cons, List.length_nil,
      List.takeWhile, hs, Bool.not_false, List.dropWhile, List.isEmpty_cons, Bool.false_eq_true,
      if_false, hunit]
    have hpre : decide (cs.length + 1 + (0 + 1) ≠ 0 + 1) = true := by
      simp
    simp only [hpre, Bool.not_true, Bool.false_and, Bool.false_eq_true, if_false,
      lt_self_iff_false, false_and, gt_iff_lt]
    have hq : (2 : Nat) ^ 63 / 1000000000 = 9223372036 := by norm_num
    rw [hq]
    by_cases hbig : 9223372036 < decimalValue 0 (ch :: cs)
    · rw [if_pos hbig, if_neg (by omega)]
    · have hw : wrapUint64 (decimalValue 0 (ch :: cs) * 1000000000)
          = decimalValue 0 (ch :: cs) * 1000000000 := by
        unfold wrapUint64; omega
      rw [if_neg hbig]
      simp only [Nat.zero_add, hw]
      rw [if_neg (by omega), if_pos (by omega)]
      cases fuel <;> rfl
  · rw [if_neg hV, if_neg (by omega)]
/-- The duration parsed from a decimal numeral followed by `s`: that many seconds in
nanoseconds up to 9223372036 seconds, and an error above. -/
theorem ParseDuration_seconds (fr : Nat → Nat → Nat → Nat) (n : String) (hn : IsDecimal n) :
    ParseDuration fr (n ++ "s") =
      if decimalValue 0 n.data ≤ 9223372036 then
        some ((decimalValue 0 n.data : Int) * 1000000000)
      else none := by
  obtain ⟨hne, hd⟩ := hn
  have hdata : (n ++ "s").data = n.data ++ ['s'] := by simp [String.data_append]
  cases hcs : n.data with
  | nil => exact absurd hcs hne
  | cons ch cs =>
    rw [hcs] at hd hdata
    have hch : ch.isDigit = true := by
      simp only [List.all_cons, Bool.and_eq_true] at hd
      exact hd.1
    have hm : ch ≠ '-' := by rintro rfl; exact absurd hch (by decide)
    have hp : ch ≠ '+' := by rintro rfl; exact absurd hch (by decide)
    have hloop := parseDurationLoop_seconds fr ch cs hd (cs ++ ['s']).length
    unfold ParseDuration
    rw [hdata]
    have hsign : (ch == '-' || ch == '+') = false := by simp [hm, hp]
    simp only [List.cons_append, hsign, Bool.false_eq_true, if_false, List.length_cons,
      List.isEmpty_cons]
    have hne0 : ¬ (ch :: (cs ++ ['s']) = ['0']) := by
      intro h
      have := congrArg List.length h
      simp at this
    rw [if_neg hne0]
    rw [List.cons_append] at hloop
    rw [hloop]
    by_cases hV : decimalValue 0 (ch :: cs) ≤ 9223372036
    · simp only [if_pos hV]
      have hfit : ¬ (decimalValue 0 (ch :: cs) * 1000000000 > 2 ^ 63 - 1) := by omega
      have hneg : (ch == '-') = false := by simp [hm]
      rw [if_neg hfit]
      simp only [hneg, Bool.false_eq_true, if_false]
      push_cast
      rfl
    · have hneg : (ch == '-') = false := by simp [hm]
      simp only [if_neg hV]

theorem isDecimal_one : IsDecimal "1" := by decide

theorem isSpace_digit {ch : Char} (h : ch.isDigit = true) : isSpace ch = false := by
  have hr := (isDigit_iff ch).2 h
  have h48 : 48 ≤ ch.toNat := hr.1
  have h57 : ch.toNat ≤ 57 := hr.2
  unfold isSpace
  simp only [Bool.or_eq_false_iff, Bool.and_eq_false_iff, decide_eq_false_iff_not,
    beq_eq_false_iff_ne, ne_eq]
  omega

theorem IsDecimal.isToken {n : String} (h : IsDecimal n) : IsToken n :=
  ⟨h.1, fun ch hch => isSpace_digit (List.all_eq_true.1 h.2 ch hch)⟩

/-- The line `SET k v EX n` with a decimal numeral `n`: the reply is `+OK` and the entry of
`k` is written by `Set` with a TTL of `n` seconds, or with no TTL when `n` is above
9223372036 (the duration does not fit `int64` and `time.ParseDuration` fails). -/
theorem handleLine_set_ex_decimal (ut : Char → Char) (fr : Nat → Nat → Nat → Nat) (c : Cache)
    (k v n eol : String) (hk : IsToken k) (hv : IsToken v) (hn : IsDecimal n)
    (heol : IsBlank eol) (t : Int) :
    handleLine ut fr c (lineOf ["SET", k, v, "EX", n] eol) t =
      ⟨["+OK\r\n"],
        Set c k v (if decimalValue 0 n.data ≤ 9223372036 then
          (decimalValue 0 n.data : Int) * 1000000000 else 0) t, false⟩ := by
  have hf : Fields (lineOf ["SET", k, v, "EX", n] eol) = ["SET", k, v, "EX", n] :=
    Fields_lineOf _ _ (by simp [isToken_SET, isToken_EX, hk, hv, hn.isToken]) heol
  rw [handleLine_set_ex ut fr c t hf (ToUpper_SET ut), ParseDuration_seconds fr n hn]
  split <;> rfl

/-- C18. For tokens `k`, `v`, a decimal numeral `n ≥ 1` and a clock reading `t`
(`time.Now().UnixNano()`, a number of nanoseconds since the Unix epoch, so `0 ≤ t`): the line
`SET k v EX n` handled at `t` is answered `+OK`; `GET k` handled at any reading up to `t + n`
seconds is answered `+v`; and `GET k` handled at any reading more than `n` seconds after `t`
is answered `$-1`. -/
theorem C18_set_with_ttl (ut : Char → Char) (fr : Nat → Nat → Nat → Nat) (c : Cache)
    (hc : WF c) (k v n eol : String) (hk : IsToken k) (hv : IsToken v) (hn : IsDecimal n)
    (hn1 : 1 ≤ decimalValue 0 n.data) (heol : IsBlank eol) (t t' : Int)
    (ht : 0 ≤ t ∧ t ≤ maxInt64) (ht' : t' ≤ maxInt64) :
    (handleLine ut fr c (lineOf ["SET", k, v, "EX", n] eol) t).writes = ["+OK\r\n"] ∧
    (t' ≤ t + (decimalValue 0 n.data : Int) * 1000000000 →
      (handleLine ut fr (handleLine ut fr c (lineOf ["SET", k, v, "EX", n] eol) t).cache
        (lineOf ["GET", k] eol) t').writes = ["+" ++ v ++ "\r\n"]) ∧
    (t + (decimalValue 0 n.data : Int) * 1000000000 < t' →
      (handleLine ut fr (handleLine ut fr c (lineOf ["SET", k, v, "EX", n] eol) t).cache
        (lineOf ["GET", k] eol) t').writes = ["$-1\r\n"]) := by
  have hset := handleLine_set_ex_decimal ut fr c k v n eol hk hv hn heol t
  have hent := entry_Set_same hc k v (if decimalValue 0 n.data ≤ 9223372036 then
          (decimalValue 0 n.data : Int) * 1000000000 else 0) t
  have hN : (1 : Int) ≤ (decimalValue 0 n.data : Int) := by exact_mod_cast hn1
  obtain ⟨htlo, hthi⟩ := ht
  unfold maxInt64 at hthi ht'
  rw [hset]
  simp only
  refine ⟨trivial, ?_, ?_⟩
  · intro hearly
    by_cases hsmall : decimalValue 0 n.data ≤ 9223372036
    · rw [if_pos hsmall] at hent ⊢
      rw [if_pos (by omega)] at hent
      have hsm : (decimalValue 0 n.data : Int) ≤ 9223372036 := by exact_mod_cast hsmall
      have hx : ¬ ((⟨v, wrapInt64 (t + (decimalValue 0 n.data : Int) * 1000000000)⟩ :
          CacheEntry).ExpireAt > 0 ∧ t' > (⟨v, wrapInt64 (t +
            (decimalValue 0 n.data : Int) * 1000000000)⟩ : CacheEntry).ExpireAt) := by
        simp only [wrapInt64]
        omega
      rw [handleLine_get_hit ut fr eol t' hk heol hent hx]
    · rw [if_neg hsmall] at hent ⊢
      rw [if_neg (by omega)] at hent
      rw [handleLine_get_hit ut fr eol t' hk heol hent (by simp)]
  · intro hlate
    have hsmall : decimalValue 0 n.data ≤ 9223372036 := by
      have : (decimalValue 0 n.data : Int) ≤ 9223372036 := by omega
      exact_mod_cast this
    rw [if_pos hsmall] at hent ⊢
    rw [if_pos (by omega), wrapInt64_of_range (by unfold minInt64; omega)
      (by unfold maxInt64; omega)] at hent
    rw [handleLine_get_miss ut fr eol t' hk heol
      (by rw [Get_expired hent ⟨by simp only; omega, hlate⟩])]

/-- C18 at a concrete input: `SET foo bar EX 1` at the clock reading 100 ns, `GET foo` at
200 ns and again more than a second later. -/
theorem C18_set_with_ttl_witness :
    lineOf ["SET", "foo", "bar", "EX", "1"] "\r\n" = "SET foo bar EX 1\r\n" ∧
    (handleLine id (fun _ _ _ => 0)
      (handleLine id (fun _ _ _ => 0) NewCache (lineOf ["SET", "foo", "bar", "EX", "1"] "\r\n")
        100).cache (lineOf ["GET", "foo"] "\r\n") 200).writes = ["+" ++ "bar" ++ "\r\n"] ∧
    (handleLine id (fun _ _ _ => 0)
      (handleLine id (fun _ _ _ => 0) NewCache (lineOf ["SET", "foo", "bar", "EX", "1"] "\r\n")
        100).cache (lineOf ["GET", "foo"] "\r\n") 1000000101).writes = ["$-1\r\n"] :=
  ⟨by decide,
    (C18_set_with_ttl id (fun _ _ _ => 0) NewCache WF_NewCache "foo" "bar" "1" "\r\n"
      (by decide) (by decide) (by decide) (by decide) (by decide) 100 200
      (by decide) (by decide)).2.1 (by decide),
    (C18_set_with_ttl id (fun _ _ _ => 0) NewCache WF_NewCache "foo" "bar" "1" "\r\n"
      (by decide) (by decide) (by decide) (by decide) (by decide) 100 1000000101
      (by decide) (by decide)).2.2 (by decide)⟩

/-! ## An `EX` clause that is no decimal number -/

/-- The duration parser rejects every string that starts with neither a sign, a digit nor a
decimal point, whatever follows. -/
theorem ParseDuration_no_number (fr : Nat → Nat → Nat → Nat) (ch : Char) (cs : List Char)
    (hd : ¬ ch.isDigit = true) (hdot : ch ≠ '.') (hp : ch ≠ '+') (hm : ch ≠ '-') :
    ParseDuration fr (String.mk (ch :: cs)) = none := by
  have hsign : (ch == '-' || ch == '+') = false := by simp [hm, hp]
  have hends : endsUnit ch = false := by
    have h1 : ¬ ('0' ≤ ch ∧ ch ≤ '9') := fun h => hd ((isDigit_iff ch).1 h)
    simp only [endsUnit, Bool.or_eq_false_iff, beq_eq_false_iff_ne, ne_eq, hdot,
      not_false_eq_true, true_and, Bool.and_eq_false_iff, decide_eq_false_iff_not]
    tauto
  have hne0 : ¬ (ch :: cs = ['0']) := by
    intro h
    have : ch = '0' := (List.cons.inj h).1
    exact hd (by rw [this]; decide)
  unfold ParseDuration
  simp only [hsign, Bool.false_eq_true, if_false, if_neg hne0, List.isEmpty_cons,
    List.length_cons, parseDurationLoop, hends, Bool.not_false, if_true]

/-- The line `SET k v EX s` for any token `s`: the reply is `+OK` and the entry of `k` is
written by `Set` with the duration that `time.ParseDuration` reads from `s` followed by `s`,
or with no TTL when it reads none. -/
theorem handleLine_set_ex_token (ut : Char → Char) (fr : Nat → Nat → Nat → Nat) (c : Cache)
    (k v s eol : String) (hk : IsToken k) (hv : IsToken v) (hs : IsToken s)
    (heol : IsBlank eol) (t : Int) :
    handleLine ut fr c (lineOf ["SET", k, v, "EX", s] eol) t =
      ⟨["+OK\r\n"], Set c k v ((ParseDuration fr (s ++ "s")).getD 0) t, false⟩ := by
  have hf : Fields (lineOf ["SET", k, v, "EX", s] eol) = ["SET", k, v, "EX", s] :=
    Fields_lineOf _ _ (by simp [isToken_SET, isToken_EX, hk, hv, hs]) heol
  rw [handleLine_set_ex ut fr c t hf (ToUpper_SET ut)]

/-- The line `SET k v EX s` when `time.ParseDuration` reads no positive duration from `s`
followed by `s`: the reply is `+OK` and the entry of `k` has no expiry. -/
theorem handleLine_set_ex_ignored (ut : Char → Char) (fr : Nat → Nat → Nat → Nat) (c : Cache)
    (hc : WF c) (k v s eol : String) (hk : IsToken k) (hv : IsToken v) (hs : IsToken s)
    (heol : IsBlank eol) (t : Int) (hbad : (ParseDuration fr (s ++ "s")).getD 0 ≤ 0) :
    (handleLine ut fr c (lineOf ["SET", k, v, "EX", s] eol) t).writes = ["+OK\r\n"] ∧
    (handleLine ut fr c (lineOf ["SET", k, v, "EX", s] eol) t).cache.entry k = some ⟨v, 0⟩ := by
  rw [handleLine_set_ex_token ut fr c k v s eol hk hv hs heol t]
  exact ⟨rfl, by rw [entry_Set_same hc, if_neg (by omega)]⟩

/-- C21 fails on the code. The handler reads the seconds of the `EX` clause with
`time.ParseDuration(parts[4] + "s")`, and the appended `s` completes a unit: `5m`, which is
no decimal number, is read as `5ms`, and `1h2` as `1h2s`. After `SET k v EX 5m` handled at
the clock reading 100 the reply is `+OK` and the entry of `k` has `expireAt = 100 + 5000000`,
a TTL of 5 milliseconds, where the claim has `expireAt = 0`; `Get(k)` after that instant
misses. After `SET k v EX 1h2` the entry expires 3602 seconds later. For `abc` the clause is
ignored as the claim says. -/
theorem C21_ex_suffix_completes_unit :
    (¬ IsDecimal "5m" ∧
      (handleLine id (fun _ _ _ => 0) NewCache "SET k v EX 5m\r\n" 100).writes = ["+OK\r\n"] ∧
      (handleLine id (fun _ _ _ => 0) NewCache "SET k v EX 5m\r\n" 100).cache.entry "k"
        = some ⟨"v", 5000100⟩ ∧
      (Get (handleLine id (fun _ _ _ => 0) NewCache "SET k v EX 5m\r\n" 100).cache "k"
        5000101).1 = ("", false)) ∧
    (¬ IsDecimal "1h2" ∧
      (handleLine id (fun _ _ _ => 0) NewCache "SET k v EX 1h2\r\n" 100).cache.entry "k"
        = some ⟨"v", 3602000000100⟩) ∧
    (¬ IsDecimal "abc" ∧
      (handleLine id (fun _ _ _ => 0) NewCache "SET k v EX abc\r\n" 100).cache.entry "k"
        = some ⟨"v", 0⟩) := by
  have hl1 : "SET k v EX 5m\r\n" = lineOf ["SET", "k", "v", "EX", "5m"] "\r\n" := by decide
  have hl2 : "SET k v EX 1h2\r\n" = lineOf ["SET", "k", "v", "EX", "1h2"] "\r\n" := by decide
  have hl3 : "SET k v EX abc\r\n" = lineOf ["SET", "k", "v", "EX", "abc"] "\r\n" := by decide
  have hs1 := handleLine_set_ex_token id (fun _ _ _ => 0) NewCache "k" "v" "5m" "\r\n"
    (by decide) (by decide) (by decide) (by decide) 100
  have hs2 := handleLine_set_ex_token id (fun _ _ _ => 0) NewCache "k" "v" "1h2" "\r\n"
    (by decide) (by decide) (by decide) (by decide) 100
  have hs3 := handleLine_set_ex_ignored id (fun _ _ _ => 0) NewCache WF_NewCache "k" "v" "abc"
    "\r\n" (by decide) (by decide) (by decide) (by decide) 100 (by decide)
  have hp1 : ParseDuration (fun _ _ _ => 0) ("5m" ++ "s") = some 5000000 := by decide
  have hp2 : ParseDuration (fun _ _ _ => 0) ("1h2" ++ "s") = some 3602000000000 := by decide
  rw [hp1] at hs1
  rw [hp2] at hs2
  have he1 : (Set NewCache "k" "v" ((some (5000000 : Int)).getD 0) 100).entry "k"
      = some ⟨"v", 5000100⟩ := (entry_Set_same WF_NewCache ..).trans (by decide)
  have he2 : (Set NewCache "k" "v" ((some (3602000000000 : Int)).getD 0) 100).entry "k"
      = some ⟨"v", 3602000000100⟩ := (entry_Set_same WF_NewCache ..).trans (by decide)
  refine ⟨⟨by decide, ?_, ?_, ?_⟩, ⟨by decide, ?_⟩, by decide, ?_⟩
  · rw [hl1, hs1]
  · rw [hl1, hs1]; exact he1
  · rw [hl1, hs1, Get_result]
    simp only [he1]
    decide
  · rw [hl2, hs2]; exact he2
  · rw [hl3]; exact hs3.2

/-! ## `INCR` on an entry whose expiry has passed -/

/-- C22 fails on the code. `INCR` never reads the clock or the expiry of the entry: on a key
set to `41` with a TTL of 5 at the clock reading 100 (the expiry is 105), a call `INCR(k, 1)`
made after 105, when `Get(k)` at the reading 200 misses, returns 42 and stores `42` with the
expiry 105, where on an absent key it returns 1. In general, on an entry that holds the
integer `n` and whose expiry has passed at `now`, `Get` at `now` misses and `INCR(k, a)`
returns `n + a`. -/
theorem C22_incr_reads_expired_value :
    (Set NewCache "k" "41" 5 100).entry "k" = some ⟨"41", 105⟩ ∧
    (Get (Set NewCache "k" "41" 5 100) "k" 200).1 = ("", false) ∧
    (INCR (Set NewCache "k" "41" 5 100) "k" 1).1 = (42, none) ∧
    (INCR (Set NewCache "k" "41" 5 100) "k" 1).2.entry "k" = some ⟨"42", 105⟩ ∧
    (INCR NewCache "k" 1).1 = (1, none) ∧
    (∀ (c : Cache) (k v : String) (e n a now : Int), WF c → c.entry k = some ⟨v, e⟩ →
      0 < e → e < now → IsInt64Text v n → 0 < a → a ≤ maxInt64 → n + a ≤ maxInt64 →
      (Get c k now).1 = ("", false) ∧ (INCR c k a).1 = (n + a, none) ∧
      (INCR c k a).2.entry k = some ⟨FormatInt (n + a), e⟩) := by
  have he : (Set NewCache "k" "41" 5 100).entry "k" = some ⟨"41", 105⟩ :=
    (entry_Set_same WF_NewCache "k" "41" 5 100).trans (by decide)
  have hh : HoldsInt (Set NewCache "k" "41" 5 100) "k" 41 :=
    HoldsInt_Set WF_NewCache "k" "41" 5 100 41 (by decide)
  have h1 := @INCR_pos_ok _ (WF_Set WF_NewCache "k" "41" 5 100) "k" 1 41 (by decide)
    (by decide) hh (by decide)
  have h0 := @INCR_pos_ok _ WF_NewCache "k" 1 0 (by decide) (by decide) (HoldsInt_NewCache "k")
    (by decide)
  refine ⟨he, ?_, h1.1, ?_, h0.1, ?_⟩
  · rw [Get_result, he]; decide
  · rw [h1.2, he]; decide
  · intro c k v e n a now hc hent hpos hlate hn ha hamax hsum
    have hcur : HoldsInt c k n := by
      unfold HoldsInt
      rw [hent]
      exact hn
    have hr := INCR_pos_ok hc ha hamax hcur hsum
    refine ⟨?_, hr.1, ?_⟩
    · rw [Get_result, hent]
      simp only [gt_iff_lt, hpos, hlate, and_self, if_true]
    · rw [hr.2, hent]
      rfl

/-! ## `evictExpired` -/

/-- The scan collects the keys of the expired entries, in table order. -/
theorem scanExpired_eq (now : Int) (shard : CacheShard) :
    scanExpired now shard
      = (shard.data.filter (fun p => expiredAt now (some p.2))).map Prod.fst := by
  obtain ⟨l⟩ := shard
  have key : ∀ (l : List (String × CacheEntry)) (acc : List String),
      l.foldl (fun keysToDelete p =>
        if p.2.ExpireAt > 0 ∧ now > p.2.ExpireAt then keysToDelete ++ [p.1] else keysToDelete) acc
      = acc ++ (l.filter (fun p => expiredAt now (some p.2))).map Prod.fst := by
    intro l
    induction l with
    | nil => intro acc; simp
    | cons p l ih =>
      intro acc
      rw [List.foldl_cons, ih]
      by_cases hx : p.2.ExpireAt > 0 ∧ now > p.2.ExpireAt
      · simp [expiredAt, hx]
      · simp [expiredAt, hx]
  simpa [scanExpired] using key l []

theorem lookup_filter_key_ne (l : List (String × CacheEntry)) (k k' : String) (h : k' ≠ k) :
    (l.filter (fun p => p.1 != k)).lookup k' = l.lookup k' := by
  have := CacheShard.lookup_delete ⟨l⟩ k k'
  simpa [CacheShard.lookup, CacheShard.delete, h] using this

/-- The table after the delete phase: the table before, minus the keys of `keysToDelete`
whose entry is expired. -/
theorem deleteExpired_table (now : Int) (keys : List String) :
    ∀ (cur : CacheShard) (n : Nat),
      (deleteExpired now keys cur n).1 = ⟨cur.data.filter (fun p =>
        !(decide (p.1 ∈ keys) && expiredAt now (cur.lookup p.1)))⟩ := by
  induction keys with
  | nil => intro cur n; simp [deleteExpired]
  | cons k ks ih =>
    intro cur n
    have same : ∀ hx : ¬ (expiredAt now (cur.lookup k) = true),
        cur.data.filter (fun p => !(decide (p.1 ∈ ks) && expiredAt now (cur.lookup p.1)))
        = cur.data.filter (fun p =>
            !(decide (p.1 ∈ k :: ks) && expiredAt now (cur.lookup p.1))) := by
      intro hx
      apply List.filter_congr
      intro p _
      by_cases hpk : p.1 = k
      · rw [hpk]; simp [hx]
      · simp [hpk]
    unfold deleteExpired
    cases he : cur.lookup k with
    | none =>
      simp only
      rw [ih, same (by rw [he]; simp [expiredAt])]
    | some e =>
      simp only
      by_cases hx : e.ExpireAt > 0 ∧ now > e.ExpireAt
      · rw [if_pos hx, ih]
        simp only [CacheShard.delete, List.filter_filter, CacheShard.mk.injEq]
        apply List.filter_congr
        intro p _
        by_cases hpk : p.1 = k
        · have : expiredAt now (cur.lookup k) = true := by rw [he]; simp [expiredAt, hx]
          simp [hpk, this]
        · have hl : CacheShard.lookup ⟨cur.data.filter (fun p => p.1 != k)⟩ p.1
              = cur.lookup p.1 := lookup_filter_key_ne cur.data k p.1 hpk
          simp [hpk, hl]
      · rw [if_neg hx, ih, same (by rw [he]; simp [expiredAt, hx])]
theorem length_filter_key_ne {l : List (String × CacheEntry)} {k : String} {e : CacheEntry}
    (hnd : (l.map Prod.fst).Nodup) (hk : l.lookup k = some e) :
    (l.filter (fun p => p.1 != k)).length + 1 = l.length := by
  induction l with
  | nil => simp at hk
  | cons p l ih =>
    obtain ⟨a, x⟩ := p
    simp only [List.map_cons, List.nodup_cons] at hnd
    by_cases hak : a = k
    · subst hak
      have hall : l.filter (fun p => p.1 != a) = l := by
        rw [List.filter_eq_self]
        intro q hq
        have : q.1 ≠ a := fun h => hnd.1 (List.mem_map.2 ⟨q, hq, h⟩)
        simpa using this
      simp [hall]
    · have hka : (k == a) = false := by simpa using fun h : k = a => hak h.symm
      simp only [List.lookup, hka] at hk
      have := ih hnd.2 hk
      simp [hak, this]

/-- The count after the delete phase on a table without repeated keys: one more for every
entry removed. -/
theorem deleteExpired_count (now : Int) (keys : List String) :
    ∀ (cur : CacheShard) (n : Nat), (cur.data.map Prod.fst).Nodup → n < 2 ^ 64 →
      (deleteExpired now keys cur n).1.data.length ≤ cur.data.length ∧
      (deleteExpired now keys cur n).2
        = (n + (cur.data.length - (deleteExpired now keys cur n).1.data.length)) % 2 ^ 64 := by
  induction keys with
  | nil =>
    intro cur n _ hn
    simp only [deleteExpired, le_refl, Nat.sub_self, Nat.add_zero, true_and]
    exact (Nat.mod_eq_of_lt hn).symm
  | cons k ks ih =>
    intro cur n hnd hn
    unfold deleteExpired
    cases he : cur.lookup k with
    | none => exact ih cur n hnd hn
    | some e =>
      simp only
      by_cases hx : e.ExpireAt > 0 ∧ now > e.ExpireAt
      · rw [if_pos hx]
        have hlen := length_filter_key_ne hnd he
        have hnd' : ((cur.delete k).data.map Prod.fst).Nodup := keys_filter_nodup _ k hnd
        have hw : wrapUint64 (n + 1) < 2 ^ 64 := Nat.mod_lt _ (by norm_num)
        obtain ⟨h1, h2⟩ := ih (cur.delete k) (wrapUint64 (n + 1)) hnd' hw
        have hlen' : (cur.delete k).data.length + 1 = cur.data.length := hlen
        simp only [wrapUint64] at h1 h2 ⊢
        refine ⟨by omega, ?_⟩
        rw [h2]
        omega
      · rw [if_neg hx]
        exact ih cur n hnd hn
/-- The delete phase is entered only with a key to delete; without one it would do nothing. -/
theorem deleteExpired_guard (now : Int) (keys : List String) (cur : CacheShard) (n : Nat) :
    (if keys.length > 0 then deleteExpired now keys cur n else (cur, n))
      = deleteExpired now keys cur n := by
  cases keys <;> simp [deleteExpired]

theorem sweptShard_length_le (now : Int) (scanned cur : CacheShard) :
    (sweptShard now scanned cur).data.length ≤ cur.data.length :=
  List.length_filter_le _ _

/-- The scan and delete phases on one shard, whatever the table has become in between. -/
theorem deleteExpired_scan (now : Int) (scanned cur : CacheShard) (n : Nat)
    (hnd : (cur.data.map Prod.fst).Nodup) (hn : n < 2 ^ 64) :
    deleteExpired now (scanExpired now scanned) cur n
      = (sweptShard now scanned cur, (n + removedCount now scanned cur) % 2 ^ 64) := by
  have h1 := deleteExpired_table now (scanExpired now scanned) cur n
  have h2 := (deleteExpired_count now (scanExpired now scanned) cur n hnd hn).2
  rw [h1] at h2
  exact Prod.ext h1 h2

/-- The loop over the shards: every shard is left as its delete phase leaves it, and the
count is the number of entries removed. -/
theorem sweepShards_spec (now : Int) (between : Nat → CacheShard → CacheShard) :
    ∀ (shards : List CacheShard) (i n : Nat),
      (∀ p ∈ shards.enumFrom i, ((between p.1 p.2).data.map Prod.fst).Nodup) → n < 2 ^ 64 →
      sweepShards now between i shards n =
        ((shards.enumFrom i).map (fun p => sweptShard now p.2 (between p.1 p.2)),
          (n + ((shards.enumFrom i).map
            (fun p => removedCount now p.2 (between p.1 p.2))).sum) % 2 ^ 64) := by
  intro shards
  induction shards with
  | nil =>
    intro i n _ hn
    simp only [sweepShards, List.enumFrom_nil, List.map_nil, List.sum_nil, Nat.add_zero,
      Nat.mod_eq_of_lt hn]
  | cons s rest ih =>
    intro i n hnd hn
    have hs : ((between i s).data.map Prod.fst).Nodup :=
      hnd (i, s) (by simp [List.enumFrom_cons])
    have hrest : ∀ p ∈ rest.enumFrom (i + 1), ((between p.1 p.2).data.map Prod.fst).Nodup :=
      fun p hp => hnd p (by simp [List.enumFrom_cons, hp])
    have hr : (if (scanExpired now s).length > 0 then
          deleteExpired now (scanExpired now s) (between i s) n else (between i s, n))
        = (sweptShard now s (between i s), (n + removedCount now s (between i s)) % 2 ^ 64) := by
      rw [deleteExpired_guard, deleteExpired_scan now s (between i s) n hs hn]
    simp only [sweepShards, hr]
    rw [ih (i + 1) _ hrest (Nat.mod_lt _ (by norm_num))]
    simp only [List.enumFrom_cons, List.map_cons, List.sum_cons, Prod.mk.injEq, true_and]
    omega

theorem sweepShards_length (now : Int) (between : Nat → CacheShard → CacheShard) :
    ∀ (shards : List CacheShard) (i n : Nat),
      (sweepShards now between i shards n).1.length = shards.length := by
  intro shards
  induction shards with
  | nil => intro i n; rfl
  | cons s rest ih => intro i n; simp [sweepShards, ih]

theorem evictExpiredWith_shards (between : Nat → CacheShard → CacheShard) (c : Cache)
    (now : Int) :
    (evictExpiredWith between c now).shards = (sweepShards now between 0 c.shards 0).1 := by
  unfold evictExpiredWith
  simp only
  split <;> rfl

theorem evictExpiredWith_shardMask (between : Nat → CacheShard → CacheShard) (c : Cache)
    (now : Int) : (evictExpiredWith between c now).shardMask = c.shardMask := by
  unfold evictExpiredWith
  simp only
  split <;> rfl

theorem WF_evictExpiredWith {c : Cache} (h : WF c) (between : Nat → CacheShard → CacheShard)
    (now : Int) : WF (evictExpiredWith between c now) :=
  ⟨by rw [evictExpiredWith_shards, sweepShards_length]; exact h.len,
    by rw [evictExpiredWith_shardMask]; exact h.mask⟩

/-- A sweep changes no counter but `Evictions`. -/
theorem evictExpiredWith_stats (between : Nat → CacheShard → CacheShard) (c : Cache)
    (now : Int) :
    (evictExpiredWith between c now).stats.Gets = c.stats.Gets ∧
    (evictExpiredWith between c now).stats.Sets = c.stats.Sets ∧
    (evictExpiredWith between c now).stats.Deletes = c.stats.Deletes ∧
    (evictExpiredWith between c now).stats.Hits = c.stats.Hits ∧
    (evictExpiredWith between c now).stats.Misses = c.stats.Misses ∧
    (evictExpiredWith between c now).stats.ActiveConns = c.stats.ActiveConns := by
  unfold evictExpiredWith
  simp only
  split <;> exact ⟨rfl, rfl, rfl, rfl, rfl, rfl⟩

/-- The sweep as a whole, interleaved with other goroutines. -/
theorem evictExpiredWith_spec (between : Nat → CacheShard → CacheShard) (c : Cache) (now : Int)
    (hnd : ∀ p ∈ c.shards.enum, ((between p.1 p.2).data.map Prod.fst).Nodup)
    (hctr : c.stats.Evictions < 2 ^ 64) :
    (evictExpiredWith between c now).shards
      = c.shards.enum.map (fun p => sweptShard now p.2 (between p.1 p.2)) ∧
    (evictExpiredWith between c now).stats.Evictions
      = (c.stats.Evictions + (c.shards.enum.map
          (fun p => removedCount now p.2 (between p.1 p.2))).sum) % 2 ^ 64 := by
  have hs := sweepShards_spec now between c.shards 0 0 hnd (by norm_num)
  refine ⟨by rw [evictExpiredWith_shards, hs]; rfl, ?_⟩
  unfold evictExpiredWith
  simp only [hs, List.enum]
  generalize ((c.shards.enumFrom 0).map
    (fun p => removedCount now p.2 (between p.1 p.2))).sum = total
  split
  · simp only [atomicAddUint64, wrapUint64]
    omega
  · simp only
    omega
theorem lookup_of_mem_nodup {l : List (String × CacheEntry)} (hnd : (l.map Prod.fst).Nodup)
    {p : String × CacheEntry} (hp : p ∈ l) : l.lookup p.1 = some p.2 := by
  induction l with
  | nil => simp at hp
  | cons q l ih =>
    obtain ⟨a, x⟩ := q
    simp only [List.map_cons, List.nodup_cons] at hnd
    rcases List.mem_cons.1 hp with rfl | hp'
    · simp [List.lookup]
    · have hne : p.1 ≠ a := fun h => hnd.1 (List.mem_map.2 ⟨p, hp', h⟩)
      have hb : (p.1 == a) = false := by simpa using hne
      simp only [List.lookup, hb]
      exact ih hnd.2 hp'

/-- With no change between the phases the sweep removes the expired entries of a table and
nothing else. -/
theorem sweptShard_self (now : Int) (s : CacheShard) (hnd : (s.data.map Prod.fst).Nodup) :
    sweptShard now s s = ⟨s.data.filter (fun p => !expiredAt now (some p.2))⟩ := by
  unfold sweptShard
  congr 1
  apply List.filter_congr
  intro p hp
  have hl : s.lookup p.1 = some p.2 := lookup_of_mem_nodup hnd hp
  rw [hl]
  by_cases hx : expiredAt now (some p.2) = true
  · have hmem : p.1 ∈ scanExpired now s := by
      rw [scanExpired_eq]
      exact List.mem_map.2 ⟨p, List.mem_filter.2 ⟨hp, hx⟩, rfl⟩
    simp [hmem, hx]
  · simp [hx]

theorem removedCount_self (now : Int) (s : CacheShard) (hnd : (s.data.map Prod.fst).Nodup) :
    removedCount now s s = (s.data.filter (fun p => expiredAt now (some p.2))).length := by
  unfold removedCount
  rw [sweptShard_self now s hnd]
  have := List.length_eq_length_filter_add (l := s.data) (fun p => expiredAt now (some p.2))
  simp only at this ⊢
  omega

theorem lookup_filter_live (now : Int) (l : List (String × CacheEntry))
    (hnd : (l.map Prod.fst).Nodup) (k : String) :
    (l.filter (fun p => !expiredAt now (some p.2))).lookup k
      = if expiredAt now (l.lookup k) = true then none else l.lookup k := by
  induction l with
  | nil => simp [expiredAt]
  | cons q l ih =>
    obtain ⟨a, x⟩ := q
    simp only [List.map_cons, List.nodup_cons] at hnd
    by_cases hka : k = a
    · subst hka
      have hnone : l.lookup k = none := lookup_eq_none_of_not_mem l k hnd.1
      by_cases hx : expiredAt now (some x) = true
      · have : (l.filter (fun p => !expiredAt now (some p.2))).lookup k = none := by
          rw [ih hnd.2, hnone]; simp [expiredAt]
        simp [List.filter_cons, hx, List.lookup, this]
      · simp [List.filter_cons, hx, List.lookup]
    · have hb : (k == a) = false := by simpa using hka
      by_cases hx : expiredAt now (some x) = true
      · simp only [List.filter_cons, hx, Bool.not_true, Bool.false_eq_true, if_false,
          List.lookup, hb]
        exact ih hnd.2
      · simp only [Bool.not_eq_true] at hx
        simp only [List.filter_cons, hx, Bool.not_false, if_true, List.lookup, hb]
        exact ih hnd.2

theorem map_enumFrom_snd {β : Type} (f : CacheShard → β) (l : List CacheShard) :
    ∀ i : Nat, (l.enumFrom i).map (fun p => f p.2) = l.map f := by
  induction l with
  | nil => intro i; rfl
  | cons s rest ih => intro i; simp [List.enumFrom_cons, ih]

theorem mem_of_mem_enum {l : List CacheShard} {p : Nat × CacheShard} (hp : p ∈ l.enum) :
    p.2 ∈ l := by
  obtain ⟨i, x⟩ := p
  obtain ⟨hi, hx⟩ := List.mem_enum hp
  rw [hx]
  exact List.getElem_mem _

/-- The sweep with no other goroutine at work: every table loses its expired entries and
nothing else, and the evictions counter gains their number. -/
theorem evictExpired_spec (c : Cache) (now : Int)
    (hnd : ∀ s ∈ c.shards, (s.data.map Prod.fst).Nodup) (hctr : c.stats.Evictions < 2 ^ 64) :
    (evictExpired c now).shards
      = c.shards.map (fun s => ⟨s.data.filter (fun p => !expiredAt now (some p.2))⟩) ∧
    (evictExpired c now).stats.Evictions
      = (c.stats.Evictions + (c.shards.map
          (fun s => (s.data.filter (fun p => expiredAt now (some p.2))).length)).sum) % 2 ^ 64 := by
  have h := evictExpiredWith_spec (fun _ s => s) c now
    (fun p hp => hnd p.2 (mem_of_mem_enum hp)) hctr
  unfold evictExpired
  rw [h.1, h.2]
  simp only [List.enum]
  rw [map_enumFrom_snd (fun s => sweptShard now s s),
    map_enumFrom_snd (fun s => removedCount now s s)]
  constructor
  · exact List.map_congr_left (fun s hs => sweptShard_self now s (hnd s hs))
  · rw [List.map_congr_left (fun s hs => removedCount_self now s (hnd s hs))]

/-- The entry of a key after a sweep with no other goroutine at work. -/
theorem entry_evictExpired {c : Cache} (hc : WF c)
    (hnd : ∀ s ∈ c.shards, (s.data.map Prod.fst).Nodup) (hctr : c.stats.Evictions < 2 ^ 64)
    (now : Int) (k : String) :
    (evictExpired c now).entry k
      = if expiredAt now (c.entry k) = true then none else c.entry k := by
  have hsh := (evictExpired_spec c now hnd hctr).1
  have hmask : (evictExpired c now).shardMask = c.shardMask :=
    evictExpiredWith_shardMask _ c now
  have hlt := shardIndex_lt hc k
  have hidx : shardIndex (evictExpired c now) k = shardIndex c k := by
    simp only [shardIndex, hmask]
  unfold Cache.entry
  have hget : getShard (evictExpired c now) k
      = ⟨(getShard c k).data.filter (fun p => !expiredAt now (some p.2))⟩ := by
    simp only [getShard, hidx, hsh, List.getD_eq_getElem?_getD, List.getElem?_map,
      List.getElem?_eq_getElem hlt, Option.map_some', Option.getD_some]
  rw [hget]
  exact lookup_filter_live now _ (hnd _ (getShard_mem hc k)) k
theorem lookup_filter_on_key (g : String → Bool) (l : List (String × CacheEntry)) (k : String) :
    (l.filter (fun p => g p.1)).lookup k = if g k = true then l.lookup k else none := by
  induction l with
  | nil => simp
  | cons q l ih =>
    obtain ⟨a, x⟩ := q
    by_cases hka : k = a
    · subst hka
      by_cases hg : g k = true
      · simp [List.filter_cons, hg, List.lookup]
      · simp only [List.filter_cons, hg, Bool.false_eq_true, if_false, ih]
    · have hb : (k == a) = false := by simpa using hka
      by_cases hg : g a = true
      · simp only [List.filter_cons, hg, if_true, List.lookup, hb, ih]
      · simp only [List.filter_cons, hg, Bool.false_eq_true, if_false, List.lookup, hb, ih]

/-- The table after the delete phase, read key by key: a key has lost its entry exactly when
the scan had collected it and the entry that the delete phase finds for it is expired. -/
theorem sweptShard_lookup (now : Int) (scanned cur : CacheShard) (k : String) :
    (sweptShard now scanned cur).lookup k
      = if k ∈ scanExpired now scanned ∧ expiredAt now (cur.lookup k) = true then none
        else cur.lookup k := by
  have h := lookup_filter_on_key
    (fun a => !(decide (a ∈ scanExpired now scanned) && expiredAt now (cur.lookup a))) cur.data k
  simp only [sweptShard, CacheShard.lookup] at h ⊢
  rw [h]
  by_cases h1 : k ∈ scanExpired now scanned <;>
    by_cases h2 : expiredAt now (List.lookup k cur.data) = true <;> simp [h1, h2]

/-- The entry of a key after a sweep interleaved with other goroutines. -/
theorem entry_evictExpiredWith {c : Cache} (hc : WF c) (between : Nat → CacheShard → CacheShard)
    (now : Int) (hnd : ∀ p ∈ c.shards.enum, ((between p.1 p.2).data.map Prod.fst).Nodup)
    (hctr : c.stats.Evictions < 2 ^ 64) (k : String) :
    (evictExpiredWith between c now).entry k
      = (sweptShard now (getShard c k) (between (shardIndex c k) (getShard c k))).lookup k := by
  have hsh := (evictExpiredWith_spec between c now hnd hctr).1
  have hmask := evictExpiredWith_shardMask between c now
  have hlt := shardIndex_lt hc k
  have hidx : shardIndex (evictExpiredWith between c now) k = shardIndex c k := by
    simp only [shardIndex, hmask]
  unfold Cache.entry
  have hget : getShard (evictExpiredWith between c now) k
      = sweptShard now (getShard c k) (between (shardIndex c k) (getShard c k)) := by
    rw [getShard_eq_get k hlt]
    simp only [getShard, hidx, hsh, List.getD_eq_getElem?_getD, List.getElem?_map, List.enum,
      List.getElem?_enumFrom, List.getElem?_eq_getElem hlt, Option.map_some', Option.getD_some,
      Nat.zero_add, List.get_eq_getElem]
  rw [hget]

/-! ## Frame lemmas: an operation on one key leaves the entries of the other keys -/

theorem entry_Set_other (c : Cache) (k value : String) (ttl now : Int) {k' : String}
    (h : k' ≠ k) : (Set c k value ttl now).entry k' = c.entry k' :=
  entry_putShard_other c k k' _ (by rw [CacheShard.lookup_store, if_neg h])

theorem entry_Get_other (c : Cache) (k : String) (now : Int) {k' : String} (h : k' ≠ k) :
    (Get c k now).2.entry k' = c.entry k' := by
  cases he : c.entry k with
  | none => rw [Get_miss he]; rfl
  | some e =>
    by_cases hx : e.ExpireAt > 0 ∧ now > e.ExpireAt
    · rw [Get_expired he hx, entry_stats]
      exact entry_putShard_other c k k' _ (by rw [CacheShard.lookup_delete, if_neg h])
    · rw [Get_hit he hx]; rfl

theorem entry_Delete_other (c : Cache) (k : String) {k' : String} (h : k' ≠ k) :
    (Delete c k).2.entry k' = c.entry k' := by
  cases he : c.entry k with
  | none => rw [Delete_absent he]
  | some e =>
    rw [Delete_present he, entry_stats]
    exact entry_putShard_other c k k' _ (by rw [CacheShard.lookup_delete, if_neg h])

theorem entry_INCR_other (c : Cache) (k : String) (amount : Int) {k' : String} (h : k' ≠ k) :
    (INCR c k amount).2.entry k' = c.entry k' := by
  cases hr : (INCR c k amount).1.2 with
  | some err => rw [(INCR_error c k amount err hr).2]
  | none =>
    have hpair : (INCR c k amount).1 = ((INCR c k amount).1.1, none) := by rw [← hr]
    rw [INCR_success hpair]
    exact entry_putShard_other c k k' _ (by rw [CacheShard.lookup_store, if_neg h])

theorem entry_DECR_other (c : Cache) (k : String) (amount : Int) {k' : String} (h : k' ≠ k) :
    (DECR c k amount).2.entry k' = c.entry k' := by
  unfold DECR
  split
  · rfl
  · exact entry_INCR_other c k _ h

theorem entry_UpdateExpiration_other (c : Cache) (k : String) (ttl now : Int) {k' : String}
    (h : k' ≠ k) : (UpdateExpiration c k ttl now).2.entry k' = c.entry k' := by
  cases he : c.entry k with
  | none => rw [UpdateExpiration_absent he]
  | some e =>
    rw [UpdateExpiration_present he]
    exact entry_putShard_other c k k' _ (by rw [CacheShard.lookup_store, if_neg h])

/-! ## The sweep and what happens between its phases -/

theorem nodup_store {s : CacheShard} (h : (s.data.map Prod.fst).Nodup) (k : String)
    (e : CacheEntry) : ((s.store k e).data.map Prod.fst).Nodup := by
  simp only [CacheShard.store, CacheShard.delete, List.map_cons, List.nodup_cons]
  refine ⟨?_, keys_filter_nodup _ k h⟩
  intro hmem
  obtain ⟨p, hp, hpk⟩ := List.mem_map.1 hmem
  have := (List.mem_filter.1 hp).2
  simp [hpk] at this

/-- C23. A sweep `evictExpired` at the clock reading `now`, where `between i` is whatever the
other goroutines do to the table of shard `i` between the scan phase and the delete phase
(overwrites, TTL updates, deletes: any table at all). On every shard the delete phase leaves
the table it finds minus exactly the keys that the scan collected and whose entry in the
table it finds has `expireAt > 0` and `now > expireAt`, and it counts the entries it removes;
so does the whole sweep on every shard and on the entry of every key, and the evictions
counter grows (as a `uint64`) by the number of entries removed over all shards. With no
change in between, every table loses exactly its entries with `0 < expireAt < now`, every
other entry is untouched, and the counter grows by the number of those entries. -/
theorem C23_evict_expired (c : Cache) (hc : WF c) (now : Int)
    (between : Nat → CacheShard → CacheShard)
    (hself : ∀ s ∈ c.shards, (s.data.map Prod.fst).Nodup)
    (hmaps : ∀ p ∈ c.shards.enum, ((between p.1 p.2).data.map Prod.fst).Nodup)
    (hctr : c.stats.Evictions < 2 ^ 64) :
    (∀ (scanned cur : CacheShard) (n : Nat), (cur.data.map Prod.fst).Nodup → n < 2 ^ 64 →
      deleteExpired now (scanExpired now scanned) cur n
        = (sweptShard now scanned cur, (n + removedCount now scanned cur) % 2 ^ 64)) ∧
    (∀ (scanned cur : CacheShard) (k : String),
      (sweptShard now scanned cur).lookup k
        = if k ∈ scanExpired now scanned ∧ expiredAt now (cur.lookup k) = true then none
          else cur.lookup k) ∧
    (evictExpiredWith between c now).shards
      = c.shards.enum.map (fun p => sweptShard now p.2 (between p.1 p.2)) ∧
    (∀ k : String, (evictExpiredWith between c now).entry k
      = if k ∈ scanExpired now (getShard c k) ∧
            expiredAt now ((between (shardIndex c k) (getShard c k)).lookup k) = true then none
        else (between (shardIndex c k) (getShard c k)).lookup k) ∧
    (evictExpiredWith between c now).stats.Evictions
      = (c.stats.Evictions + (c.shards.enum.map
          (fun p => removedCount now p.2 (between p.1 p.2))).sum) % 2 ^ 64 ∧
    (evictExpired c now).shards
      = c.shards.map (fun s => ⟨s.data.filter (fun p => !expiredAt now (some p.2))⟩) ∧
    (∀ k : String, (evictExpired c now).entry k
      = if expiredAt now (c.entry k) = true then none else c.entry k) ∧
    (evictExpired c now).stats.Evictions
      = (c.stats.Evictions + (c.shards.map
          (fun s => (s.data.filter (fun p => expiredAt now (some p.2))).length)).sum) % 2 ^ 64 := by
  have hw := evictExpiredWith_spec between c now hmaps hctr
  have hs := evictExpired_spec c now hself hctr
  refine ⟨fun scanned cur n hnd hn => deleteExpired_scan now scanned cur n hnd hn,
    fun scanned cur k => sweptShard_lookup now scanned cur k, hw.1, ?_, hw.2, hs.1,
    fun k => entry_evictExpired hc hself hctr now k, hs.2⟩
  intro k
  rw [entry_evictExpiredWith hc between now hmaps hctr k, sweptShard_lookup]

/-- C23 at a concrete input: key `a` set with a TTL of 5 at the clock reading 100 and key `b`
set without TTL. A sweep at 200 during which `a` is overwritten without TTL between the scan
and the delete phase of its shard keeps `a`; a sweep at 200 with nothing in between removes
`a`; both keep `b`. -/
theorem C23_evict_expired_witness :
    (evictExpiredWith
      (fun i s => if i = shardIndex (Set (Set NewCache "a" "1" 5 100) "b" "2" 0 100) "a"
        then s.store "a" ⟨"1", 0⟩ else s)
      (Set (Set NewCache "a" "1" 5 100) "b" "2" 0 100) 200).entry "a" = some ⟨"1", 0⟩ ∧
    (evictExpired (Set (Set NewCache "a" "1" 5 100) "b" "2" 0 100) 200).entry "a" = none ∧
    (evictExpired (Set (Set NewCache "a" "1" 5 100) "b" "2" 0 100) 200).entry "b"
      = some ⟨"2", 0⟩ := by
  have hwf : WF (Set (Set NewCache "a" "1" 5 100) "b" "2" 0 100) :=
    WF_Set (WF_Set WF_NewCache ..) ..
  have hml : MapLike (Set (Set NewCache "a" "1" 5 100) "b" "2" 0 100) :=
    MapLike_Set (WF_Set WF_NewCache ..) (MapLike_Set WF_NewCache MapLike_NewCache ..) ..
  have ha : (Set (Set NewCache "a" "1" 5 100) "b" "2" 0 100).entry "a" = some ⟨"1", 105⟩ :=
    (entry_Set_other _ "b" "2" 0 100 (by decide)).trans
      ((entry_Set_same WF_NewCache "a" "1" 5 100).trans (by decide))
  have hb : (Set (Set NewCache "a" "1" 5 100) "b" "2" 0 100).entry "b" = some ⟨"2", 0⟩ :=
    (entry_Set_same (WF_Set WF_NewCache ..) "b" "2" 0 100).trans (by decide)
  have h := C23_evict_expired (Set (Set NewCache "a" "1" 5 100) "b" "2" 0 100) hwf 200
    (fun i s => if i = shardIndex (Set (Set NewCache "a" "1" 5 100) "b" "2" 0 100) "a"
      then s.store "a" ⟨"1", 0⟩ else s)
    hml.nodup
    (fun p hp => by
      dsimp only
      split
      · exact nodup_store (hml.nodup p.2 (mem_of_mem_enum hp)) _ _
      · exact hml.nodup p.2 (mem_of_mem_enum hp))
    (by decide)
  refine ⟨?_, ?_, ?_⟩
  · rw [h.2.2.2.1 "a"]
    simp only [if_true, CacheShard.lookup_store]
    exact if_neg (fun hx => absurd hx.2 (by decide))
  · rw [h.2.2.2.2.2.2.1 "a", ha]
    decide
  · rw [h.2.2.2.2.2.2.1 "b", hb]
    decide

/-! ## The shard array and the mask -/

theorem hashKey_eq_hashBytes (key : String) : hashKey key = hashBytes (keyBytes key) := rfl

theorem putShard_shape (c : Cache) (key : String) (s : CacheShard) :
    (putShard c key s).shards.length = c.shards.length ∧
    (putShard c key s).shardMask = c.shardMask :=
  ⟨by simp [putShard], rfl⟩

/-- No call changes the number of shards or the mask. -/
theorem Call.run_shape (call : Call) (c : Cache) :
    (call.run c).shards.length = c.shards.length ∧ (call.run c).shardMask = c.shardMask := by
  cases call with
  | set key value ttl now => exact putShard_shape c key _
  | get key now =>
    simp only [Call.run]
    cases he : c.entry key with
    | none => rw [Get_miss he]; exact ⟨rfl, rfl⟩
    | some e =>
      by_cases hx : e.ExpireAt > 0 ∧ now > e.ExpireAt
      · rw [Get_expired he hx]; exact putShard_shape c key _
      · rw [Get_hit he hx]; exact ⟨rfl, rfl⟩
  | delete key =>
    simp only [Call.run]
    cases he : c.entry key with
    | none => rw [Delete_absent he]; exact ⟨rfl, rfl⟩
    | some e => rw [Delete_present he]; exact putShard_shape c key _
  | getAll now => exact ⟨rfl, rfl⟩
  | evictExpired now =>
    simp only [Call.run, DustDB.evictExpired]
    exact ⟨by rw [evictExpiredWith_shards, sweepShards_length],
      evictExpiredWith_shardMask _ c now⟩
  | incr key amount =>
    simp only [Call.run]
    rcases INCR_cases c key amount with ⟨e, -, he⟩ | ⟨v, s, hv⟩
    · rw [he]; exact ⟨rfl, rfl⟩
    · rw [hv]; exact putShard_shape c key s
  | decr key amount =>
    simp only [Call.run]
    rcases DECR_cases c key amount with ⟨e, -, he⟩ | ⟨v, s, hv⟩
    · rw [he]; exact ⟨rfl, rfl⟩
    · rw [hv]; exact putShard_shape c key s
  | updateExpiration key ttl now =>
    simp only [Call.run]
    cases he : c.entry key with
    | none => rw [UpdateExpiration_absent he]; exact ⟨rfl, rfl⟩
    | some e => rw [UpdateExpiration_present he]; exact putShard_shape c key _

theorem runCalls_shape (calls : List Call) :
    ∀ c : Cache, (runCalls calls c).shards.length = c.shards.length ∧
      (runCalls calls c).shardMask = c.shardMask := by
  induction calls with
  | nil => intro c; exact ⟨rfl, rfl⟩
  | cons call rest ih =>
    intro c
    have h1 := Call.run_shape call c
    have h2 := ih (call.run c)
    simp only [runCalls, List.foldl_cons] at h2 ⊢
    exact ⟨h2.1.trans h1.1, h2.2.trans h1.2⟩

theorem WF_runCalls (calls : List Call) : WF (runCalls calls NewCache) :=
  ⟨(runCalls_shape calls NewCache).1.trans WF_NewCache.len,
    (runCalls_shape calls NewCache).2.trans WF_NewCache.mask⟩

/-- In a well-formed cache masking a hash is the same as reducing it modulo the number of
shards, and the result is an index of the shard array. -/
theorem mask_eq_mod {c : Cache} (hc : WF c) (h : Nat) :
    h &&& c.shardMask = h % c.shards.length ∧ h &&& c.shardMask < c.shards.length := by
  have hm : h &&& c.shardMask = h % c.shards.length := by
    rw [hc.mask, hc.len]
    exact Nat.and_pow_two_sub_one_eq_mod h 10
  refine ⟨hm, ?_⟩
  rw [hm]
  exact Nat.mod_lt _ (by rw [hc.len]; decide)

/-- C24. In every state that a sequence of calls reaches from a fresh cache the shard array
has `ShardCount = 1024 = 2^10` entries and `shardMask` is `1023`; for every key, and for the
hash of every sequence of bytes (the empty one included), the index `h & shardMask` that
`getShard` computes is `h mod len(shards)` and is less than `len(shards)`, so `getShard`
returns an element of the array. `NewCache` establishes the two facts and no call, nor a
sweep interleaved with other goroutines, changes the length of the array or the mask. -/
theorem C24_shard_index_in_range (calls : List Call) (key : String) (bytes : List Nat) :
    (NewCache.shards.length = ShardCount ∧ ShardCount = 2 ^ 10 ∧
      NewCache.shardMask = NewCache.shards.length - 1) ∧
    (∀ (c : Cache) (call : Call),
      (call.run c).shards.length = c.shards.length ∧ (call.run c).shardMask = c.shardMask) ∧
    (∀ (c : Cache) (between : Nat → CacheShard → CacheShard) (now : Int),
      (evictExpiredWith between c now).shards.length = c.shards.length ∧
      (evictExpiredWith between c now).shardMask = c.shardMask) ∧
    ((runCalls calls NewCache).shards.length = 1024 ∧
      (runCalls calls NewCache).shardMask = (runCalls calls NewCache).shards.length - 1) ∧
    (shardIndex (runCalls calls NewCache) key
        = hashKey key % (runCalls calls NewCache).shards.length ∧
      shardIndex (runCalls calls NewCache) key < (runCalls calls NewCache).shards.length ∧
      (runCalls calls NewCache).shards[shardIndex (runCalls calls NewCache) key]?
        = some (getShard (runCalls calls NewCache) key)) ∧
    (hashBytes bytes &&& (runCalls calls NewCache).shardMask
        = hashBytes bytes % (runCalls calls NewCache).shards.length ∧
      hashBytes bytes &&& (runCalls calls NewCache).shardMask
        < (runCalls calls NewCache).shards.length) ∧
    (hashBytes [] = 0 ∧ shardIndex (runCalls calls NewCache) "" = 0) := by
  have hwf := WF_runCalls calls
  have hk := mask_eq_mod hwf (hashKey key)
  refine ⟨⟨WF_NewCache.len, by decide, ?_⟩, fun c call => Call.run_shape call c, ?_,
    ⟨hwf.len, ?_⟩, ⟨hk.1, hk.2, ?_⟩, mask_eq_mod hwf (hashBytes bytes), rfl, ?_⟩
  · rw [WF_NewCache.mask, WF_NewCache.len]
  · intro c between now
    exact ⟨by rw [evictExpiredWith_shards, sweepShards_length],
      evictExpiredWith_shardMask between c now⟩
  · rw [hwf.mask, hwf.len]
  · have hlt : shardIndex (runCalls calls NewCache) key
        < (runCalls calls NewCache).shards.length := hk.2
    rw [getShard_eq_get key hlt, List.getElem?_eq_getElem hlt]
    rfl
  · have hb : keyBytes "" = [] := by
      simp [keyBytes, String.toUTF8, ByteArray.toList, ByteArray.toList.loop, ByteArray.size]
    have h0 : hashKey "" = 0 := by rw [hashKey_eq_hashBytes, hb]; rfl
    simp only [shardIndex, h0, Nat.zero_and]

/-! ## `Get` step by step -/

/-- The two critical sections of `Get`, run one right after the other, are `Get`. -/
theorem GetWith_id (c : Cache) (key : String) (now : Int) :
    GetWith (fun c => c) c key now = Get c key now := by
  unfold GetWith GetRead Get GetDelete
  cases h : (getShard c key).lookup key with
  | none => simp only [h]
  | some e =>
    simp only [h]
    split_ifs <;> rfl

/-- The first critical section on an expired entry changes nothing and hands over to the
second. -/
theorem GetRead_expired {c : Cache} {key : String} {e : CacheEntry} (h : c.entry key = some e)
    {now : Int} (hx : e.ExpireAt > 0 ∧ now > e.ExpireAt) : GetRead c key now = (none, c) := by
  unfold Cache.entry at h
  simp only [GetRead, h, if_pos hx]

/-- The second critical section leaves no entry for the key, whatever it finds. -/
theorem entry_GetDelete {c : Cache} (hc : WF c) (key : String) :
    (GetDelete c key).2.entry key = none := by
  unfold GetDelete
  exact entry_after_expired hc key _

/-- A `Get` that found the entry expired deletes whatever a `Set` stores for the key between
its two critical sections. -/
theorem GetWith_Set_lost {c : Cache} (hc : WF c) {key : String} {e : CacheEntry}
    (h : c.entry key = some e) {now : Int} (hx : e.ExpireAt > 0 ∧ now > e.ExpireAt)
    (v2 : String) (t t' : Int) :
    (GetWith (fun c1 => Set c1 key v2 0 t) c key now).1 = ("", false) ∧
    (GetWith (fun c1 => Set c1 key v2 0 t) c key now).2.entry key = none ∧
    (Get (GetWith (fun c1 => Set c1 key v2 0 t) c key now).2 key t').1 = ("", false) := by
  have hg : GetWith (fun c1 => Set c1 key v2 0 t) c key now
      = GetDelete (Set c key v2 0 t) key := by
    simp only [GetWith, GetRead_expired h hx]
  have hn := entry_GetDelete (WF_Set hc key v2 0 t) key
  rw [hg]
  refine ⟨rfl, hn, ?_⟩
  rw [Get_result, hn]

/-- C25 fails on the code. `Get` deletes the key in its second critical section without
looking at the entry again. Key `k` is set to `v1` with a TTL of 5 at the clock reading 100;
a `Get(k)` at 200 reads the expired entry and releases the read lock; `Set(k, v2, 0)` runs
to completion at 201 and `k` holds `v2`; `Get` then takes the write lock and deletes `k`:
it returns `("", false)`, `k` has no entry, and a following `Get(k)` returns `("", false)`
where the claim has `(v2, true)`. The same holds for every key with an expired entry and
every value `v2`. Run without anything in between, the two sections are `Get`. -/
theorem C25_get_deletes_fresh_set :
    (GetRead (Set NewCache "k" "v1" 5 100) "k" 200 = (none, Set NewCache "k" "v1" 5 100) ∧
      (Set (Set NewCache "k" "v1" 5 100) "k" "v2" 0 201).entry "k" = some ⟨"v2", 0⟩ ∧
      (GetWith (fun c => Set c "k" "v2" 0 201) (Set NewCache "k" "v1" 5 100) "k" 200).1
        = ("", false) ∧
      (GetWith (fun c => Set c "k" "v2" 0 201) (Set NewCache "k" "v1" 5 100) "k" 200).2.entry "k"
        = none ∧
      (Get (GetWith (fun c => Set c "k" "v2" 0 201) (Set NewCache "k" "v1" 5 100) "k" 200).2
        "k" 202).1 = ("", false)) ∧
    (∀ (c : Cache) (k v2 : String) (e : CacheEntry) (now t t' : Int), WF c →
      c.entry k = some e → e.ExpireAt > 0 ∧ now > e.ExpireAt →
      (Set c k v2 0 t).entry k = some ⟨v2, 0⟩ ∧
      (GetWith (fun c1 => Set c1 k v2 0 t) c k now).2.entry k = none ∧
      (Get (GetWith (fun c1 => Set c1 k v2 0 t) c k now).2 k t').1 = ("", false)) ∧
    (∀ (c : Cache) (k : String) (now : Int), GetWith (fun c1 => c1) c k now = Get c k now) := by
  have he : (Set NewCache "k" "v1" 5 100).entry "k" = some ⟨"v1", 105⟩ :=
    (entry_Set_same WF_NewCache "k" "v1" 5 100).trans (by decide)
  have hx : (⟨"v1", 105⟩ : CacheEntry).ExpireAt > 0 ∧
      (200 : Int) > (⟨"v1", 105⟩ : CacheEntry).ExpireAt := by decide
  have hl := GetWith_Set_lost (WF_Set WF_NewCache "k" "v1" 5 100) he hx "v2" 201 202
  refine ⟨⟨GetRead_expired he hx, ?_, hl.1, hl.2.1, hl.2.2⟩, ?_, GetWith_id⟩
  · exact (entry_Set_same (WF_Set WF_NewCache ..) "k" "v2" 0 201).trans (by decide)
  · intro c k v2 e now t t' hc hent hexp
    have h := GetWith_Set_lost hc hent hexp v2 t t'
    exact ⟨(entry_Set_same hc k v2 0 t).trans (by simp), h.2.1, h.2.2⟩
/-! ## The entries of the other keys -/

theorem entry_GetDelete_other (c : Cache) (k : String) {k' : String} (h : k' ≠ k) :
    (GetDelete c k).2.entry k' = c.entry k' := by
  unfold GetDelete
  rw [entry_stats]
  exact entry_putShard_other c k k' _ (by rw [CacheShard.lookup_delete, if_neg h])

theorem entry_GetRead (c : Cache) (k : String) (now : Int) (k' : String) :
    (GetRead c k now).2.entry k' = c.entry k' := by
  unfold GetRead
  cases h : (getShard c k).lookup k with
  | none => simp only [h]; rfl
  | some e =>
    simp only [h]
    split_ifs <;> rfl

/-- C26. For distinct keys `k` and `k'`, in the same shard or not, each of `Set`, `Get` (the
whole call, and each of its two critical sections, the lazy-expiry deletion included),
`Delete`, `INCR`, `DECR`, their wrappers and `UpdateExpiration`, applied to `k` with any
arguments in any cache state, leaves the entry stored for `k'` as it was: present or absent,
with the same value and the same `expireAt`. -/
theorem C26_other_keys_untouched (c : Cache) (k k' : String) (hne : k' ≠ k) (value : String)
    (ttl now amount : Int) :
    (Set c k value ttl now).entry k' = c.entry k' ∧
    (Get c k now).2.entry k' = c.entry k' ∧
    (GetRead c k now).2.entry k' = c.entry k' ∧
    (GetDelete c k).2.entry k' = c.entry k' ∧
    (Delete c k).2.entry k' = c.entry k' ∧
    (INCR c k amount).2.entry k' = c.entry k' ∧
    (DECR c k amount).2.entry k' = c.entry k' ∧
    (IncrBy c k amount).2.entry k' = c.entry k' ∧
    (DecrBy c k amount).2.entry k' = c.entry k' ∧
    (Incr c k).2.entry k' = c.entry k' ∧
    (Decr c k).2.entry k' = c.entry k' ∧
    (UpdateExpiration c k ttl now).2.entry k' = c.entry k' :=
  ⟨entry_Set_other c k value ttl now hne, entry_Get_other c k now hne,
    entry_GetRead c k now k', entry_GetDelete_other c k hne, entry_Delete_other c k hne,
    entry_INCR_other c k amount hne, entry_DECR_other c k amount hne,
    entry_INCR_other c k amount hne, entry_DECR_other c k amount hne,
    entry_INCR_other c k 1 hne, entry_DECR_other c k 1 hne,
    entry_UpdateExpiration_other c k ttl now hne⟩

/-- C26 at a concrete input: key `b` holds `2` with the expiry 107 and key `a` holds `1` with
the expiry 105; a `Get(a)` at 200, which deletes `a`, a `Delete(a)` and an `INCR(a, 3)` all
leave the entry of `b`. -/
theorem C26_other_keys_untouched_witness :
    "b" ≠ "a" ∧
    (Set (Set NewCache "b" "2" 7 100) "a" "1" 5 100).entry "b" = some ⟨"2", 107⟩ ∧
    (Get (Set (Set NewCache "b" "2" 7 100) "a" "1" 5 100) "a" 200).2.entry "b"
      = some ⟨"2", 107⟩ ∧
    (Delete (Set (Set NewCache "b" "2" 7 100) "a" "1" 5 100) "a").2.entry "b"
      = some ⟨"2", 107⟩ ∧
    (INCR (Set (Set NewCache "b" "2" 7 100) "a" "1" 5 100) "a" 3).2.entry "b"
      = some ⟨"2", 107⟩ :=
  have hb : (Set NewCache "b" "2" 7 100).entry "b" = some ⟨"2", 107⟩ :=
    (entry_Set_same WF_NewCache "b" "2" 7 100).trans (by decide)
  have h0 := C26_other_keys_untouched (Set NewCache "b" "2" 7 100) "a" "b" (by decide) "1" 5 100 0
  have h := C26_other_keys_untouched (Set (Set NewCache "b" "2" 7 100) "a" "1" 5 100) "a" "b"
    (by decide) "" 0 200 3
  ⟨by decide, h0.1.trans hb, h.2.1.trans (h0.1.trans hb), h.2.2.2.2.1.trans (h0.1.trans hb),
    h.2.2.2.2.2.1.trans (h0.1.trans hb)⟩

/-! ## The counters `Gets`, `Hits` and `Misses` -/

/-- What `Get` does to the three counters: one more get, and one more hit when it returns a
value, one more miss when it returns none. -/
theorem Get_counters (c : Cache) (key : String) (now : Int) :
    (Get c key now).2.stats.Gets = (c.stats.Gets + 1) % 2 ^ 64 ∧
    ((Get c key now).1.2 = true →
      (Get c key now).2.stats.Hits = (c.stats.Hits + 1) % 2 ^ 64 ∧
      (Get c key now).2.stats.Misses = c.stats.Misses) ∧
    ((Get c key now).1.2 = false →
      (Get c key now).2.stats.Hits = c.stats.Hits ∧
      (Get c key now).2.stats.Misses = (c.stats.Misses + 1) % 2 ^ 64) := by
  cases he : c.entry key with
  | none =>
    rw [Get_miss he]
    exact ⟨rfl, fun h => absurd h (by simp), fun _ => ⟨rfl, rfl⟩⟩
  | some e =>
    by_cases hx : e.ExpireAt > 0 ∧ now > e.ExpireAt
    · rw [Get_expired he hx]
      exact ⟨rfl, fun h => absurd h (by simp), fun _ => ⟨rfl, rfl⟩⟩
    · rw [Get_hit he hx]
      exact ⟨rfl, fun _ => ⟨rfl, rfl⟩, fun h => absurd h (by simp)⟩

/-- Every call other than `Get` leaves the three counters as they are. -/
theorem Call.run_counters (call : Call) (c : Cache) (h : ∀ key now, call ≠ .get key now) :
    (call.run c).stats.Gets = c.stats.Gets ∧ (call.run c).stats.Hits = c.stats.Hits ∧
    (call.run c).stats.Misses = c.stats.Misses := by
  cases call with
  | set key value ttl now => exact ⟨rfl, rfl, rfl⟩
  | get key now => exact absurd rfl (h key now)
  | delete key =>
    simp only [Call.run]
    cases he : c.entry key with
    | none => rw [Delete_absent he]; exact ⟨rfl, rfl, rfl⟩
    | some e => rw [Delete_present he]; exact ⟨rfl, rfl, rfl⟩
  | getAll now => exact ⟨rfl, rfl, rfl⟩
  | evictExpired now =>
    have := evictExpiredWith_stats (fun _ s => s) c now
    exact ⟨this.1, this.2.2.2.1, this.2.2.2.2.1⟩
  | incr key amount =>
    simp only [Call.run]
    rcases INCR_cases c key amount with ⟨e, -, he⟩ | ⟨v, s, hv⟩
    · rw [he]; exact ⟨rfl, rfl, rfl⟩
    · rw [hv]; exact ⟨rfl, rfl, rfl⟩
  | decr key amount =>
    simp only [Call.run]
    rcases DECR_cases c key amount with ⟨e, -, he⟩ | ⟨v, s, hv⟩
    · rw [he]; exact ⟨rfl, rfl, rfl⟩
    · rw [hv]; exact ⟨rfl, rfl, rfl⟩
  | updateExpiration key ttl now =>
    simp only [Call.run]
    cases he : c.entry key with
    | none => rw [UpdateExpiration_absent he]; exact ⟨rfl, rfl, rfl⟩
    | some e => rw [UpdateExpiration_present he]; exact ⟨rfl, rfl, rfl⟩

/-- The invariant of the three counters along a sequence of calls. -/
theorem runCalls_counters (calls : List Call) :
    ∀ c : Cache, c.stats.Gets = (c.stats.Hits + c.stats.Misses) % 2 ^ 64 →
      (runCalls calls c).stats.Gets
        = ((runCalls calls c).stats.Hits + (runCalls calls c).stats.Misses) % 2 ^ 64 := by
  induction calls with
  | nil => intro c h; exact h
  | cons call rest ih =>
    intro c h
    simp only [runCalls, List.foldl_cons]
    apply ih
    by_cases hg : ∃ key now, call = .get key now
    · obtain ⟨key, now, rfl⟩ := hg
      obtain ⟨h1, h2, h3⟩ := Get_counters c key now
      simp only [Call.run]
      cases hb : (Get c key now).1.2 with
      | true =>
        obtain ⟨h4, h5⟩ := h2 hb
        rw [h1, h4, h5, h]
        omega
      | false =>
        obtain ⟨h4, h5⟩ := h3 hb
        rw [h1, h4, h5, h]
        omega
    · have hne : ∀ key now, call ≠ .get key now := fun key now hc => hg ⟨key, now, hc⟩
      obtain ⟨h1, h2, h3⟩ := Call.run_counters call c hne
      rw [h1, h2, h3]
      exact h

/-- C27. In every state that a sequence of `Set`, `Get`, `Delete`, `GetAll`, `evictExpired`,
`INCR`, `DECR` and `UpdateExpiration` calls reaches from a fresh cache, `gets` equals
`hits + misses` modulo `2^64`. Every `Get` adds 1 (modulo `2^64`) to `gets` and to exactly
one of `hits` and `misses`, `hits` when it returns a value and `misses` when it returns none,
and leaves the other as it is; every other call leaves the three counters unchanged. -/
theorem C27_gets_eq_hits_add_misses (calls : List Call) :
    (runCalls calls NewCache).stats.Gets
      = ((runCalls calls NewCache).stats.Hits + (runCalls calls NewCache).stats.Misses)
          % 2 ^ 64 ∧
    (∀ (c : Cache) (key : String) (now : Int),
      (Get c key now).2.stats.Gets = (c.stats.Gets + 1) % 2 ^ 64 ∧
      ((Get c key now).1.2 = true →
        (Get c key now).2.stats.Hits = (c.stats.Hits + 1) % 2 ^ 64 ∧
        (Get c key now).2.stats.Misses = c.stats.Misses) ∧
      ((Get c key now).1.2 = false →
        (Get c key now).2.stats.Hits = c.stats.Hits ∧
        (Get c key now).2.stats.Misses = (c.stats.Misses + 1) % 2 ^ 64)) ∧
    (∀ (c : Cache) (call : Call), (∀ key now, call ≠ .get key now) →
      (call.run c).stats.Gets = c.stats.Gets ∧ (call.run c).stats.Hits = c.stats.Hits ∧
      (call.run c).stats.Misses = c.stats.Misses) ∧
    (∀ (c : Cache) (between : Nat → CacheShard → CacheShard) (now : Int),
      (evictExpiredWith between c now).stats.Gets = c.stats.Gets ∧
      (evictExpiredWith between c now).stats.Hits = c.stats.Hits ∧
      (evictExpiredWith between c now).stats.Misses = c.stats.Misses) :=
  ⟨runCalls_counters calls NewCache (by decide), Get_counters,
    fun c call h => Call.run_counters call c h,
    fun c between now =>
      ⟨(evictExpiredWith_stats between c now).1, (evictExpiredWith_stats between c now).2.2.2.1,
        (evictExpiredWith_stats between c now).2.2.2.2.1⟩⟩

/-- C27 at a concrete sequence: a set, a hit, a miss on another key, a delete, a miss, an
increment and a sweep. -/
theorem C27_gets_eq_hits_add_misses_witness :
    (runCalls [.set "k" "v" 0 100, .get "k" 101, .get "x" 102, .delete "k", .get "k" 103,
        .incr "n" 1, .evictExpired 104] NewCache).stats.Gets
      = ((runCalls [.set "k" "v" 0 100, .get "k" 101, .get "x" 102, .delete "k", .get "k" 103,
            .incr "n" 1, .evictExpired 104] NewCache).stats.Hits
          + (runCalls [.set "k" "v" 0 100, .get "k" 101, .get "x" 102, .delete "k",
            .get "k" 103, .incr "n" 1, .evictExpired 104] NewCache).stats.Misses) % 2 ^ 64 :=
  (C27_gets_eq_hits_add_misses _).1

end DustDB
